import Mathlib

/-!
Verification of the GRASP graph-coloring heuristic
(src/src/algorithms/grasp.rs).

The Rust source is shallowly embedded below.  Vectors become Lean lists,
usize becomes Nat (with usize::MAX kept explicit where the source compares
against it), panics become Except.error, and the thread-local RNG becomes an
explicit oracle stream of naturals: a slice pick reads the next oracle value
r and selects index r % len, so quantifying over all streams covers every
behaviour the randomized source can exhibit (including every possible
HashSet iteration order feeding a uniformly random pick).

The Graph oracle and the two coloring helpers consumed by grasp.rs live in
sibling modules of the repository that are not part of the sources given
here; they are modelled from the specification (sections 3 and 6) and marked
as such in their doc comments.  Everything else is translated from
grasp.rs directly.
-/

namespace GCP

/-- Random oracle: an infinite stream of naturals standing for the
thread-local RNG of the source. -/
def RS : Type := Nat → Nat

/-- The oracle with its first value consumed. -/
def RS.shift (r : RS) : RS := fun i => r (i + 1)

/-- Draw the next oracle value, returning it and the shifted stream. -/
def RS.next (r : RS) : Nat × RS := (r 0, RS.shift r)

/-- The all-zero oracle, used for concrete evaluations. -/
def rngZero : RS := fun _ => 0

/-- usize::MAX on the 64-bit targets the program runs on. -/
def USIZE_MAX : Nat := 2 ^ 64 - 1

/-- Modelled from the spec: the read-only Graph oracle (spec sections 3, 6).
A finite vertex set 0..n with a boolean adjacency relation. -/
structure Graph where
  n : Nat
  adj : Nat → Nat → Bool

/-- Modelled from the spec: the graph invariants the caller guarantees
(symmetric adjacency, no self-loops, in-range endpoints). -/
def Graph.wf (g : Graph) : Prop :=
  (∀ i j, g.adj i j = g.adj j i) ∧
  (∀ i, g.adj i i = false) ∧
  (∀ i j, g.adj i j = true → i < g.n ∧ j < g.n)

/-- Modelled from the spec: Graph::get_neighbors(v), the sequence of vertex
indices adjacent to v (spec section 6). -/
def getNeighbors (g : Graph) (v : Nat) : List Nat :=
  (List.range g.n).filter (fun u => g.adj v u)

/-- Modelled from the spec: Graph::get_degree_in_list(v, l), the count of
vertices in l adjacent to v (spec section 6). -/
def getDegreeInList (g : Graph) (v : Nat) (l : List Nat) : Nat :=
  (l.filter (fun u => g.adj v u)).length

/-- First 1-based class index of class list cl containing v, or 0 when v
appears in no class. -/
def colorOf (cl : List (List Nat)) (v : Nat) : Nat :=
  match cl.findIdx? (fun c => c.contains v) with
  | some i => i + 1
  | none => 0

/-- Modelled from the spec: get_coloring_from_class_list(n, class_list),
the vector whose position v holds the 1-based color of vertex v, or 0 if
uncolored (spec section 6). -/
def getColoringFromClassList (n : Nat) (cl : List (List Nat)) : List Nat :=
  (List.range n).map (fun v => colorOf cl v)

/-- Modelled from the spec: count_forbidden_per_vertex(graph, coloring, v),
the number of neighbors of v sharing the color of v (spec section 6). -/
def countForbiddenPerVertex (g : Graph) (coloring : List Nat) (v : Nat) : Nat :=
  ((getNeighbors g v).filter (fun u => coloring.getD u 0 == coloring.getD v 0)).length

/-- Stable descending sort of index/key pairs by key, as Rust's stable
sort_by with the reversed comparator behaves: elements are grouped by key
from the largest key downward, ties keeping their original relative order.
Mirrors degrees.sort_by in grasp.rs lines 24 and 143. -/
def sortByKeyDesc (l : List (Nat × Nat)) : List (Nat × Nat) :=
  let m := (l.map Prod.snd).foldr max 0
  (List.range (m + 1)).reverse.flatMap (fun d => l.filter (fun p => p.2 == d))

/-- get_n_largest_degree (grasp.rs lines 9-27): up to sz indexes of the
highest-degree vertices of subset, degree measured in list when provided
and in subset itself otherwise. -/
def getNLargestDegree (sz : Nat) (g : Graph) (subset : List Nat)
    (list : Option (List Nat)) : List Nat :=
  let l := match list with | some l => l | none => subset
  let degrees := (List.range g.n).map (fun v => (v, getDegreeInList g v l))
  let degrees := degrees.filter (fun x => subset.contains x.1)
  let degrees := sortByKeyDesc degrees
  (degrees.take sz).map Prod.fst

/-- count_remaining_edges (grasp.rs lines 30-42): number of adjacent pairs
at positions i < j of list.  The source indexes the adjacency matrix, which
equals g.adj on the in-range vertices every caller passes. -/
def countRemainingEdges (g : Graph) (l : List Nat) : Nat :=
  ((List.range l.length).map (fun i =>
    ((List.range l.length).filter
      (fun j => i < j && g.adj (l.getD i 0) (l.getD j 0))).length)).sum

/-- The forbidden pairs scanned by get_forbidden (grasp.rs lines 190-198):
pairs i ≤ j with i adjacent to j and equal colors. -/
def forbiddenPairs (g : Graph) (coloring : List Nat) : List (Nat × Nat) :=
  (List.range g.n).flatMap (fun i =>
    ((List.range' i (g.n - i)).filter
      (fun j => g.adj i j && coloring.getD i 0 == coloring.getD j 0)).map
      (fun j => (i, j)))

/-- get_forbidden (grasp.rs lines 184-200): the count of forbidden edges of
class_list and the set of vertices incident to one.  The source returns a
HashSet whose iteration order is arbitrary; the model lists the same set in
increasing vertex order, the oracle-driven pick over it reaching every
element the source could pick. -/
def getForbidden (g : Graph) (cl : List (List Nat)) : Nat × List Nat :=
  let coloring := getColoringFromClassList g.n cl
  let pairs := forbiddenPairs g coloring
  (pairs.length,
   (List.range g.n).filter (fun v => pairs.any (fun p => p.1 == v || p.2 == v)))

/-- Total number of occurrences of vertex v across the classes of cl. -/
def countIn (cl : List (List Nat)) (v : Nat) : Nat :=
  (cl.map (fun c => c.count v)).sum

/-- Every vertex below g.n occurs exactly once in the classes of cl, and
nothing else occurs at all. -/
def Partitioned (g : Graph) (cl : List (List Nat)) : Prop :=
  (∀ v, v < g.n → countIn cl v = 1) ∧ (∀ v, 0 < countIn cl v → v < g.n)

/-- No class of cl contains two adjacent vertices (nor a self-loop). -/
def ProperCl (g : Graph) (cl : List (List Nat)) : Prop :=
  ∀ c ∈ cl, ∀ u ∈ c, ∀ w ∈ c, g.adj u w = false

/-- Number of non-empty classes of cl. -/
def countNonempty (cl : List (List Nat)) : Nat :=
  (cl.filter (fun c => !c.isEmpty)).length

/-- The complete graph on n vertices. -/
def completeGraph (n : Nat) : Graph :=
  ⟨n, fun i j => decide (i < n) && decide (j < n) && decide (i ≠ j)⟩

/-- The edgeless graph on n vertices. -/
def edgeless (n : Nat) : Graph := ⟨n, fun _ _ => false⟩

/-- The while loop of assign_color (grasp.rs lines 100-121).  Structurally
recursive on a fuel argument that the caller sets above the iteration count:
every pass removes the picked vertex from admissible, so fuel
admissible.length + 1 is never exhausted. -/
def assignLoop (g : Graph) (sz : Nat) :
    Nat → List Nat → List Nat → List Nat → RS → Except String (List Nat × RS)
  | 0, _, _, _, _ => .error "fuel"
  | fuel + 1, admissible, inadmissible, current, r =>
    if admissible.isEmpty then .ok (current, r)
    else
      let candidateList :=
        if inadmissible.isEmpty then getNLargestDegree sz g admissible none
        else getNLargestDegree sz g admissible (some inadmissible)
      if candidateList.isEmpty then .error "CSize must be at least 1"
      else
        let p := r.next
        let vertex := candidateList.getD (p.1 % candidateList.length) 0
        let neighbors := getNeighbors g vertex
        assignLoop g sz fuel
          (admissible.filter (fun node => node != vertex && !neighbors.contains node))
          (inadmissible ++ neighbors) (current ++ [vertex]) p.2

/-- assign_color (grasp.rs lines 88-130): build one candidate class, score
it by the edges remaining among the unchosen vertices, and commit it to
slot numCC - 1 when the score strictly beats the incumbent minimum.  The
slot write is the source's class_list[num_color_classes - 1] = ..., which
panics out of range. -/
def assignColor (g : Graph) (vertexSet : List Nat) (sz : Nat)
    (minRem : Nat) (classList : List (List Nat)) (numCC : Nat) (r : RS) :
    Except String ((Nat × List (List Nat)) × RS) := do
  let (currentColorClass, r') ← assignLoop g sz (vertexSet.length + 1) vertexSet [] [] r
  let remainingVertices := vertexSet.filter (fun v => !currentColorClass.contains v)
  let remainingEdges := countRemainingEdges g remainingVertices
  if remainingEdges < minRem then
    if numCC - 1 < classList.length then
      .ok ((remainingEdges, classList.set (numCC - 1) currentColorClass), r')
    else .error "index out of bounds"
  else .ok ((minRem, classList), r')

/-- The for loop over 0..color_iterations in grasp (grasp.rs lines 66-75):
repeated assign_color trials sharing the per-round minimum. -/
def colorIters (g : Graph) (vertexSet : List Nat) (sz : Nat) (numCC : Nat) :
    Nat → Nat → List (List Nat) → RS → Except String ((Nat × List (List Nat)) × RS)
  | 0, minRem, classList, r => .ok ((minRem, classList), r)
  | k + 1, minRem, classList, r => do
    let ((minRem', classList'), r') ← assignColor g vertexSet sz minRem classList numCC r
    colorIters g vertexSet sz numCC k minRem' classList' r'

/-- The while loop of grasp over the uncolored vertex set (grasp.rs lines
61-78).  num_color_classes is incremented on entry to each round; the
per-round minimum starts at usize::MAX.  The retain at line 77 indexes
class_list[num_color_classes - 1], which panics out of range. -/
def graspWhile (g : Graph) (ci : Int) (sz : Nat) :
    Nat → Nat → List Nat → List (List Nat) → RS →
    Except String ((Nat × List (List Nat)) × RS)
  | 0, _, _, _, _ => .error "fuel"
  | fuel + 1, numCC, vertexSet, classList, r =>
    if vertexSet.isEmpty then .ok ((numCC, classList), r)
    else do
      let ((_, classList'), r') ←
        colorIters g vertexSet sz (numCC + 1) ci.toNat USIZE_MAX classList r
      match classList'.get? numCC with
      | none => .error "index out of bounds"
      | some cls =>
        graspWhile g ci sz fuel (numCC + 1)
          (vertexSet.filter (fun v => !cls.contains v)) classList' r'

/-- The color scan of local_search (grasp.rs lines 226-233): write color i
into the coloring at the chosen vertex for i = 1..len, keeping the first
strict improver.  State: (coloring, bestCount, bestColor). -/
def scanColors (g : Graph) (v : Nat) (len : Nat) (st : List Nat × Nat × Nat) :
    List Nat × Nat × Nat :=
  (List.range len).foldl (fun st j =>
    let i := j + 1
    let coloring := st.1.set v i
    let newCount := countForbiddenPerVertex g coloring v
    if newCount < st.2.1 then (coloring, newCount, i)
    else (coloring, st.2.1, st.2.2)) st

/-- The accepted move of local_search (grasp.rs lines 239-244): remove the
vertex from class oc - 1 (its first occurrence, as Vec::remove at the found
position does) and push it onto class b - 1. -/
def moveVertex (cl : List (List Nat)) (v oc b : Nat) : List (List Nat) :=
  let cl1 := cl.set (oc - 1) ((cl.getD (oc - 1) []).erase v)
  cl1.set (b - 1) ((cl1.getD (b - 1) []) ++ [v])

/-- The while loop of local_search (grasp.rs lines 212-251).  The source
unwraps the random pick (line 216) and the position of the vertex in its
class (line 242), and computes original_color - 1 on a usize (line 239),
all of which panic when they fail; the fuel bound is never reached on the
partitioned class lists the program builds. -/
def localSearchLoop (g : Graph) :
    Nat → Nat → List Nat → List (List Nat) → Nat → RS →
    Except String ((Nat × List (List Nat)) × RS)
  | 0, _, _, _, _, _ => .error "fuel"
  | fuel + 1, forbiddenCount, forbiddenVertices, classList, noImprovement, r =>
    if 0 < forbiddenCount ∧ noImprovement < g.n / 2 then
      if forbiddenVertices.isEmpty then .error "unwrap"
      else
        let p := r.next
        let vertex := forbiddenVertices.getD (p.1 % forbiddenVertices.length) 0
        let coloring := getColoringFromClassList g.n classList
        let originalCount := countForbiddenPerVertex g coloring vertex
        let originalColor := coloring.getD vertex 0
        let res := scanColors g vertex classList.length (coloring, originalCount, originalColor)
        if res.2.1 < originalCount then
          if originalColor = 0 then .error "index out of bounds"
          else
            let origClass := classList.getD (originalColor - 1) []
            if origClass.contains vertex then
              let classList2 := moveVertex classList vertex originalColor res.2.2
              let cf := getForbidden g classList2
              localSearchLoop g fuel cf.1 cf.2 classList2 0 p.2
            else .error "unwrap"
        else
          localSearchLoop g fuel forbiddenCount forbiddenVertices classList
            (noImprovement + 1) p.2
    else .ok ((forbiddenCount, classList), r)

/-- local_search (grasp.rs lines 205-254).  The loop strictly decreases the
lexicographic measure (forbidden count, ceiling - no_improvement), so the
fuel (count + 1) * (ceiling + 1) is never exhausted on partitioned inputs. -/
def localSearch (g : Graph) (classList : List (List Nat)) (r : RS) :
    Except String ((Nat × List (List Nat)) × RS) :=
  let cf := getForbidden g classList
  localSearchLoop g ((cf.1 + 1) * (g.n / 2 + 1)) cf.1 cf.2 classList 0 r

/-- The for loop of improve_phase building new_classes (grasp.rs lines
158-167), starting from vec![combined_class].  The condition at line 163
reads smallest_lengths[0] and, when that test fails, smallest_lengths[1];
either read panics when the list is too short. -/
def buildNewClasses (smallest : List Nat) (classList : List (List Nat))
    (combined : List Nat) : Except String (List (List Nat)) :=
  classList.enum.foldlM (fun acc ic =>
    match smallest.get? 0 with
    | none => Except.error "index out of bounds"
    | some s0 =>
      if ic.1 = s0 then pure acc
      else match smallest.get? 1 with
        | none => Except.error "index out of bounds"
        | some s1 =>
          if ic.1 = s1 || ic.2.isEmpty then pure acc
          else pure (acc ++ [ic.2])) [combined]

/-- The while loop of improve_phase (grasp.rs lines 135-175): merge the two
smallest of the first num_classes classes, run local search, adopt the
merged list while the residual forbidden count is zero.  Each adoption
shrinks the class count on the reachable states, except on edgeless inputs
where the source loops forever (n = 1) or panics (n larger); fuel
num_classes + 1 covers every terminating run. -/
def improveLoop (g : Graph) :
    Nat → Nat → List (List Nat) → RS → Except String ((Nat × List (List Nat)) × RS)
  | 0, _, _, _ => .error "fuel"
  | fuel + 1, numClasses, classList, r => do
    let lengths := sortByKeyDesc
      ((classList.enum.map (fun ic => (ic.1, ic.2.length))).take numClasses)
    let smallest := (lengths.reverse.take 2).map Prod.fst
    let combined := smallest.foldl (fun acc idx => acc ++ classList.getD idx []) []
    let newClasses ← buildNewClasses smallest classList combined
    let ((numForbidden, newClasses'), r') ← localSearch g newClasses r
    if numForbidden = 0 then improveLoop g fuel newClasses'.length newClasses' r'
    else .ok ((numClasses, classList), r')

/-- Vec::resize(n, Vec::new()) at grasp.rs line 178: truncate or pad with
empty classes to length n. -/
def resizeTo (n : Nat) (cl : List (List Nat)) : List (List Nat) :=
  cl.take n ++ List.replicate (n - cl.length) []

/-- improve_phase (grasp.rs lines 132-179). -/
def improvePhase (g : Graph) (numClasses : Nat) (classList : List (List Nat))
    (r : RS) : Except String ((Nat × List (List Nat)) × RS) := do
  let ((nc, cl), r') ← improveLoop g (numClasses + 1) numClasses classList r
  Except.ok ((nc, resizeTo g.n cl), r')

/-- The for loop of grasp over 0..grasp_iterations (grasp.rs lines 54-84):
run one construction plus improvement trial and keep the strictly best
color count (first-writer-wins on ties). -/
def graspTrials (g : Graph) (ci : Int) (sz : Nat) :
    Nat → Nat → List (List Nat) → RS → Except String ((Nat × List (List Nat)) × RS)
  | 0, numColors, best, r => .ok ((numColors, best), r)
  | k + 1, numColors, best, r => do
    let ((numCC, classList), r') ←
      graspWhile g ci sz (g.n + 1) 0 (List.range g.n) (List.replicate g.n []) r
    let ((numCC', classList'), r'') ← improvePhase g numCC classList r'
    if numCC' < numColors then graspTrials g ci sz k numCC' classList' r''
    else graspTrials g ci sz k numColors best r''

/-- grasp (grasp.rs lines 44-86): num_colors starts at the vertex count and
best_class_list starts empty; i32 iteration counts run max(k, 0) times. -/
def grasp (g : Graph) (graspIterations colorIterations : Int)
    (colorListSize : Nat) (r : RS) : Except String (Nat × List (List Nat)) :=
  (graspTrials g colorIterations colorListSize graspIterations.toNat g.n [] r).map
    Prod.fst

example : getNeighbors (completeGraph 3) 0 = [1, 2] := by decide
example : colorOf [[0], [1, 2]] 2 = 2 := by decide
example : getColoringFromClassList 3 [[0], [1, 2]] = [1, 2, 2] := by decide
example : getForbidden (completeGraph 3) [[0], [1, 2]] = (1, [1, 2]) := by decide
example : getNLargestDegree 2 (completeGraph 3) [0, 1, 2] none = [0, 1] := by decide
example : countRemainingEdges (completeGraph 4) [0, 1, 2] = 3 := by decide

-- Scratch evaluations of the full pipeline on concrete inputs.
example : grasp (completeGraph 2) 1 1 1 rngZero = .ok (2, []) := rfl
example : grasp (completeGraph 3) 2 2 2 rngZero = .ok (3, []) := rfl
example : grasp (edgeless 2) 1 1 1 rngZero = .error "index out of bounds" := rfl
example :
    (localSearch ⟨4, fun i j => decide (i + 1 = j) || decide (j + 1 = i)⟩
      [[0], [1, 2], [3]] rngZero).map (fun x => x.1) =
    .ok (0, [[0], [2], [3, 1]]) := rfl

/-- The forbidden-pair count of a coloring function, as a double sum. -/
def Scount (g : Graph) (c : Nat → Nat) : Nat :=
  ∑ i in Finset.range g.n, ∑ j in Finset.range g.n,
    if i ≤ j ∧ g.adj i j = true ∧ c i = c j then 1 else 0

/-- The per-vertex forbidden count of a coloring function. -/
def Tcount (g : Graph) (c : Nat → Nat) (v : Nat) : Nat :=
  ∑ u in Finset.range g.n, if g.adj v u = true ∧ c u = c v then 1 else 0

/-- The vertex the local-search iteration picks from the forbidden list. -/
def lsVertex (fs : List Nat) (r : RS) : Nat := fs.getD (r 0 % fs.length) 0

/-- The state of the color scan started from the current coloring. -/
def lsScan (g : Graph) (cl : List (List Nat)) (v : Nat) : List Nat × Nat × Nat :=
  scanColors g v cl.length (getColoringFromClassList g.n cl,
    countForbiddenPerVertex g (getColoringFromClassList g.n cl) v,
    (getColoringFromClassList g.n cl).getD v 0)

/-- A finite undirected graph built from an explicit edge list, used for
concrete witnesses. -/
def graphOfEdges (n : Nat) (es : List (Nat × Nat)) : Graph :=
  ⟨n, fun i j => decide (i < n) && decide (j < n) && decide (i ≠ j) &&
    (es.contains (i, j) || es.contains (j, i))⟩

/-- The shape of a class committed by assign_color: non-empty, duplicate
free, drawn from the round's vertex set, and an independent set. -/
def GoodClass (g : Graph) (V C : List Nat) : Prop :=
  C ≠ [] ∧ C.Nodup ∧ (∀ x ∈ C, x ∈ V) ∧ (∀ u ∈ C, ∀ w ∈ C, g.adj u w = false)

/-! Basic lemmas about occurrence counts, colors and the coloring vector. -/

theorem countIn_cons (c : List Nat) (cl : List (List Nat)) (v : Nat) :
    countIn (c :: cl) v = c.count v + countIn cl v := by
  simp [countIn]

theorem countIn_pos_iff {cl : List (List Nat)} {v : Nat} :
    0 < countIn cl v ↔ ∃ c ∈ cl, v ∈ c := by
  induction cl with
  | nil => simp [countIn]
  | cons c cl ih =>
    rw [countIn_cons]
    simp only [List.mem_cons]
    constructor
    · intro h
      by_cases hc : 0 < c.count v
      · exact ⟨c, Or.inl rfl, List.count_pos_iff.mp hc⟩
      · have : 0 < countIn cl v := by omega
        obtain ⟨d, hd, hvd⟩ := ih.mp this
        exact ⟨d, Or.inr hd, hvd⟩
    · rintro ⟨d, hd | hd, hvd⟩
      · subst hd
        have := List.count_pos_iff.mpr hvd
        omega
      · have := ih.mpr ⟨d, hd, hvd⟩
        omega

theorem countIn_eq_zero_iff {cl : List (List Nat)} {v : Nat} :
    countIn cl v = 0 ↔ ∀ c ∈ cl, v ∉ c := by
  constructor
  · intro h c hc hv
    have := countIn_pos_iff.mpr ⟨c, hc, hv⟩
    omega
  · intro h
    by_contra hne
    obtain ⟨c, hc, hv⟩ := countIn_pos_iff.mp (Nat.pos_of_ne_zero hne)
    exact h c hc hv

theorem two_le_countIn {cl : List (List Nat)} {v i j : Nat}
    (hi : i < cl.length) (hj : j < cl.length) (hij : i ≠ j)
    (h1 : v ∈ cl[i]) (h2 : v ∈ cl[j]) : 2 ≤ countIn cl v := by
  induction cl generalizing i j with
  | nil => simp at hi
  | cons c cl ih =>
    rw [countIn_cons]
    match i, j with
    | 0, 0 => omega
    | 0, j + 1 =>
      have hj' : j < cl.length := by simpa using hj
      have hc : 0 < c.count v := List.count_pos_iff.mpr (by simpa using h1)
      have : 0 < countIn cl v :=
        countIn_pos_iff.mpr ⟨cl[j], List.getElem_mem hj', by simpa using h2⟩
      omega
    | i + 1, 0 =>
      have hi' : i < cl.length := by simpa using hi
      have hc : 0 < c.count v := List.count_pos_iff.mpr (by simpa using h2)
      have : 0 < countIn cl v :=
        countIn_pos_iff.mpr ⟨cl[i], List.getElem_mem hi', by simpa using h1⟩
      omega
    | i + 1, j + 1 =>
      have := ih (i := i) (j := j) (by simpa using hi) (by simpa using hj)
        (by omega) (by simpa using h1) (by simpa using h2)
      omega

theorem colorOf_eq_zero_iff {cl : List (List Nat)} {v : Nat} :
    colorOf cl v = 0 ↔ ∀ c ∈ cl, v ∉ c := by
  unfold colorOf
  cases h : cl.findIdx? (fun c => c.contains v) with
  | none =>
    simp only [true_iff]
    rw [List.findIdx?_eq_none_iff] at h
    intro c hc hv
    have := h c hc
    simp [List.elem_iff] at this
    exact this hv
  | some i =>
    simp only [Nat.succ_ne_zero, false_iff]
    intro hall
    rw [List.findIdx?_eq_some_iff_getElem] at h
    obtain ⟨hlen, hp, -⟩ := h
    exact hall cl[i] (List.getElem_mem hlen) (List.elem_iff.mp hp)

theorem colorOf_spec {cl : List (List Nat)} {v i : Nat}
    (h : cl.findIdx? (fun c => c.contains v) = some i) :
    colorOf cl v = i + 1 ∧ i < cl.length ∧ v ∈ cl.getD i [] ∧
    ∀ j, j < i → v ∉ cl.getD j [] := by
  have h' := h
  rw [List.findIdx?_eq_some_iff_getElem] at h'
  obtain ⟨hlen, hp, hmin⟩ := h'
  refine ⟨?_, hlen, ?_, ?_⟩
  · unfold colorOf
    rw [h]
  · rw [List.getD_eq_getElem _ _ hlen]
    exact List.elem_iff.mp hp
  · intro j hj hmem
    rw [List.getD_eq_getElem _ _ (Nat.lt_trans hj hlen)] at hmem
    exact (hmin j hj) (List.elem_iff.mpr hmem)

theorem colorOf_pos {cl : List (List Nat)} {v : Nat}
    (h : 0 < countIn cl v) : 0 < colorOf cl v := by
  by_contra hz
  have : colorOf cl v = 0 := by omega
  rw [colorOf_eq_zero_iff] at this
  obtain ⟨c, hc, hv⟩ := countIn_pos_iff.mp h
  exact this c hc hv

theorem colorOf_le_length (cl : List (List Nat)) (v : Nat) :
    colorOf cl v ≤ cl.length := by
  unfold colorOf
  cases h : cl.findIdx? (fun c => c.contains v) with
  | none => simp
  | some i =>
    rw [List.findIdx?_eq_some_iff_findIdx_eq] at h
    show i + 1 ≤ cl.length
    omega

theorem coloring_length (n : Nat) (cl : List (List Nat)) :
    (getColoringFromClassList n cl).length = n := by
  simp [getColoringFromClassList]

theorem coloring_getD {n : Nat} {cl : List (List Nat)} {v : Nat} (hv : v < n) :
    (getColoringFromClassList n cl).getD v 0 = colorOf cl v := by
  rw [List.getD_eq_getElem _ _ (by simpa [coloring_length] using hv)]
  simp [getColoringFromClassList]

theorem coloring_getD_of_ge {n : Nat} {cl : List (List Nat)} {v : Nat} (hv : n ≤ v) :
    (getColoringFromClassList n cl).getD v 0 = 0 := by
  unfold List.getD
  rw [List.get?_eq_none.mpr (by simpa [coloring_length] using hv)]
  rfl

theorem exists_findIdx?_of_countIn_pos {cl : List (List Nat)} {v : Nat}
    (h : 0 < countIn cl v) :
    ∃ i, cl.findIdx? (fun c => c.contains v) = some i := by
  obtain ⟨c, hc, hv⟩ := countIn_pos_iff.mp h
  exact ⟨_, List.findIdx?_eq_some_of_exists ⟨c, hc, List.elem_iff.mpr hv⟩⟩

theorem colorOf_sub_one_lt {cl : List (List Nat)} {v : Nat}
    (h : 0 < countIn cl v) : colorOf cl v - 1 < cl.length := by
  have h1 := colorOf_pos h
  have h2 := colorOf_le_length cl v
  omega

theorem mem_class_of_countIn_pos {cl : List (List Nat)} {v : Nat}
    (h : 0 < countIn cl v) :
    v ∈ cl.getD (colorOf cl v - 1) [] := by
  obtain ⟨i, hi⟩ := exists_findIdx?_of_countIn_pos h
  obtain ⟨hcol, hlen, hmem, -⟩ := colorOf_spec hi
  have hidx : i + 1 - 1 = i := rfl
  rw [hcol, hidx]
  exact hmem

theorem mem_class_iff_colorOf {cl : List (List Nat)} {v j : Nat}
    (h : countIn cl v = 1) (hj : j < cl.length) :
    v ∈ cl[j] ↔ colorOf cl v = j + 1 := by
  have hpos : 0 < countIn cl v := by omega
  obtain ⟨i, hi⟩ := exists_findIdx?_of_countIn_pos hpos
  obtain ⟨hcol, hlen, hmem, -⟩ := colorOf_spec hi
  rw [List.getD_eq_getElem _ _ hlen] at hmem
  constructor
  · intro hvj
    by_cases hij : i = j
    · omega
    · have := two_le_countIn hlen hj hij hmem hvj
      omega
  · intro hcj
    have : i = j := by omega
    subst this
    exact hmem

theorem not_mem_class_of_ne {cl : List (List Nat)} {v j : Nat}
    (h : countIn cl v = 1) (hj : j < cl.length)
    (hne : colorOf cl v ≠ j + 1) : v ∉ cl[j] := by
  intro hmem
  exact hne ((mem_class_iff_colorOf h hj).mp hmem)

theorem countIn_set {cl : List (List Nat)} {i : Nat} (hi : i < cl.length)
    (c : List Nat) (v : Nat) :
    countIn (cl.set i c) v + cl[i].count v = countIn cl v + c.count v := by
  induction cl generalizing i with
  | nil => simp at hi
  | cons d cl ih =>
    match i with
    | 0 => simp [countIn_cons]; omega
    | i + 1 =>
      have hi' : i < cl.length := by simpa using hi
      have := ih hi'
      simp only [List.set_cons_succ, countIn_cons, List.getElem_cons_succ]
      omega

theorem contains_congr {l₁ l₂ : List Nat} {v : Nat} (h : v ∈ l₁ ↔ v ∈ l₂) :
    l₁.contains v = l₂.contains v := by
  cases h1 : l₁.contains v <;> cases h2 : l₂.contains v
  · rfl
  · have ht : l₁.contains v = true := List.elem_iff.mpr (h.mpr (List.elem_iff.mp h2))
    rw [h1] at ht
    exact absurd ht (by decide)
  · have ht : l₂.contains v = true := List.elem_iff.mpr (h.mp (List.elem_iff.mp h1))
    rw [h2] at ht
    exact absurd ht (by decide)
  · rfl

/-- findIdx? only depends on the predicate values along the list. -/
theorem findIdx?_congr {α : Type} {l₁ l₂ : List α} {p q : α → Bool}
    (hlen : l₁.length = l₂.length)
    (h : ∀ i (h₁ : i < l₁.length) (h₂ : i < l₂.length), p l₁[i] = q l₂[i]) :
    l₁.findIdx? p = l₂.findIdx? q := by
  induction l₁ generalizing l₂ with
  | nil =>
    have : l₂ = [] := List.length_eq_zero.mp (hlen ▸ rfl)
    subst this
    rfl
  | cons a l₁ ih =>
    match l₂ with
    | [] => simp at hlen
    | b :: l₂ =>
      have h0 := h 0 (by simp) (by simp)
      simp only [List.getElem_cons_zero] at h0
      have hlen' : l₁.length = l₂.length := by simpa using hlen
      have htail := ih hlen' (fun i hi hi2 => by
        have := h (i + 1) (by simpa using hi) (by simpa using hi2)
        simpa using this)
      simp only [List.findIdx?_cons, h0, List.findIdx?_succ, htail]

theorem colorOf_congr {cl₁ cl₂ : List (List Nat)} {v : Nat}
    (hlen : cl₁.length = cl₂.length)
    (h : ∀ i (h₁ : i < cl₁.length) (h₂ : i < cl₂.length),
      (v ∈ cl₁[i]) ↔ v ∈ cl₂[i]) :
    colorOf cl₁ v = colorOf cl₂ v := by
  unfold colorOf
  rw [findIdx?_congr hlen (fun i hi hi2 => contains_congr (h i hi hi2))]

/-! Lemmas about moveVertex: it preserves lengths and occurrence counts and
recolors exactly the moved vertex. -/

theorem count_le_countIn {cl : List (List Nat)} {i : Nat} (hi : i < cl.length)
    (u : Nat) : cl[i].count u ≤ countIn cl u := by
  have hmi : i < (cl.map (fun c => c.count u)).length := by simpa using hi
  have hmem : cl[i].count u ∈ cl.map (fun c => c.count u) := by
    have heq : (cl.map (fun c => c.count u))[i] = cl[i].count u := by
      simp
    rw [← heq]
    exact List.getElem_mem hmi
  exact List.single_le_sum (fun x _ => Nat.zero_le x) _ hmem

theorem moveVertex_length (cl : List (List Nat)) (v oc b : Nat) :
    (moveVertex cl v oc b).length = cl.length := by
  simp [moveVertex]

theorem countIn_set_getD {cl : List (List Nat)} {i : Nat} (hi : i < cl.length)
    (c : List Nat) (v : Nat) :
    countIn (cl.set i c) v + (cl.getD i []).count v = countIn cl v + c.count v := by
  rw [List.getD_eq_getElem _ _ hi]
  exact countIn_set hi c v

theorem count_getD_le_countIn (cl : List (List Nat)) (i u : Nat) :
    (cl.getD i []).count u ≤ countIn cl u := by
  by_cases hi : i < cl.length
  · rw [List.getD_eq_getElem _ _ hi]
    exact count_le_countIn hi u
  · unfold List.getD
    rw [List.get?_eq_none.mpr (by omega)]
    simp

theorem moveVertex_countIn {cl : List (List Nat)} {v oc b : Nat}
    (h1 : countIn cl v = 1) (hoc : oc = colorOf cl v)
    (hb1 : 1 ≤ b) (hb2 : b ≤ cl.length) :
    ∀ u, countIn (moveVertex cl v oc b) u = countIn cl u := by
  intro u
  have hpos : 0 < countIn cl v := by omega
  have hoclt : oc - 1 < cl.length := hoc ▸ colorOf_sub_one_lt hpos
  have hvc : v ∈ cl.getD (oc - 1) [] := hoc ▸ mem_class_of_countIn_pos hpos
  have hcount1 : (cl.getD (oc - 1) []).count v = 1 := by
    have hle := count_getD_le_countIn cl (oc - 1) v
    have hge : 0 < (cl.getD (oc - 1) []).count v := List.count_pos_iff.mpr hvc
    omega
  have hblt : b - 1 < (cl.set (oc - 1) ((cl.getD (oc - 1) []).erase v)).length := by
    rw [List.length_set]
    omega
  have hstep1 := countIn_set_getD hoclt ((cl.getD (oc - 1) []).erase v)
  have hstep2 : countIn (moveVertex cl v oc b) u +
      ((cl.set (oc - 1) ((cl.getD (oc - 1) []).erase v)).getD (b - 1) []).count u =
      countIn (cl.set (oc - 1) ((cl.getD (oc - 1) []).erase v)) u +
      (((cl.set (oc - 1) ((cl.getD (oc - 1) []).erase v)).getD (b - 1) []) ++ [v]).count u :=
    countIn_set_getD hblt _ u
  by_cases huv : u = v
  · subst huv
    have herase : ((cl.getD (oc - 1) []).erase u).count u =
        (cl.getD (oc - 1) []).count u - 1 := List.count_erase_self _ _
    have hcIn1 : countIn (cl.set (oc - 1) ((cl.getD (oc - 1) []).erase u)) u = 0 := by
      have := hstep1 u
      rw [herase] at this
      omega
    have hc1b : ((cl.set (oc - 1) ((cl.getD (oc - 1) []).erase u)).getD (b - 1) []).count u
        = 0 := by
      have hle := count_getD_le_countIn
        (cl.set (oc - 1) ((cl.getD (oc - 1) []).erase u)) (b - 1) u
      omega
    rw [List.count_append] at hstep2
    have hone : List.count u [u] = 1 := by simp
    rw [hone, hc1b] at hstep2
    omega
  · have herase : ((cl.getD (oc - 1) []).erase v).count u =
        (cl.getD (oc - 1) []).count u := List.count_erase_of_ne huv _
    have hcIn1 : countIn (cl.set (oc - 1) ((cl.getD (oc - 1) []).erase v)) u =
        countIn cl u := by
      have := hstep1 u
      rw [herase] at this
      omega
    rw [List.count_append] at hstep2
    have hzero : List.count u [v] = 0 := by
      simp only [List.count_cons, List.count_nil, beq_iff_eq]
      have hvu : ¬v = u := fun h => huv h.symm
      simp [hvu]
    rw [hzero] at hstep2
    omega

theorem moveVertex_mem {cl : List (List Nat)} {v oc b u : Nat} (huv : u ≠ v)
    {i : Nat} (hi : i < cl.length)
    (hi2 : i < (moveVertex cl v oc b).length) :
    u ∈ (moveVertex cl v oc b)[i] ↔ u ∈ cl[i] := by
  have hi3 : i < ((cl.set (oc - 1) ((cl.getD (oc - 1) []).erase v)).set (b - 1)
      (((cl.set (oc - 1) ((cl.getD (oc - 1) []).erase v)).getD (b - 1) []) ++
        [v])).length := by
    simpa [moveVertex] using hi2
  show u ∈ ((cl.set (oc - 1) ((cl.getD (oc - 1) []).erase v)).set (b - 1)
    (((cl.set (oc - 1) ((cl.getD (oc - 1) []).erase v)).getD (b - 1) []) ++
      [v]))[i] ↔ u ∈ cl[i]
  rw [List.getElem_set]
  by_cases hbi : b - 1 = i
  · rw [if_pos hbi]
    have hblt : b - 1 < (cl.set (oc - 1) ((cl.getD (oc - 1) []).erase v)).length := by
      simpa using hbi ▸ hi
    rw [List.getD_eq_getElem _ _ hblt, List.getElem_set]
    by_cases hob : oc - 1 = b - 1
    · rw [if_pos hob]
      have hoclt : oc - 1 < cl.length := by omega
      rw [List.getD_eq_getElem _ _ hoclt]
      simp only [List.mem_append, List.mem_singleton]
      rw [List.mem_erase_of_ne huv]
      have : oc - 1 = i := by omega
      subst this
      simp [huv]
    · rw [if_neg hob]
      simp only [List.mem_append, List.mem_singleton]
      have : b - 1 = i := hbi
      subst this
      simp [huv]
  · rw [if_neg hbi, List.getElem_set]
    by_cases hoi : oc - 1 = i
    · rw [if_pos hoi]
      have hoclt : oc - 1 < cl.length := by omega
      rw [List.getD_eq_getElem _ _ hoclt]
      rw [List.mem_erase_of_ne huv]
      subst hoi
      rfl
    · rw [if_neg hoi]

theorem moveVertex_colorOf_ne {cl : List (List Nat)} {v oc b u : Nat}
    (huv : u ≠ v) :
    colorOf (moveVertex cl v oc b) u = colorOf cl u := by
  apply colorOf_congr (moveVertex_length cl v oc b)
  intro i hi hi2
  exact moveVertex_mem huv hi2 hi

theorem moveVertex_colorOf_self {cl : List (List Nat)} {v oc b : Nat}
    (h1 : countIn cl v = 1) (hoc : oc = colorOf cl v)
    (hb1 : 1 ≤ b) (hb2 : b ≤ cl.length) :
    colorOf (moveVertex cl v oc b) v = b := by
  have hcnt : countIn (moveVertex cl v oc b) v = 1 := by
    rw [moveVertex_countIn h1 hoc hb1 hb2]
    exact h1
  have hblt : b - 1 < (moveVertex cl v oc b).length := by
    rw [moveVertex_length]
    omega
  have hmem : v ∈ (moveVertex cl v oc b)[b - 1] := by
    have hblt2 : b - 1 < ((cl.set (oc - 1) ((cl.getD (oc - 1) []).erase v)).set
        (b - 1) (((cl.set (oc - 1) ((cl.getD (oc - 1) []).erase v)).getD
          (b - 1) []) ++ [v])).length := by
      simpa [moveVertex] using hblt
    show v ∈ ((cl.set (oc - 1) ((cl.getD (oc - 1) []).erase v)).set (b - 1)
      (((cl.set (oc - 1) ((cl.getD (oc - 1) []).erase v)).getD (b - 1) []) ++
        [v]))[b - 1]
    rw [List.getElem_set, if_pos rfl]
    simp
  have := (mem_class_iff_colorOf hcnt hblt).mp hmem
  omega

/-! Counting machinery for getForbidden: the pair count as a double sum,
its per-vertex localization, and how one recoloring changes it. -/

theorem countP_range_eq_sum (n : Nat) (p : Nat → Bool) :
    (List.range n).countP p = ∑ u in Finset.range n, if p u then 1 else 0 := by
  induction n with
  | zero => simp
  | succ n ih =>
    rw [List.range_succ, List.countP_append, Finset.sum_range_succ, ih]
    simp [List.countP_cons]

theorem countP_range'_eq_sum (s len : Nat) (p : Nat → Bool) :
    (List.range' s len).countP p = ∑ u in Finset.Ico s (s + len), if p u then 1 else 0 := by
  induction len with
  | zero => simp
  | succ len ih =>
    rw [List.range'_concat, List.countP_append,
      show s + (len + 1) = s + len + 1 from rfl,
      Finset.sum_Ico_succ_top (by omega : s ≤ s + len), ih]
    simp [List.countP_cons]

theorem sum_map_range_eq_sum (n : Nat) (f : Nat → Nat) :
    ((List.range n).map f).sum = ∑ i in Finset.range n, f i := by
  induction n with
  | zero => simp
  | succ n ih =>
    rw [List.range_succ, List.map_append, List.sum_append, Finset.sum_range_succ, ih]
    simp

theorem forbiddenPairs_length (g : Graph) (col : List Nat) :
    (forbiddenPairs g col).length = Scount g (fun u => col.getD u 0) := by
  unfold forbiddenPairs Scount
  rw [List.length_flatMap, sum_map_range_eq_sum]
  apply Finset.sum_congr rfl
  intro i hi
  have hin : i < g.n := Finset.mem_range.mp hi
  show (List.map _ ((List.range' i (g.n - i)).filter _)).length = _
  rw [List.length_map, ← List.countP_eq_length_filter, countP_range'_eq_sum]
  have hisum : i + (g.n - i) = g.n := by omega
  rw [hisum]
  have h1 : ∑ u in Finset.Ico i g.n,
      (if (g.adj i u && (col.getD i 0 == col.getD u 0)) = true then 1 else 0) =
      ∑ u in Finset.Ico i g.n,
      (if i ≤ u ∧ g.adj i u = true ∧ col.getD i 0 = col.getD u 0 then 1 else 0) :=
    Finset.sum_congr rfl (fun u hu => by
      have hle : i ≤ u := (Finset.mem_Ico.mp hu).1
      simp [Bool.and_eq_true, beq_iff_eq, hle])
  have hIco : Finset.Ico i g.n ⊆ Finset.range g.n := by
    intro x hx
    rw [Finset.mem_range]
    exact (Finset.mem_Ico.mp hx).2
  have h2 : ∑ u in Finset.range g.n,
      (if i ≤ u ∧ g.adj i u = true ∧ col.getD i 0 = col.getD u 0 then 1 else 0) =
      ∑ u in Finset.Ico i g.n,
      (if i ≤ u ∧ g.adj i u = true ∧ col.getD i 0 = col.getD u 0 then 1 else 0) :=
    (Finset.sum_subset hIco (fun x hx hnx => by
      have hnle : ¬i ≤ x := by
        rw [Finset.mem_range] at hx
        rw [Finset.mem_Ico] at hnx
        omega
      simp [hnle])).symm
  rw [h1, ← h2]

theorem countForbiddenPerVertex_eq_Tcount (g : Graph) (col : List Nat) (v : Nat) :
    countForbiddenPerVertex g col v = Tcount g (fun u => col.getD u 0) v := by
  unfold countForbiddenPerVertex getNeighbors Tcount
  rw [← List.countP_eq_length_filter, List.countP_filter, countP_range_eq_sum]
  apply Finset.sum_congr rfl
  intro u hu
  by_cases hadj : g.adj v u = true
  · by_cases hcol : col.getD u 0 = col.getD v 0
    · simp [hadj, hcol]
    · simp [hadj, hcol]
  · simp [hadj]

theorem mem_forbiddenPairs {g : Graph} {col : List Nat} {i j : Nat} :
    (i, j) ∈ forbiddenPairs g col ↔
    i < g.n ∧ i ≤ j ∧ j < g.n ∧ g.adj i j = true ∧
      col.getD i 0 = col.getD j 0 := by
  unfold forbiddenPairs
  rw [List.mem_flatMap]
  constructor
  · rintro ⟨a, ha, hmem⟩
    rw [List.mem_range] at ha
    rw [List.mem_map] at hmem
    obtain ⟨b, hb, heq⟩ := hmem
    rw [List.mem_filter, List.mem_range'_1] at hb
    obtain ⟨⟨hb1, hb2⟩, hb3⟩ := hb
    cases heq
    rw [Bool.and_eq_true, beq_iff_eq] at hb3
    exact ⟨ha, hb1, by omega, hb3.1, hb3.2⟩
  · rintro ⟨h1, h2, h3, h4, h5⟩
    refine ⟨i, List.mem_range.mpr h1, List.mem_map.mpr ⟨j, ?_, rfl⟩⟩
    rw [List.mem_filter, List.mem_range'_1]
    refine ⟨⟨h2, by omega⟩, ?_⟩
    rw [Bool.and_eq_true, beq_iff_eq]
    exact ⟨h4, h5⟩

theorem ite_add_of_iff_or {P Q R : Prop} [Decidable P] [Decidable Q] [Decidable R]
    (h1 : P ↔ Q ∨ R) (h2 : ¬(Q ∧ R)) :
    (if P then (1 : Nat) else 0) = (if Q then 1 else 0) + (if R then 1 else 0) := by
  by_cases hq : Q
  · by_cases hr : R
    · exact absurd ⟨hq, hr⟩ h2
    · simp [h1, hq, hr]
  · by_cases hr : R
    · simp [h1, hq, hr]
    · simp [h1, hq, hr]

theorem ite_and_eq_nested {A B : Prop} [Decidable A] [Decidable B] :
    (if A ∧ B then (1 : Nat) else 0) = if B then (if A then 1 else 0) else 0 := by
  by_cases ha : A <;> by_cases hb : B <;> simp [ha, hb]

theorem touch_sum_eq_Tcount {g : Graph} (hsym : ∀ i j, g.adj i j = g.adj j i)
    (hirr : ∀ i, g.adj i i = false) {v : Nat} (hv : v < g.n) (d : Nat → Nat) :
    (∑ i in Finset.range g.n, ∑ j in Finset.range g.n,
      if (i ≤ j ∧ g.adj i j = true ∧ d i = d j) ∧ (i = v ∨ j = v) then 1 else 0) =
    Tcount g d v := by
  have hsplit2 : ∀ i j,
      (if (i ≤ j ∧ g.adj i j = true ∧ d i = d j) ∧ (i = v ∨ j = v) then (1 : Nat) else 0)
      = (if (v ≤ j ∧ g.adj v j = true ∧ d v = d j) ∧ i = v then 1 else 0)
      + (if (i < v ∧ g.adj i v = true ∧ d i = d v) ∧ j = v then 1 else 0) := by
    intro i j
    apply ite_add_of_iff_or
    · constructor
      · rintro ⟨⟨hij, hadj, hd⟩, hiv | hjv⟩
        · exact Or.inl ⟨⟨hiv ▸ hij, hiv ▸ hadj, hiv ▸ hd⟩, hiv⟩
        · by_cases hiv : i = v
          · exfalso
            rw [hiv, hjv, hirr v] at hadj
            simp at hadj
          · refine Or.inr ⟨⟨?_, hjv ▸ hadj, hjv ▸ hd⟩, hjv⟩
            omega
      · rintro (⟨⟨hij, hadj, hd⟩, hiv⟩ | ⟨⟨hij, hadj, hd⟩, hjv⟩)
        · subst hiv
          exact ⟨⟨hij, hadj, hd⟩, Or.inl rfl⟩
        · subst hjv
          exact ⟨⟨Nat.le_of_lt hij, hadj, hd⟩, Or.inr rfl⟩
    · rintro ⟨⟨⟨hvj, -, -⟩, hiv⟩, ⟨⟨hiltv, -, -⟩, hjv⟩⟩
      omega
  rw [Finset.sum_congr rfl (fun i _ => Finset.sum_congr rfl (fun j _ => hsplit2 i j))]
  rw [Finset.sum_congr rfl (fun i _ => Finset.sum_add_distrib), Finset.sum_add_distrib]
  have hP1 : (∑ i in Finset.range g.n, ∑ j in Finset.range g.n,
      if (v ≤ j ∧ g.adj v j = true ∧ d v = d j) ∧ i = v then 1 else 0)
      = ∑ j in Finset.range g.n,
        if v ≤ j ∧ g.adj v j = true ∧ d v = d j then 1 else 0 := by
    have hpt : ∀ i, (∑ j in Finset.range g.n,
        if (v ≤ j ∧ g.adj v j = true ∧ d v = d j) ∧ i = v then (1 : Nat) else 0)
        = if i = v then (∑ j in Finset.range g.n,
            if v ≤ j ∧ g.adj v j = true ∧ d v = d j then (1 : Nat) else 0) else 0 := by
      intro i
      by_cases hiv : i = v
      · rw [if_pos hiv]
        apply Finset.sum_congr rfl
        intro j _
        simp [hiv]
      · rw [if_neg hiv]
        apply Finset.sum_eq_zero
        intro j _
        simp [hiv]
    rw [Finset.sum_congr rfl (fun i _ => hpt i),
      Finset.sum_ite_eq' (Finset.range g.n) v, if_pos (Finset.mem_range.mpr hv)]
  have hP2 : (∑ i in Finset.range g.n, ∑ j in Finset.range g.n,
      if (i < v ∧ g.adj i v = true ∧ d i = d v) ∧ j = v then 1 else 0)
      = ∑ i in Finset.range g.n,
        if i < v ∧ g.adj i v = true ∧ d i = d v then 1 else 0 := by
    apply Finset.sum_congr rfl
    intro i _
    rw [Finset.sum_congr rfl (fun j _ => ite_and_eq_nested),
      Finset.sum_ite_eq' (Finset.range g.n) v, if_pos (Finset.mem_range.mpr hv)]
  rw [hP1, hP2]
  have hTsplit : ∀ u, (if g.adj v u = true ∧ d u = d v then (1 : Nat) else 0)
      = (if v ≤ u ∧ g.adj v u = true ∧ d v = d u then 1 else 0)
      + (if u < v ∧ g.adj u v = true ∧ d u = d v then 1 else 0) := by
    intro u
    apply ite_add_of_iff_or
    · constructor
      · rintro ⟨hadj, hd⟩
        by_cases hle : v ≤ u
        · exact Or.inl ⟨hle, hadj, hd.symm⟩
        · refine Or.inr ⟨by omega, ?_, hd⟩
          rw [← hsym v u]
          exact hadj
      · rintro (⟨hle, hadj, hd⟩ | ⟨hlt, hadj, hd⟩)
        · exact ⟨hadj, hd.symm⟩
        · refine ⟨?_, hd⟩
          rw [hsym v u]
          exact hadj
    · rintro ⟨⟨hle, -, -⟩, ⟨hlt, -, -⟩⟩
      omega
  unfold Tcount
  rw [Finset.sum_congr rfl (fun u _ => hTsplit u), Finset.sum_add_distrib]

theorem Scount_update {g : Graph} (hsym : ∀ i j, g.adj i j = g.adj j i)
    (hirr : ∀ i, g.adj i i = false) {c c' : Nat → Nat} {v : Nat}
    (hv : v < g.n) (hagree : ∀ u, u ≠ v → c u = c' u) :
    Scount g c + Tcount g c' v = Scount g c' + Tcount g c v := by
  have hsplit : ∀ d : Nat → Nat, Scount g d =
      (∑ i in Finset.range g.n, ∑ j in Finset.range g.n,
        if (i ≤ j ∧ g.adj i j = true ∧ d i = d j) ∧ ¬(i = v ∨ j = v) then 1 else 0) +
      Tcount g d v := by
    intro d
    rw [← touch_sum_eq_Tcount hsym hirr hv d]
    unfold Scount
    rw [← Finset.sum_add_distrib]
    apply Finset.sum_congr rfl
    intro i _
    rw [← Finset.sum_add_distrib]
    apply Finset.sum_congr rfl
    intro j _
    apply ite_add_of_iff_or
    · constructor
      · intro hb
        by_cases ht : i = v ∨ j = v
        · exact Or.inr ⟨hb, ht⟩
        · exact Or.inl ⟨hb, ht⟩
      · rintro (⟨hb, -⟩ | ⟨hb, -⟩) <;> exact hb
    · rintro ⟨⟨-, hnt⟩, ⟨-, ht⟩⟩
      exact hnt ht
  have hAnv : (∑ i in Finset.range g.n, ∑ j in Finset.range g.n,
      if (i ≤ j ∧ g.adj i j = true ∧ c i = c j) ∧ ¬(i = v ∨ j = v) then 1 else 0) =
      (∑ i in Finset.range g.n, ∑ j in Finset.range g.n,
      if (i ≤ j ∧ g.adj i j = true ∧ c' i = c' j) ∧ ¬(i = v ∨ j = v) then 1 else 0) := by
    apply Finset.sum_congr rfl
    intro i _
    apply Finset.sum_congr rfl
    intro j _
    by_cases hiv : i = v
    · simp [hiv]
    · by_cases hjv : j = v
      · simp [hjv]
      · rw [hagree i hiv, hagree j hjv]
  have h1 := hsplit c
  have h2 := hsplit c'
  rw [hAnv] at h1
  omega

theorem getD_set_ne {l : List Nat} {i j : Nat} (x : Nat) (h : i ≠ j) :
    (l.set i x).getD j 0 = l.getD j 0 := by
  rw [List.getD_eq_getElem?_getD, List.getD_eq_getElem?_getD, List.getElem?_set_ne h]

theorem moveVertex_coloring {g : Graph} {cl : List (List Nat)} {v oc b : Nat}
    (h1 : countIn cl v = 1) (hoc : oc = colorOf cl v)
    (hb1 : 1 ≤ b) (hb2 : b ≤ cl.length) (hv : v < g.n) :
    getColoringFromClassList g.n (moveVertex cl v oc b) =
    (getColoringFromClassList g.n cl).set v b := by
  apply List.ext_getElem
  · rw [coloring_length, List.length_set, coloring_length]
  · intro u hu1 hu2
    rw [coloring_length] at hu1
    have hvlen : v < (getColoringFromClassList g.n cl).length := by
      rw [coloring_length]
      exact hv
    rw [List.getElem_set]
    unfold getColoringFromClassList
    simp only [List.getElem_map, List.getElem_range]
    by_cases huv : v = u
    · rw [if_pos huv]
      subst huv
      exact moveVertex_colorOf_self h1 hoc hb1 hb2
    · rw [if_neg huv]
      exact moveVertex_colorOf_ne (fun h => huv h.symm)

theorem getForbidden_fst_eq (g : Graph) (cl : List (List Nat)) :
    (getForbidden g cl).1 =
    (forbiddenPairs g (getColoringFromClassList g.n cl)).length := rfl

theorem getForbidden_fst_scount (g : Graph) (cl : List (List Nat)) :
    (getForbidden g cl).1 =
    Scount g (fun u => (getColoringFromClassList g.n cl).getD u 0) := by
  rw [getForbidden_fst_eq, forbiddenPairs_length]

/-- The central accounting step: an accepted move changes the global
forbidden count by the difference of the per-vertex counts. -/
theorem getForbidden_fst_moveVertex {g : Graph} {cl : List (List Nat)}
    {v oc b : Nat} (hw : g.wf) (h1 : countIn cl v = 1) (hv : v < g.n)
    (hoc : oc = colorOf cl v) (hb1 : 1 ≤ b) (hb2 : b ≤ cl.length) :
    (getForbidden g (moveVertex cl v oc b)).1 +
      countForbiddenPerVertex g (getColoringFromClassList g.n cl) v =
    (getForbidden g cl).1 +
      countForbiddenPerVertex g
        ((getColoringFromClassList g.n cl).set v b) v := by
  rw [getForbidden_fst_scount, getForbidden_fst_scount,
    moveVertex_coloring h1 hoc hb1 hb2 hv,
    countForbiddenPerVertex_eq_Tcount, countForbiddenPerVertex_eq_Tcount]
  exact (Scount_update hw.1 hw.2.1 hv
    (fun u hne => (getD_set_ne b (fun h => hne h.symm)).symm)).symm

theorem mem_getForbidden_snd {g : Graph} {cl : List (List Nat)} {u : Nat} :
    u ∈ (getForbidden g cl).2 ↔ u < g.n ∧
    ∃ p ∈ forbiddenPairs g (getColoringFromClassList g.n cl),
      p.1 = u ∨ p.2 = u := by
  show u ∈ (List.range g.n).filter _ ↔ _
  rw [List.mem_filter, List.mem_range, List.any_eq_true]
  constructor
  · rintro ⟨h1, p, hp, hor⟩
    rw [Bool.or_eq_true, beq_iff_eq, beq_iff_eq] at hor
    exact ⟨h1, p, hp, hor⟩
  · rintro ⟨h1, p, hp, hor⟩
    refine ⟨h1, p, hp, ?_⟩
    rw [Bool.or_eq_true, beq_iff_eq, beq_iff_eq]
    exact hor

theorem getForbidden_snd_lt {g : Graph} {cl : List (List Nat)} {u : Nat}
    (h : u ∈ (getForbidden g cl).2) : u < g.n :=
  (mem_getForbidden_snd.mp h).1

theorem getForbidden_snd_ne_nil {g : Graph} {cl : List (List Nat)}
    (h : 0 < (getForbidden g cl).1) : (getForbidden g cl).2 ≠ [] := by
  rw [getForbidden_fst_eq] at h
  have hne : forbiddenPairs g (getColoringFromClassList g.n cl) ≠ [] := by
    intro hnil
    rw [hnil] at h
    simp at h
  obtain ⟨p, hp⟩ := List.exists_mem_of_ne_nil _ hne
  have hplt : p.1 < g.n := by
    obtain ⟨i, j⟩ := p
    exact (mem_forbiddenPairs.mp hp).1
  exact List.ne_nil_of_mem (mem_getForbidden_snd.mpr ⟨hplt, p, hp, Or.inl rfl⟩)

theorem proper_of_getForbidden_zero {g : Graph} {cl : List (List Nat)}
    (hw : g.wf) (hpart : Partitioned g cl)
    (hz : (getForbidden g cl).1 = 0) : ProperCl g cl := by
  intro c hc u hu w hwc
  cases hadj : g.adj u w with
  | false => rfl
  | true =>
    exfalso
    obtain ⟨hun, hwn⟩ := hw.2.2 u w hadj
    have hne : u ≠ w := by
      intro heq
      rw [heq, hw.2.1 w] at hadj
      simp at hadj
    obtain ⟨k, hk, hck⟩ := List.mem_iff_getElem.mp hc
    have hcu : colorOf cl u = k + 1 :=
      (mem_class_iff_colorOf (hpart.1 u hun) hk).mp (hck ▸ hu)
    have hcw : colorOf cl w = k + 1 :=
      (mem_class_iff_colorOf (hpart.1 w hwn) hk).mp (hck ▸ hwc)
    have hcol : (getColoringFromClassList g.n cl).getD u 0 =
        (getColoringFromClassList g.n cl).getD w 0 := by
      rw [coloring_getD hun, coloring_getD hwn, hcu, hcw]
    have hmem : (min u w, max u w) ∈
        forbiddenPairs g (getColoringFromClassList g.n cl) := by
      rcases Nat.le_total u w with hle | hle
      · rw [Nat.min_eq_left hle, Nat.max_eq_right hle]
        exact mem_forbiddenPairs.mpr ⟨hun, hle, hwn, hadj, hcol⟩
      · rw [Nat.min_eq_right hle, Nat.max_eq_left hle]
        have hadj' : g.adj w u = true := by
          rw [← hw.1 u w]
          exact hadj
        exact mem_forbiddenPairs.mpr ⟨hwn, hle, hun, hadj', hcol.symm⟩
    rw [getForbidden_fst_eq, List.length_eq_zero] at hz
    rw [hz] at hmem
    exact List.not_mem_nil _ hmem

theorem getForbidden_zero_of_proper {g : Graph} {cl : List (List Nat)}
    (hw : g.wf) (hpart : Partitioned g cl) (hprop : ProperCl g cl) :
    (getForbidden g cl).1 = 0 := by
  rw [getForbidden_fst_eq, List.length_eq_zero]
  apply List.eq_nil_iff_forall_not_mem.mpr
  rintro ⟨i, j⟩ hp
  obtain ⟨hin, hij, hjn, hadj, hcol⟩ := mem_forbiddenPairs.mp hp
  rw [coloring_getD hin, coloring_getD hjn] at hcol
  have hipos : 0 < countIn cl i := by
    rw [hpart.1 i hin]
    omega
  have hmi : i ∈ cl.getD (colorOf cl i - 1) [] := mem_class_of_countIn_pos hipos
  have hjpos : 0 < countIn cl j := by
    rw [hpart.1 j hjn]
    omega
  have hmj : j ∈ cl.getD (colorOf cl j - 1) [] := mem_class_of_countIn_pos hjpos
  rw [hcol] at hmi
  have hlt : colorOf cl j - 1 < cl.length := colorOf_sub_one_lt hjpos
  rw [List.getD_eq_getElem _ _ hlt] at hmi hmj
  have := hprop _ (List.getElem_mem hlt) i hmi j hmj
  rw [this] at hadj
  simp at hadj

/-! Characterization of the color scan: it computes the first color index
attaining the minimum per-vertex forbidden count, updating only on strict
improvement. -/

theorem scanColors_succ (g : Graph) (v len : Nat) (st : List Nat × Nat × Nat) :
    scanColors g v (len + 1) st =
    (let prior := scanColors g v len st
     let coloring := prior.1.set v (len + 1)
     let newCount := countForbiddenPerVertex g coloring v
     if newCount < prior.2.1 then (coloring, newCount, len + 1)
     else (coloring, prior.2.1, prior.2.2)) := by
  unfold scanColors
  rw [List.range_succ, List.foldl_append]
  simp

theorem scanColors_spec (g : Graph) (v : Nat) (col : List Nat)
    (len bc bcol : Nat) :
    ∃ colF bcF bcolF, scanColors g v len (col, bc, bcol) = (colF, bcF, bcolF) ∧
    (colF = if len = 0 then col else col.set v len) ∧
    bcF ≤ bc ∧
    (∀ i, 1 ≤ i → i ≤ len → bcF ≤ countForbiddenPerVertex g (col.set v i) v) ∧
    ((bcF = bc ∧ bcolF = bcol) ∨
      (1 ≤ bcolF ∧ bcolF ≤ len ∧
       bcF = countForbiddenPerVertex g (col.set v bcolF) v ∧ bcF < bc ∧
       ∀ j, 1 ≤ j → j < bcolF →
         bcF < countForbiddenPerVertex g (col.set v j) v)) := by
  induction len with
  | zero =>
    refine ⟨col, bc, bcol, rfl, by simp, Nat.le_refl bc, ?_, Or.inl ⟨rfl, rfl⟩⟩
    intro i h1 h2
    omega
  | succ len ih =>
    obtain ⟨colF, bcF, bcolF, heq, hcol, hle, hmin, hcase⟩ := ih
    rw [scanColors_succ]
    rw [heq]
    have hcolset : colF.set v (len + 1) = col.set v (len + 1) := by
      by_cases hz : len = 0
      · rw [hcol, if_pos hz]
      · rw [hcol, if_neg hz, List.set_set]
    show ∃ colF' bcF' bcolF', (if countForbiddenPerVertex g (colF.set v (len + 1)) v < bcF
        then (colF.set v (len + 1), countForbiddenPerVertex g (colF.set v (len + 1)) v, len + 1)
        else (colF.set v (len + 1), bcF, bcolF)) = (colF', bcF', bcolF') ∧ _
    rw [hcolset]
    by_cases hlt : countForbiddenPerVertex g (col.set v (len + 1)) v < bcF
    · rw [if_pos hlt]
      refine ⟨col.set v (len + 1),
        countForbiddenPerVertex g (col.set v (len + 1)) v, len + 1, rfl, by simp, by
          omega, ?_, Or.inr ⟨by omega, Nat.le_refl _, rfl, by omega, ?_⟩⟩
      · intro i h1 h2
        by_cases hi : i ≤ len
        · have := hmin i h1 hi
          omega
        · have : i = len + 1 := by omega
          rw [this]
      · intro j h1 h2
        have := hmin j h1 (by omega)
        omega
    · rw [if_neg hlt]
      refine ⟨col.set v (len + 1), bcF, bcolF, rfl, by simp, hle, ?_, ?_⟩
      · intro i h1 h2
        by_cases hi : i ≤ len
        · exact hmin i h1 hi
        · have : i = len + 1 := by omega
          rw [this]
          omega
      · rcases hcase with h | ⟨ha, hb, hc, hd, he⟩
        · exact Or.inl h
        · exact Or.inr ⟨ha, by omega, hc, hd, he⟩

theorem getD_mod_mem {l : List Nat} (h : ¬l.isEmpty = true) (x : Nat) :
    l.getD (x % l.length) 0 ∈ l := by
  have hlen : 0 < l.length := by
    cases l with
    | nil => simp at h
    | cons a l => simp
  have hmod : x % l.length < l.length := Nat.mod_lt _ hlen
  rw [List.getD_eq_getElem _ _ hmod]
  exact List.getElem_mem hmod

theorem exists_partner_of_mem_snd {g : Graph} {cl : List (List Nat)} {v : Nat}
    (hw : g.wf) (h : v ∈ (getForbidden g cl).2) :
    ∃ u, u ≠ v ∧ u < g.n ∧ g.adj v u = true ∧
      (getColoringFromClassList g.n cl).getD u 0 =
      (getColoringFromClassList g.n cl).getD v 0 := by
  obtain ⟨hvn, p, hp, hor⟩ := mem_getForbidden_snd.mp h
  obtain ⟨i, j⟩ := p
  obtain ⟨hin, hij, hjn, hadj, hcol⟩ := mem_forbiddenPairs.mp hp
  have hine : i ≠ j := by
    intro heq
    rw [heq, hw.2.1 j] at hadj
    simp at hadj
  rcases hor with hiv | hjv
  · simp only at hiv
    subst hiv
    exact ⟨j, fun heq => hine heq.symm, hjn, hadj, hcol.symm⟩
  · simp only at hjv
    rw [hjv] at hadj hcol hine
    have hadj' : g.adj v i = true := by
      rw [hw.1 v i]
      exact hadj
    exact ⟨i, hine, hin, hadj', hcol⟩

theorem cfpv_pos_of_mem_snd {g : Graph} {cl : List (List Nat)} {v : Nat}
    (hw : g.wf) (h : v ∈ (getForbidden g cl).2) :
    1 ≤ countForbiddenPerVertex g (getColoringFromClassList g.n cl) v := by
  obtain ⟨u, hune, hun, hadj, hcol⟩ := exists_partner_of_mem_snd hw h
  unfold countForbiddenPerVertex
  have hmem : u ∈ (getNeighbors g v).filter
      (fun w => (getColoringFromClassList g.n cl).getD w 0 ==
        (getColoringFromClassList g.n cl).getD v 0) := by
    rw [List.mem_filter]
    constructor
    · unfold getNeighbors
      rw [List.mem_filter]
      exact ⟨List.mem_range.mpr hun, hadj⟩
    · rw [beq_iff_eq]
      exact hcol
  have := List.length_pos.mpr (List.ne_nil_of_mem hmem)
  omega

theorem moveVertex_ne_nil {cl : List (List Nat)} {v oc b u : Nat}
    (hpartner : u ≠ v ∧ u ∈ cl.getD (oc - 1) [])
    (hold : ∀ c ∈ cl, c ≠ []) :
    ∀ c ∈ moveVertex cl v oc b, c ≠ [] := by
  intro c hc
  obtain ⟨i, hi0, hceq⟩ := List.mem_iff_getElem.mp hc
  have hi : i < cl.length := by simpa [moveVertex_length] using hi0
  subst hceq
  have hi3 : i < ((cl.set (oc - 1) ((cl.getD (oc - 1) []).erase v)).set (b - 1)
      (((cl.set (oc - 1) ((cl.getD (oc - 1) []).erase v)).getD (b - 1) []) ++
        [v])).length := by
    simpa [moveVertex] using hi0
  show ((cl.set (oc - 1) ((cl.getD (oc - 1) []).erase v)).set (b - 1)
    (((cl.set (oc - 1) ((cl.getD (oc - 1) []).erase v)).getD (b - 1) []) ++
      [v]))[i] ≠ []
  rw [List.getElem_set]
  by_cases hbi : b - 1 = i
  · rw [if_pos hbi]
    simp
  · rw [if_neg hbi, List.getElem_set]
    by_cases hoi : oc - 1 = i
    · rw [if_pos hoi]
      have : u ∈ (cl.getD (oc - 1) []).erase v :=
        (List.mem_erase_of_ne hpartner.1).mpr hpartner.2
      exact List.ne_nil_of_mem this
    · rw [if_neg hoi]
      exact hold _ (List.getElem_mem hi)

/-- One unfolding of the local-search loop when the while condition holds
and the forbidden list is non-empty. -/
theorem localSearchLoop_body (g : Graph) (fuel count : Nat) (fs : List Nat)
    (cl : List (List Nat)) (noImp : Nat) (r : RS)
    (hcond : 0 < count ∧ noImp < g.n / 2) (hfsne : fs.isEmpty = false) :
    localSearchLoop g (fuel + 1) count fs cl noImp r =
    (if (lsScan g cl (lsVertex fs r)).2.1 <
        countForbiddenPerVertex g (getColoringFromClassList g.n cl) (lsVertex fs r) then
      if (getColoringFromClassList g.n cl).getD (lsVertex fs r) 0 = 0 then
        Except.error "index out of bounds"
      else
        if (cl.getD ((getColoringFromClassList g.n cl).getD (lsVertex fs r) 0 - 1)
            []).contains (lsVertex fs r) then
          localSearchLoop g fuel
            (getForbidden g (moveVertex cl (lsVertex fs r)
              ((getColoringFromClassList g.n cl).getD (lsVertex fs r) 0)
              (lsScan g cl (lsVertex fs r)).2.2)).1
            (getForbidden g (moveVertex cl (lsVertex fs r)
              ((getColoringFromClassList g.n cl).getD (lsVertex fs r) 0)
              (lsScan g cl (lsVertex fs r)).2.2)).2
            (moveVertex cl (lsVertex fs r)
              ((getColoringFromClassList g.n cl).getD (lsVertex fs r) 0)
              (lsScan g cl (lsVertex fs r)).2.2)
            0 (RS.shift r)
        else Except.error "unwrap"
    else localSearchLoop g fuel count fs cl (noImp + 1) (RS.shift r)) := by
  rw [localSearchLoop, if_pos hcond]
  have hne : ¬fs.isEmpty = true := by
    rw [hfsne]
    exact Bool.false_ne_true
  rw [if_neg hne]
  rfl

/-- Invariant of the local-search loop: on every successful run the class
list stays partitioned, the returned count is the forbidden count of the
final list, the length is preserved, and no class is emptied. -/
theorem localSearchLoop_ok {g : Graph} (hw : g.wf) :
    ∀ fuel count fs cl noImp r res,
    count = (getForbidden g cl).1 → fs = (getForbidden g cl).2 →
    Partitioned g cl →
    localSearchLoop g fuel count fs cl noImp r = .ok res →
    Partitioned g res.1.2 ∧ res.1.1 = (getForbidden g res.1.2).1 ∧
      res.1.2.length = cl.length ∧
      ((∀ c ∈ cl, c ≠ []) → ∀ c ∈ res.1.2, c ≠ []) := by
  intro fuel
  induction fuel with
  | zero =>
    intro count fs cl noImp r res hcount hfs hpart heq
    simp [localSearchLoop] at heq
  | succ fuel ih =>
    intro count fs cl noImp r res hcount hfs hpart heq
    by_cases hcond : 0 < count ∧ noImp < g.n / 2
    · have hfz : 0 < (getForbidden g cl).1 := hcount ▸ hcond.1
      have hfsne : fs.isEmpty = false := by
        rw [hfs]
        cases hgf : (getForbidden g cl).2 with
        | nil => exact absurd hgf (getForbidden_snd_ne_nil hfz)
        | cons a l => rfl
      rw [localSearchLoop_body g fuel count fs cl noImp r hcond hfsne] at heq
      have hvmem : lsVertex fs r ∈ (getForbidden g cl).2 := by
        rw [← hfs]
        exact getD_mod_mem (by rw [hfsne]; exact Bool.false_ne_true) _
      have hvn : lsVertex fs r < g.n := getForbidden_snd_lt hvmem
      have hcnt1 : countIn cl (lsVertex fs r) = 1 := hpart.1 _ hvn
      have hocol : (getColoringFromClassList g.n cl).getD (lsVertex fs r) 0 =
          colorOf cl (lsVertex fs r) := coloring_getD hvn
      have hocpos : 0 < colorOf cl (lsVertex fs r) := colorOf_pos (by omega)
      by_cases hmove : (lsScan g cl (lsVertex fs r)).2.1 <
          countForbiddenPerVertex g (getColoringFromClassList g.n cl) (lsVertex fs r)
      · rw [if_pos hmove] at heq
        rw [if_neg (by rw [hocol]; omega :
          ¬(getColoringFromClassList g.n cl).getD (lsVertex fs r) 0 = 0)] at heq
        have hmemclass : lsVertex fs r ∈ cl.getD
            ((getColoringFromClassList g.n cl).getD (lsVertex fs r) 0 - 1) [] := by
          rw [hocol]
          exact mem_class_of_countIn_pos (by omega)
        rw [if_pos (List.elem_iff.mpr hmemclass)] at heq
        obtain ⟨colF, bcF, bcolF, hseq, hscol, hsle, hsmin, hscase⟩ :=
          scanColors_spec g (lsVertex fs r) (getColoringFromClassList g.n cl)
            cl.length
            (countForbiddenPerVertex g (getColoringFromClassList g.n cl)
              (lsVertex fs r))
            ((getColoringFromClassList g.n cl).getD (lsVertex fs r) 0)
        have hlss : lsScan g cl (lsVertex fs r) = (colF, bcF, bcolF) := hseq
        rw [hlss] at heq hmove
        simp only at heq hmove
        rcases hscase with ⟨hbc, -⟩ | ⟨hb1, hb2, -, -, -⟩
        · omega
        · have hpart2 : Partitioned g (moveVertex cl (lsVertex fs r)
              ((getColoringFromClassList g.n cl).getD (lsVertex fs r) 0) bcolF) := by
            have hcIn := moveVertex_countIn hcnt1 hocol hb1 hb2
            constructor
            · intro u hu
              rw [hcIn u]
              exact hpart.1 u hu
            · intro u hu
              rw [hcIn u] at hu
              exact hpart.2 u hu
          have happly := ih _ _ _ 0 (RS.shift r) res rfl rfl hpart2 heq
          refine ⟨happly.1, happly.2.1, ?_, ?_⟩
          · rw [happly.2.2.1, moveVertex_length]
          · intro hne c hc
            have hpartner : ∃ u, u ≠ lsVertex fs r ∧ u ∈ cl.getD
                ((getColoringFromClassList g.n cl).getD (lsVertex fs r) 0 - 1) [] := by
              obtain ⟨u, hune, hun, hadj, hcolu⟩ := exists_partner_of_mem_snd hw hvmem
              refine ⟨u, hune, ?_⟩
              rw [hocol]
              have hcoleq : colorOf cl u = colorOf cl (lsVertex fs r) := by
                rw [← coloring_getD hun, ← coloring_getD hvn, hcolu]
              rw [← hcoleq]
              exact mem_class_of_countIn_pos (by rw [hpart.1 u hun]; omega)
            obtain ⟨u, hu⟩ := hpartner
            exact (happly.2.2.2 (moveVertex_ne_nil hu hne)) c hc
      · rw [if_neg hmove] at heq
        exact ih _ _ _ _ _ res hcount hfs hpart heq
    · rw [localSearchLoop, if_neg hcond] at heq
      injection heq with h2
      subst h2
      exact ⟨hpart, hcount, rfl, fun h => h⟩

/-- Fuel sufficiency: each iteration of the local-search loop either
strictly decreases the forbidden count (accepted move) or increments
no_improvement toward the ceiling, so the lexicographic measure bounds the
iteration count and the baked-in fuel is never exhausted on partitioned
inputs. -/
theorem localSearchLoop_terminates {g : Graph} (hw : g.wf) :
    ∀ fuel count fs cl noImp r,
    count = (getForbidden g cl).1 → fs = (getForbidden g cl).2 →
    Partitioned g cl → noImp ≤ g.n / 2 →
    count * (g.n / 2 + 1) + (g.n / 2 - noImp) < fuel →
    ∃ res, localSearchLoop g fuel count fs cl noImp r = .ok res := by
  intro fuel
  induction fuel with
  | zero =>
    intro count fs cl noImp r hcount hfs hpart hni hfuel
    omega
  | succ fuel ih =>
    intro count fs cl noImp r hcount hfs hpart hni hfuel
    by_cases hcond : 0 < count ∧ noImp < g.n / 2
    · have hfz : 0 < (getForbidden g cl).1 := hcount ▸ hcond.1
      have hfsne : fs.isEmpty = false := by
        rw [hfs]
        cases hgf : (getForbidden g cl).2 with
        | nil => exact absurd hgf (getForbidden_snd_ne_nil hfz)
        | cons a l => rfl
      rw [localSearchLoop_body g fuel count fs cl noImp r hcond hfsne]
      have hvmem : lsVertex fs r ∈ (getForbidden g cl).2 := by
        rw [← hfs]
        exact getD_mod_mem (by rw [hfsne]; exact Bool.false_ne_true) _
      have hvn : lsVertex fs r < g.n := getForbidden_snd_lt hvmem
      have hcnt1 : countIn cl (lsVertex fs r) = 1 := hpart.1 _ hvn
      have hocol : (getColoringFromClassList g.n cl).getD (lsVertex fs r) 0 =
          colorOf cl (lsVertex fs r) := coloring_getD hvn
      have hocpos : 0 < colorOf cl (lsVertex fs r) := colorOf_pos (by omega)
      by_cases hmove : (lsScan g cl (lsVertex fs r)).2.1 <
          countForbiddenPerVertex g (getColoringFromClassList g.n cl) (lsVertex fs r)
      · rw [if_pos hmove]
        rw [if_neg (by rw [hocol]; omega :
          ¬(getColoringFromClassList g.n cl).getD (lsVertex fs r) 0 = 0)]
        have hmemclass : lsVertex fs r ∈ cl.getD
            ((getColoringFromClassList g.n cl).getD (lsVertex fs r) 0 - 1) [] := by
          rw [hocol]
          exact mem_class_of_countIn_pos (by omega)
        rw [if_pos (List.elem_iff.mpr hmemclass)]
        obtain ⟨colF, bcF, bcolF, hseq, hscol, hsle, hsmin, hscase⟩ :=
          scanColors_spec g (lsVertex fs r) (getColoringFromClassList g.n cl)
            cl.length
            (countForbiddenPerVertex g (getColoringFromClassList g.n cl)
              (lsVertex fs r))
            ((getColoringFromClassList g.n cl).getD (lsVertex fs r) 0)
        have hlss : lsScan g cl (lsVertex fs r) = (colF, bcF, bcolF) := hseq
        rw [hlss] at hmove ⊢
        simp only at hmove ⊢
        rcases hscase with ⟨hbc, -⟩ | ⟨hb1, hb2, hc, -, -⟩
        · omega
        · have hpart2 : Partitioned g (moveVertex cl (lsVertex fs r)
              ((getColoringFromClassList g.n cl).getD (lsVertex fs r) 0) bcolF) := by
            have hcIn := moveVertex_countIn hcnt1 hocol hb1 hb2
            constructor
            · intro u hu
              rw [hcIn u]
              exact hpart.1 u hu
            · intro u hu
              rw [hcIn u] at hu
              exact hpart.2 u hu
          have haccount := getForbidden_fst_moveVertex hw hcnt1 hvn hocol hb1 hb2
          rw [← hcount, ← hc] at haccount
          have hdec : (getForbidden g (moveVertex cl (lsVertex fs r)
              ((getColoringFromClassList g.n cl).getD (lsVertex fs r) 0) bcolF)).1 <
              count := by omega
          apply ih _ _ _ 0 (RS.shift r) rfl rfl hpart2 (by omega)
          have hexp : ((getForbidden g (moveVertex cl (lsVertex fs r)
              ((getColoringFromClassList g.n cl).getD (lsVertex fs r) 0) bcolF)).1 + 1) *
              (g.n / 2 + 1) =
              (getForbidden g (moveVertex cl (lsVertex fs r)
                ((getColoringFromClassList g.n cl).getD (lsVertex fs r) 0) bcolF)).1 *
              (g.n / 2 + 1) + (g.n / 2 + 1) := by ring
          have hmul : ((getForbidden g (moveVertex cl (lsVertex fs r)
              ((getColoringFromClassList g.n cl).getD (lsVertex fs r) 0) bcolF)).1 + 1) *
              (g.n / 2 + 1) ≤ count * (g.n / 2 + 1) :=
            Nat.mul_le_mul_right _ (by omega)
          omega
      · rw [if_neg hmove]
        exact ih _ _ _ _ (RS.shift r) hcount hfs hpart (by omega) (by omega)
    · rw [localSearchLoop, if_neg hcond]
      exact ⟨((count, cl), r), rfl⟩

theorem localSearch_eq (g : Graph) (cl : List (List Nat)) (r : RS) :
    localSearch g cl r =
    localSearchLoop g (((getForbidden g cl).1 + 1) * (g.n / 2 + 1))
      (getForbidden g cl).1 (getForbidden g cl).2 cl 0 r := rfl

theorem localSearch_ok_spec {g : Graph} {cl : List (List Nat)} {r : RS}
    {res : (Nat × List (List Nat)) × RS} (hw : g.wf) (hpart : Partitioned g cl)
    (heq : localSearch g cl r = .ok res) :
    Partitioned g res.1.2 ∧ res.1.1 = (getForbidden g res.1.2).1 ∧
      res.1.2.length = cl.length ∧
      ((∀ c ∈ cl, c ≠ []) → ∀ c ∈ res.1.2, c ≠ []) := by
  rw [localSearch_eq] at heq
  exact localSearchLoop_ok hw _ _ _ _ _ _ _ rfl rfl hpart heq

theorem localSearch_terminates {g : Graph} {cl : List (List Nat)} (r : RS)
    (hw : g.wf) (hpart : Partitioned g cl) :
    ∃ res, localSearch g cl r = .ok res := by
  rw [localSearch_eq]
  apply localSearchLoop_terminates hw _ _ _ _ _ _ rfl rfl hpart (Nat.zero_le _)
  have hexp : ((getForbidden g cl).1 + 1) * (g.n / 2 + 1) =
      (getForbidden g cl).1 * (g.n / 2 + 1) + (g.n / 2 + 1) := by ring
  omega

theorem localSearch_of_proper {g : Graph} {cl : List (List Nat)} (r : RS)
    (hw : g.wf) (hpart : Partitioned g cl) (hprop : ProperCl g cl) :
    localSearch g cl r = .ok ((0, cl), r) := by
  have hz := getForbidden_zero_of_proper hw hpart hprop
  rw [localSearch_eq, hz]
  have hfuel : (0 + 1) * (g.n / 2 + 1) = g.n / 2 + 1 := by ring
  rw [hfuel, localSearchLoop]
  rw [if_neg (by omega : ¬(0 < 0 ∧ 0 < g.n / 2))]

/-- The complete graph is well-formed. -/
theorem completeGraph_wf (n : Nat) : (completeGraph n).wf := by
  refine ⟨?_, ?_, ?_⟩
  · intro i j
    show (decide (i < n) && decide (j < n) && decide (i ≠ j)) =
      (decide (j < n) && decide (i < n) && decide (j ≠ i))
    by_cases h1 : i < n <;> by_cases h2 : j < n <;> by_cases h3 : i = j <;>
      simp [h1, h2, h3] <;> first | omega | (intro h; exact h3 h.symm) |
        (intro h; exact absurd h.symm h3)
  · intro i
    show (decide (i < n) && decide (i < n) && decide (i ≠ i)) = false
    simp
  · intro i j h
    have : (decide (i < n) && decide (j < n) && decide (i ≠ j)) = true := h
    simp only [Bool.and_eq_true, decide_eq_true_eq] at this
    exact ⟨this.1.1, this.1.2⟩

/-- The edgeless graph is well-formed. -/
theorem edgeless_wf (n : Nat) : (edgeless n).wf := by
  refine ⟨fun i j => rfl, fun i => rfl, fun i j h => ?_⟩
  simp [edgeless] at h

theorem bool_eq_of_iff {a b : Bool} (h : a = true ↔ b = true) : a = b := by
  cases a <;> cases b <;> simp_all

theorem graphOfEdges_adj_iff (n : Nat) (es : List (Nat × Nat)) (i j : Nat) :
    (graphOfEdges n es).adj i j = true ↔
    i < n ∧ j < n ∧ i ≠ j ∧ ((i, j) ∈ es ∨ (j, i) ∈ es) := by
  show (decide (i < n) && decide (j < n) && decide (i ≠ j) &&
    (es.contains (i, j) || es.contains (j, i))) = true ↔ _
  simp only [Bool.and_eq_true, Bool.or_eq_true, decide_eq_true_eq, List.elem_iff]
  tauto

theorem graphOfEdges_wf (n : Nat) (es : List (Nat × Nat)) :
    (graphOfEdges n es).wf := by
  refine ⟨?_, ?_, ?_⟩
  · intro i j
    apply bool_eq_of_iff
    rw [graphOfEdges_adj_iff, graphOfEdges_adj_iff]
    constructor
    · rintro ⟨h1, h2, h3, h4⟩
      exact ⟨h2, h1, fun h => h3 h.symm, h4.symm⟩
    · rintro ⟨h1, h2, h3, h4⟩
      exact ⟨h2, h1, fun h => h3 h.symm, h4.symm⟩
  · intro i
    show (decide (i < n) && decide (i < n) && decide (i ≠ i) && _) = false
    simp
  · intro i j h
    have : (decide (i < n) && decide (j < n) && decide (i ≠ j) &&
      (es.contains (i, j) || es.contains (j, i))) = true := h
    simp only [Bool.and_eq_true, decide_eq_true_eq] at this
    exact ⟨this.1.1.1, this.1.1.2⟩

/-- Partitioned follows from two checks that are decidable on concrete
inputs. -/
theorem partitioned_of_checks {g : Graph} {cl : List (List Nat)}
    (h1 : ∀ v, v < g.n → countIn cl v = 1)
    (h2 : ∀ c ∈ cl, ∀ u ∈ c, u < g.n) : Partitioned g cl :=
  ⟨h1, fun v hv => by
    obtain ⟨c, hc, hvc⟩ := countIn_pos_iff.mp hv
    exact h2 c hc v hvc⟩

theorem getD_set_ne' {α : Type} {l : List α} {i j : Nat} (x d : α) (h : i ≠ j) :
    (l.set i x).getD j d = l.getD j d := by
  rw [List.getD_eq_getElem?_getD, List.getD_eq_getElem?_getD, List.getElem?_set_ne h]

theorem getD_set_self' {α : Type} {l : List α} {i : Nat} (x d : α)
    (h : i < l.length) :
    (l.set i x).getD i d = x := by
  rw [List.getD_eq_getElem _ _ (by simpa using h), List.getElem_set, if_pos rfl]

/-- C7: applying local_search to an already-proper, covering class list
returns 0 and leaves the class list (and the oracle) unchanged: the initial
forbidden count is zero, so the while loop never runs. -/
theorem C7_localSearch_proper_identity (g : Graph) (cl : List (List Nat))
    (r : RS) (hw : g.wf) (hpart : Partitioned g cl) (hprop : ProperCl g cl) :
    localSearch g cl r = .ok ((0, cl), r) :=
  localSearch_of_proper r hw hpart hprop

/-- C7 witness: a concrete proper 2-coloring of the path 0-1-2-3. -/
theorem C7_localSearch_proper_identity_witness :
    localSearch (graphOfEdges 4 [(0, 1), (1, 2), (2, 3)]) [[0, 2], [1, 3]]
      rngZero = .ok ((0, [[0, 2], [1, 3]]), rngZero) :=
  C7_localSearch_proper_identity _ _ _ (graphOfEdges_wf _ _)
    (partitioned_of_checks (by decide) (by decide))
    (by unfold ProperCl; decide)

/-- C9: on a class list in which each vertex appears in exactly one class,
local_search terminates for every oracle stream with a successful result,
and the count it returns is the forbidden-edge count of the mutated class
list it returns. -/
theorem C9_localSearch_terminates (g : Graph) (cl : List (List Nat)) (r : RS)
    (hw : g.wf) (hpart : Partitioned g cl) :
    ∃ count cl' r', localSearch g cl r = .ok ((count, cl'), r') ∧
      count = (getForbidden g cl').1 := by
  obtain ⟨res, hres⟩ := localSearch_terminates r hw hpart
  obtain ⟨⟨count, cl'⟩, r'⟩ := res
  have hspec := localSearch_ok_spec hw hpart hres
  exact ⟨count, cl', r', hres, hspec.2.1⟩

/-- C9 witness: the 4-vertex path with the improper list [[0], [1, 2], [3]]. -/
theorem C9_localSearch_terminates_witness :
    ∃ count cl' r',
      localSearch (graphOfEdges 4 [(0, 1), (1, 2), (2, 3)]) [[0], [1, 2], [3]]
        rngZero = .ok ((count, cl'), r') ∧
      count = (getForbidden (graphOfEdges 4 [(0, 1), (1, 2), (2, 3)]) cl').1 :=
  C9_localSearch_terminates _ _ _ (graphOfEdges_wf _ _)
    (partitioned_of_checks (by decide) (by decide))

/-- C10: the accepted move of a local-search iteration preserves the class
list length and every vertex's occurrence count; it erases the chosen
vertex from its current class, appends it to the existing target class, and
leaves every other class unchanged. -/
theorem C10_move_preserves (g : Graph) (cl : List (List Nat)) (v b : Nat)
    (hpart : Partitioned g cl) (hv : v < g.n)
    (hb1 : 1 ≤ b) (hb2 : b ≤ cl.length) (hbne : b ≠ colorOf cl v) :
    (moveVertex cl v (colorOf cl v) b).length = cl.length ∧
    (∀ u, countIn (moveVertex cl v (colorOf cl v) b) u = countIn cl u) ∧
    (moveVertex cl v (colorOf cl v) b).getD (colorOf cl v - 1) [] =
      (cl.getD (colorOf cl v - 1) []).erase v ∧
    (moveVertex cl v (colorOf cl v) b).getD (b - 1) [] =
      cl.getD (b - 1) [] ++ [v] ∧
    (∀ j, j ≠ colorOf cl v - 1 → j ≠ b - 1 →
      (moveVertex cl v (colorOf cl v) b).getD j [] = cl.getD j []) := by
  have hcnt1 : countIn cl v = 1 := hpart.1 v hv
  have hocpos : 0 < colorOf cl v := colorOf_pos (by omega)
  have hoclt : colorOf cl v - 1 < cl.length := colorOf_sub_one_lt (by omega)
  have hidxne : b - 1 ≠ colorOf cl v - 1 := by omega
  refine ⟨moveVertex_length cl v (colorOf cl v) b,
    moveVertex_countIn hcnt1 rfl hb1 hb2, ?_, ?_, ?_⟩
  · show ((cl.set (colorOf cl v - 1) ((cl.getD (colorOf cl v - 1) []).erase v)).set
      (b - 1) (((cl.set (colorOf cl v - 1)
        ((cl.getD (colorOf cl v - 1) []).erase v)).getD (b - 1) []) ++ [v])).getD
      (colorOf cl v - 1) [] = (cl.getD (colorOf cl v - 1) []).erase v
    rw [getD_set_ne' _ _ hidxne, getD_set_self' _ _ hoclt]
  · show ((cl.set (colorOf cl v - 1) ((cl.getD (colorOf cl v - 1) []).erase v)).set
      (b - 1) (((cl.set (colorOf cl v - 1)
        ((cl.getD (colorOf cl v - 1) []).erase v)).getD (b - 1) []) ++ [v])).getD
      (b - 1) [] = cl.getD (b - 1) [] ++ [v]
    have hblt : b - 1 < (cl.set (colorOf cl v - 1)
        ((cl.getD (colorOf cl v - 1) []).erase v)).length := by
      rw [List.length_set]
      omega
    rw [getD_set_self' _ _ hblt, getD_set_ne' _ _ (fun h => hidxne h.symm)]
  · intro j hj1 hj2
    show ((cl.set (colorOf cl v - 1) ((cl.getD (colorOf cl v - 1) []).erase v)).set
      (b - 1) (((cl.set (colorOf cl v - 1)
        ((cl.getD (colorOf cl v - 1) []).erase v)).getD (b - 1) []) ++ [v])).getD
      j [] = cl.getD j []
    rw [getD_set_ne' _ _ (fun h => hj2 h.symm),
      getD_set_ne' _ _ (fun h => hj1 h.symm)]

/-- C10 witness: on the 4-vertex path, moving vertex 1 from class 2 to
class 3 preserves counts and rewrites exactly the two classes involved. -/
theorem C10_move_preserves_witness :
    (moveVertex [[0], [1, 2], [3]] 1
      (colorOf [[0], [1, 2], [3]] 1) 3).length = 3 ∧
    (∀ u, countIn (moveVertex [[0], [1, 2], [3]] 1
      (colorOf [[0], [1, 2], [3]] 1) 3) u = countIn [[0], [1, 2], [3]] u) ∧
    (moveVertex [[0], [1, 2], [3]] 1 (colorOf [[0], [1, 2], [3]] 1) 3).getD
      (colorOf [[0], [1, 2], [3]] 1 - 1) [] =
      (([[0], [1, 2], [3]] : List (List Nat)).getD
        (colorOf [[0], [1, 2], [3]] 1 - 1) []).erase 1 ∧
    (moveVertex [[0], [1, 2], [3]] 1 (colorOf [[0], [1, 2], [3]] 1) 3).getD
      (3 - 1) [] = ([[0], [1, 2], [3]] : List (List Nat)).getD (3 - 1) [] ++ [1] ∧
    (∀ j, j ≠ colorOf [[0], [1, 2], [3]] 1 - 1 → j ≠ 3 - 1 →
      (moveVertex [[0], [1, 2], [3]] 1 (colorOf [[0], [1, 2], [3]] 1) 3).getD
        j [] = ([[0], [1, 2], [3]] : List (List Nat)).getD j []) := by
  have hl : ([[0], [1, 2], [3]] : List (List Nat)).length = 3 := rfl
  exact hl ▸ C10_move_preserves (graphOfEdges 4 [(0, 1), (1, 2), (2, 3)])
    [[0], [1, 2], [3]] 1 3
    (partitioned_of_checks (by decide) (by decide)) (by decide)
    (by decide) (by decide) (by decide)

/-- C8: in one iteration of the local-search loop the picked vertex is
moved if and only if some color index in 1..=len(class_list) gives it
strictly fewer same-colored neighbors than its current color does; when it
moves, the destination is the earliest color index attaining the minimum
per-vertex forbidden count, and otherwise the state is unchanged except
that no_improvement is incremented. -/
theorem C8_step_characterization (g : Graph) (fuel count : Nat) (fs : List Nat)
    (cl : List (List Nat)) (noImp : Nat) (r : RS)
    (hw : g.wf) (hcount : count = (getForbidden g cl).1)
    (hfs : fs = (getForbidden g cl).2) (hpart : Partitioned g cl)
    (hpos : 0 < count) (hni : noImp < g.n / 2) :
    (¬(∃ i, 1 ≤ i ∧ i ≤ cl.length ∧
        countForbiddenPerVertex g
          ((getColoringFromClassList g.n cl).set (lsVertex fs r) i)
          (lsVertex fs r) <
        countForbiddenPerVertex g (getColoringFromClassList g.n cl)
          (lsVertex fs r)) →
      localSearchLoop g (fuel + 1) count fs cl noImp r =
        localSearchLoop g fuel count fs cl (noImp + 1) (RS.shift r)) ∧
    ((∃ i, 1 ≤ i ∧ i ≤ cl.length ∧
        countForbiddenPerVertex g
          ((getColoringFromClassList g.n cl).set (lsVertex fs r) i)
          (lsVertex fs r) <
        countForbiddenPerVertex g (getColoringFromClassList g.n cl)
          (lsVertex fs r)) →
      ∃ b, 1 ≤ b ∧ b ≤ cl.length ∧
        countForbiddenPerVertex g
          ((getColoringFromClassList g.n cl).set (lsVertex fs r) b)
          (lsVertex fs r) <
        countForbiddenPerVertex g (getColoringFromClassList g.n cl)
          (lsVertex fs r) ∧
        (∀ i, 1 ≤ i → i ≤ cl.length →
          countForbiddenPerVertex g
            ((getColoringFromClassList g.n cl).set (lsVertex fs r) b)
            (lsVertex fs r) ≤
          countForbiddenPerVertex g
            ((getColoringFromClassList g.n cl).set (lsVertex fs r) i)
            (lsVertex fs r)) ∧
        (∀ j, 1 ≤ j → j < b →
          countForbiddenPerVertex g
            ((getColoringFromClassList g.n cl).set (lsVertex fs r) b)
            (lsVertex fs r) <
          countForbiddenPerVertex g
            ((getColoringFromClassList g.n cl).set (lsVertex fs r) j)
            (lsVertex fs r)) ∧
        localSearchLoop g (fuel + 1) count fs cl noImp r =
          localSearchLoop g fuel
            (getForbidden g (moveVertex cl (lsVertex fs r)
              (colorOf cl (lsVertex fs r)) b)).1
            (getForbidden g (moveVertex cl (lsVertex fs r)
              (colorOf cl (lsVertex fs r)) b)).2
            (moveVertex cl (lsVertex fs r) (colorOf cl (lsVertex fs r)) b)
            0 (RS.shift r)) := by
  have hcond : 0 < count ∧ noImp < g.n / 2 := ⟨hpos, hni⟩
  have hfz : 0 < (getForbidden g cl).1 := hcount ▸ hpos
  have hfsne : fs.isEmpty = false := by
    rw [hfs]
    cases hgf : (getForbidden g cl).2 with
    | nil => exact absurd hgf (getForbidden_snd_ne_nil hfz)
    | cons a l => rfl
  have hvmem : lsVertex fs r ∈ (getForbidden g cl).2 := by
    rw [← hfs]
    exact getD_mod_mem (by rw [hfsne]; exact Bool.false_ne_true) _
  have hvn : lsVertex fs r < g.n := getForbidden_snd_lt hvmem
  have hcnt1 : countIn cl (lsVertex fs r) = 1 := hpart.1 _ hvn
  have hocol : (getColoringFromClassList g.n cl).getD (lsVertex fs r) 0 =
      colorOf cl (lsVertex fs r) := coloring_getD hvn
  have hocpos : 0 < colorOf cl (lsVertex fs r) := colorOf_pos (by omega)
  obtain ⟨colF, bcF, bcolF, hseq, hscol, hsle, hsmin, hscase⟩ :=
    scanColors_spec g (lsVertex fs r) (getColoringFromClassList g.n cl)
      cl.length
      (countForbiddenPerVertex g (getColoringFromClassList g.n cl)
        (lsVertex fs r))
      ((getColoringFromClassList g.n cl).getD (lsVertex fs r) 0)
  have hlss : lsScan g cl (lsVertex fs r) = (colF, bcF, bcolF) := hseq
  constructor
  · intro hno
    rw [localSearchLoop_body g fuel count fs cl noImp r hcond hfsne, hlss]
    simp only
    rw [if_neg]
    intro hlt
    rcases hscase with ⟨hbc, -⟩ | ⟨hb1, hb2, hc, hd, -⟩
    · omega
    · exact hno ⟨bcolF, hb1, hb2, by rw [← hc]; exact hd⟩
  · rintro ⟨i0, hi1, hi2, hilt⟩
    have hbflt : bcF < countForbiddenPerVertex g (getColoringFromClassList g.n cl)
        (lsVertex fs r) := by
      have := hsmin i0 hi1 hi2
      omega
    rcases hscase with ⟨hbc, -⟩ | ⟨hb1, hb2, hc, hd, he⟩
    · omega
    · refine ⟨bcolF, hb1, hb2, by rw [← hc]; exact hbflt,
        fun i h1 h2 => by rw [← hc]; exact hsmin i h1 h2,
        fun j h1 h2 => by rw [← hc]; exact he j h1 h2, ?_⟩
      rw [localSearchLoop_body g fuel count fs cl noImp r hcond hfsne, hlss]
      simp only
      rw [if_pos hbflt]
      rw [if_neg (by rw [hocol]; omega :
        ¬(getColoringFromClassList g.n cl).getD (lsVertex fs r) 0 = 0)]
      have hmemclass : lsVertex fs r ∈ cl.getD
          ((getColoringFromClassList g.n cl).getD (lsVertex fs r) 0 - 1) [] := by
        rw [hocol]
        exact mem_class_of_countIn_pos (by omega)
      rw [if_pos (List.elem_iff.mpr hmemclass), hocol]

/-- C8 witness: one iteration on the 4-vertex path with the improper list
[[0], [1, 2], [3]], where recoloring vertex 1 to color 3 is the unique
improving move. -/
theorem C8_step_characterization_witness :
    (¬(∃ i, 1 ≤ i ∧ i ≤ ([[0], [1, 2], [3]] : List (List Nat)).length ∧
        countForbiddenPerVertex (graphOfEdges 4 [(0, 1), (1, 2), (2, 3)])
          ((getColoringFromClassList 4 [[0], [1, 2], [3]]).set
            (lsVertex [1, 2] rngZero) i) (lsVertex [1, 2] rngZero) <
        countForbiddenPerVertex (graphOfEdges 4 [(0, 1), (1, 2), (2, 3)])
          (getColoringFromClassList 4 [[0], [1, 2], [3]])
          (lsVertex [1, 2] rngZero)) →
      localSearchLoop (graphOfEdges 4 [(0, 1), (1, 2), (2, 3)]) 4 1 [1, 2]
          [[0], [1, 2], [3]] 0 rngZero =
        localSearchLoop (graphOfEdges 4 [(0, 1), (1, 2), (2, 3)]) 3 1 [1, 2]
          [[0], [1, 2], [3]] 1 (RS.shift rngZero)) ∧
    ((∃ i, 1 ≤ i ∧ i ≤ ([[0], [1, 2], [3]] : List (List Nat)).length ∧
        countForbiddenPerVertex (graphOfEdges 4 [(0, 1), (1, 2), (2, 3)])
          ((getColoringFromClassList 4 [[0], [1, 2], [3]]).set
            (lsVertex [1, 2] rngZero) i) (lsVertex [1, 2] rngZero) <
        countForbiddenPerVertex (graphOfEdges 4 [(0, 1), (1, 2), (2, 3)])
          (getColoringFromClassList 4 [[0], [1, 2], [3]])
          (lsVertex [1, 2] rngZero)) →
      ∃ b, 1 ≤ b ∧ b ≤ ([[0], [1, 2], [3]] : List (List Nat)).length ∧
        countForbiddenPerVertex (graphOfEdges 4 [(0, 1), (1, 2), (2, 3)])
          ((getColoringFromClassList 4 [[0], [1, 2], [3]]).set
            (lsVertex [1, 2] rngZero) b) (lsVertex [1, 2] rngZero) <
        countForbiddenPerVertex (graphOfEdges 4 [(0, 1), (1, 2), (2, 3)])
          (getColoringFromClassList 4 [[0], [1, 2], [3]])
          (lsVertex [1, 2] rngZero) ∧
        (∀ i, 1 ≤ i → i ≤ ([[0], [1, 2], [3]] : List (List Nat)).length →
          countForbiddenPerVertex (graphOfEdges 4 [(0, 1), (1, 2), (2, 3)])
            ((getColoringFromClassList 4 [[0], [1, 2], [3]]).set
              (lsVertex [1, 2] rngZero) b) (lsVertex [1, 2] rngZero) ≤
          countForbiddenPerVertex (graphOfEdges 4 [(0, 1), (1, 2), (2, 3)])
            ((getColoringFromClassList 4 [[0], [1, 2], [3]]).set
              (lsVertex [1, 2] rngZero) i) (lsVertex [1, 2] rngZero)) ∧
        (∀ j, 1 ≤ j → j < b →
          countForbiddenPerVertex (graphOfEdges 4 [(0, 1), (1, 2), (2, 3)])
            ((getColoringFromClassList 4 [[0], [1, 2], [3]]).set
              (lsVertex [1, 2] rngZero) b) (lsVertex [1, 2] rngZero) <
          countForbiddenPerVertex (graphOfEdges 4 [(0, 1), (1, 2), (2, 3)])
            ((getColoringFromClassList 4 [[0], [1, 2], [3]]).set
              (lsVertex [1, 2] rngZero) j) (lsVertex [1, 2] rngZero)) ∧
        localSearchLoop (graphOfEdges 4 [(0, 1), (1, 2), (2, 3)]) 4 1 [1, 2]
            [[0], [1, 2], [3]] 0 rngZero =
          localSearchLoop (graphOfEdges 4 [(0, 1), (1, 2), (2, 3)]) 3
            (getForbidden (graphOfEdges 4 [(0, 1), (1, 2), (2, 3)])
              (moveVertex [[0], [1, 2], [3]] (lsVertex [1, 2] rngZero)
                (colorOf [[0], [1, 2], [3]] (lsVertex [1, 2] rngZero)) b)).1
            (getForbidden (graphOfEdges 4 [(0, 1), (1, 2), (2, 3)])
              (moveVertex [[0], [1, 2], [3]] (lsVertex [1, 2] rngZero)
                (colorOf [[0], [1, 2], [3]] (lsVertex [1, 2] rngZero)) b)).2
            (moveVertex [[0], [1, 2], [3]] (lsVertex [1, 2] rngZero)
              (colorOf [[0], [1, 2], [3]] (lsVertex [1, 2] rngZero)) b)
            0 (RS.shift rngZero)) :=
  C8_step_characterization (graphOfEdges 4 [(0, 1), (1, 2), (2, 3)]) 3 1
    [1, 2] [[0], [1, 2], [3]] 0 rngZero (graphOfEdges_wf _ _) (by decide)
    (by decide) (partitioned_of_checks (by decide) (by decide)) (by decide)
    (by decide)

/-! Properties of the restricted candidate list and of the class-building
loop of assign_color. -/

theorem mem_sortByKeyDesc {l : List (Nat × Nat)} {p : Nat × Nat}
    (h : p ∈ sortByKeyDesc l) : p ∈ l := by
  unfold sortByKeyDesc at h
  rw [List.mem_flatMap] at h
  obtain ⟨d, -, hp⟩ := h
  exact (List.mem_filter.mp hp).1

theorem le_foldr_max {l : List Nat} {x : Nat} (h : x ∈ l) :
    x ≤ l.foldr max 0 := by
  induction l with
  | nil => simp at h
  | cons a l ih =>
    rw [List.foldr_cons]
    rcases List.mem_cons.mp h with rfl | hmem
    · exact Nat.le_max_left _ _
    · exact Nat.le_trans (ih hmem) (Nat.le_max_right _ _)

theorem sortByKeyDesc_ne_nil {l : List (Nat × Nat)} (h : l ≠ []) :
    sortByKeyDesc l ≠ [] := by
  obtain ⟨p, hp⟩ := List.exists_mem_of_ne_nil _ h
  have hkey : p.2 ≤ (l.map Prod.snd).foldr max 0 :=
    le_foldr_max (List.mem_map.mpr ⟨p, hp, rfl⟩)
  apply List.ne_nil_of_mem
  show p ∈ sortByKeyDesc l
  unfold sortByKeyDesc
  rw [List.mem_flatMap]
  refine ⟨p.2, ?_, ?_⟩
  · rw [List.mem_reverse, List.mem_range]
    omega
  · rw [List.mem_filter]
    exact ⟨hp, by simp⟩

theorem take_ne_nil_of_ne_nil {α : Type} {l : List α} {k : Nat}
    (hk : 1 ≤ k) (h : l ≠ []) : l.take k ≠ [] := by
  cases l with
  | nil => exact absurd rfl h
  | cons a l =>
    cases k with
    | zero => omega
    | succ k => simp

theorem getNLargestDegree_subset {sz : Nat} {g : Graph} {subset : List Nat}
    {list : Option (List Nat)} {x : Nat}
    (h : x ∈ getNLargestDegree sz g subset list) : x ∈ subset := by
  unfold getNLargestDegree at h
  rw [List.mem_map] at h
  obtain ⟨p, hp, hpx⟩ := h
  have hmem := mem_sortByKeyDesc (List.mem_of_mem_take hp)
  rw [List.mem_filter] at hmem
  have := hmem.2
  rw [List.elem_iff] at this
  exact hpx ▸ this

theorem getNLargestDegree_ne_nil_aux (sz : Nat) (g : Graph)
    (subset L : List Nat) (hsz : 1 ≤ sz) (hex : ∃ v ∈ subset, v < g.n) :
    ((sortByKeyDesc (((List.range g.n).map (fun w =>
      (w, getDegreeInList g w L))).filter
        (fun x => subset.contains x.1))).take sz).map Prod.fst ≠ [] := by
  obtain ⟨v, hv, hvn⟩ := hex
  have hdeg : (v, getDegreeInList g v L) ∈
      ((List.range g.n).map (fun w => (w, getDegreeInList g w L))).filter
        (fun x => subset.contains x.1) := by
    rw [List.mem_filter]
    constructor
    · exact List.mem_map.mpr ⟨v, List.mem_range.mpr hvn, rfl⟩
    · rw [List.elem_iff]
      exact hv
  have hne := sortByKeyDesc_ne_nil (List.ne_nil_of_mem hdeg)
  obtain ⟨p, hp⟩ := List.exists_mem_of_ne_nil _ (take_ne_nil_of_ne_nil hsz hne)
  exact List.ne_nil_of_mem (List.mem_map.mpr ⟨p, hp, rfl⟩)

theorem getNLargestDegree_ne_nil {sz : Nat} {g : Graph} {subset : List Nat}
    {list : Option (List Nat)} (hsz : 1 ≤ sz)
    (hex : ∃ v ∈ subset, v < g.n) :
    getNLargestDegree sz g subset list ≠ [] := by
  cases list with
  | none => exact getNLargestDegree_ne_nil_aux sz g subset subset hsz hex
  | some L => exact getNLargestDegree_ne_nil_aux sz g subset L hsz hex

/-- Explicit form of getNeighbors membership. -/
theorem mem_getNeighbors {g : Graph} {v u : Nat} :
    u ∈ getNeighbors g v ↔ u < g.n ∧ g.adj v u = true := by
  unfold getNeighbors
  rw [List.mem_filter, List.mem_range]

/-- The class the assign_color loop builds: it extends the current class
with vertices drawn from admissible, keeps it an independent set without
duplicates, and is non-empty as soon as admissible is. -/
theorem assignLoop_ok {g : Graph} {sz : Nat} (hw : g.wf) :
    ∀ fuel adm inadm cur r cur' r',
    (∀ x ∈ adm, x < g.n) →
    (∀ x ∈ adm, x ∉ cur) →
    (∀ x ∈ adm, ∀ c ∈ cur, g.adj x c = false) →
    cur.Nodup →
    (∀ u ∈ cur, ∀ w ∈ cur, g.adj u w = false) →
    assignLoop g sz fuel adm inadm cur r = .ok (cur', r') →
    (∀ x ∈ cur', x ∈ cur ∨ x ∈ adm) ∧ cur'.Nodup ∧
    (∀ u ∈ cur', ∀ w ∈ cur', g.adj u w = false) ∧
    (adm ≠ [] → cur' ≠ []) ∧ (∀ x ∈ cur, x ∈ cur') := by
  intro fuel
  induction fuel with
  | zero =>
    intro adm inadm cur r cur' r' h1 h2 h3 h4 h5 heq
    simp [assignLoop] at heq
  | succ fuel ih =>
    intro adm inadm cur r cur' r' h1 h2 h3 h4 h5 heq
    rw [assignLoop] at heq
    by_cases hadm : adm.isEmpty
    · rw [if_pos hadm] at heq
      injection heq with heq1
      injection heq1 with heqc heqr
      subst heqc
      have : adm = [] := by
        cases adm
        · rfl
        · simp at hadm
      exact ⟨fun x hx => Or.inl hx, h4, h5, fun hne => absurd this hne,
        fun x hx => hx⟩
    · rw [if_neg hadm] at heq
      have hadmne : adm ≠ [] := by
        cases adm
        · simp at hadm
        · exact List.cons_ne_nil _ _
      by_cases hcand : (if inadm.isEmpty then getNLargestDegree sz g adm none
          else getNLargestDegree sz g adm (some inadm)).isEmpty
      · rw [if_pos hcand] at heq
        exact absurd heq (by simp)
      · rw [if_neg hcand] at heq
        set cnd := if inadm.isEmpty then getNLargestDegree sz g adm none
          else getNLargestDegree sz g adm (some inadm) with hcnd
        have hcsub : ∀ x ∈ cnd, x ∈ adm := by
          intro x hx
          rw [hcnd] at hx
          by_cases hin : inadm.isEmpty
          · rw [if_pos hin] at hx
            exact getNLargestDegree_subset hx
          · rw [if_neg hin] at hx
            exact getNLargestDegree_subset hx
        have hvmem : cnd.getD (r 0 % cnd.length) 0 ∈ adm :=
          hcsub _ (getD_mod_mem hcand _)
        set v := cnd.getD (r 0 % cnd.length) 0 with hv
        have hvn : v < g.n := h1 v hvmem
        have hstep := ih (adm.filter (fun node => node != v &&
            !(getNeighbors g v).contains node)) (inadm ++ getNeighbors g v)
          (cur ++ [v]) (RS.shift r) cur' r' ?_ ?_ ?_ ?_ ?_ heq
        · obtain ⟨s1, s2, s3, s4, s5⟩ := hstep
          refine ⟨?_, s2, s3, fun _ => ?_, ?_⟩
          · intro x hx
            rcases s1 x hx with hxc | hxa
            · rcases List.mem_append.mp hxc with hxc | hxc
              · exact Or.inl hxc
              · rw [List.mem_singleton] at hxc
                exact Or.inr (hxc ▸ hvmem)
            · rw [List.mem_filter] at hxa
              exact Or.inr hxa.1
          · apply List.ne_nil_of_mem
            exact s5 v (List.mem_append.mpr (Or.inr (List.mem_singleton.mpr rfl)))
          · intro x hx
            exact s5 x (List.mem_append.mpr (Or.inl hx))
        · intro x hx
          rw [List.mem_filter] at hx
          exact h1 x hx.1
        · intro x hx
          rw [List.mem_filter] at hx
          rw [List.mem_append, List.mem_singleton]
          rintro (hxc | hxv)
          · exact h2 x hx.1 hxc
          · rw [Bool.and_eq_true] at hx
            have := hx.2.1
            rw [hxv] at this
            simp at this
        · intro x hx c hc
          rw [List.mem_filter, Bool.and_eq_true] at hx
          rcases List.mem_append.mp hc with hcc | hcv
          · exact h3 x hx.1 c hcc
          · rw [List.mem_singleton] at hcv
            subst hcv
            have hxnb : ¬(getNeighbors g v).contains x = true := by
              have := hx.2.2
              cases hc2 : (getNeighbors g v).contains x
              · simp
              · rw [hc2] at this
                simp at this
            cases hadj : g.adj x v
            · rfl
            · exfalso
              apply hxnb
              rw [List.elem_iff, mem_getNeighbors]
              refine ⟨h1 x hx.1, ?_⟩
              rw [hw.1 v x]
              exact hadj
        · rw [List.nodup_append]
          refine ⟨h4, List.nodup_singleton v, ?_⟩
          intro x hxc hxv
          rw [List.mem_singleton] at hxv
          subst hxv
          exact h2 v hvmem hxc
        · intro u hu w hww
          rcases List.mem_append.mp hu with huc | huv <;>
            rcases List.mem_append.mp hww with hwc | hwv
          · exact h5 u huc w hwc
          · rw [List.mem_singleton] at hwv
            subst hwv
            rw [hw.1 u v]
            exact h3 v hvmem u huc
          · rw [List.mem_singleton] at huv
            subst huv
            exact h3 v hvmem w hwc
          · rw [List.mem_singleton] at huv hwv
            subst huv
            subst hwv
            exact hw.2.1 v

theorem countRemainingEdges_le (g : Graph) (l : List Nat) :
    countRemainingEdges g l ≤ l.length * l.length := by
  unfold countRemainingEdges
  have hb := List.sum_le_card_nsmul ((List.range l.length).map (fun i =>
    ((List.range l.length).filter
      (fun j => i < j && g.adj (l.getD i 0) (l.getD j 0))).length)) l.length ?_
  · simpa using hb
  · intro x hx
    rw [List.mem_map] at hx
    obtain ⟨i, -, hix⟩ := hx
    rw [← hix]
    exact Nat.le_trans (List.length_filter_le _ _) (by simp)

theorem assignColor_eq (g : Graph) (V : List Nat) (sz minRem : Nat)
    (cl : List (List Nat)) (numCC : Nat) (r : RS) :
    assignColor g V sz minRem cl numCC r =
    match assignLoop g sz (V.length + 1) V [] [] r with
    | .error e => .error e
    | .ok (C, r') =>
      if countRemainingEdges g (V.filter (fun v => !C.contains v)) < minRem then
        if numCC - 1 < cl.length then
          .ok ((countRemainingEdges g (V.filter (fun v => !C.contains v)),
            cl.set (numCC - 1) C), r')
        else .error "index out of bounds"
      else .ok ((minRem, cl), r') := by
  unfold assignColor
  cases h : assignLoop g sz (V.length + 1) V [] [] r with
  | error e => rfl
  | ok p =>
    obtain ⟨C, r'⟩ := p
    rfl

theorem assignColor_ok {g : Graph} (hw : g.wf) {V : List Nat}
    {sz minRem numCC : Nat} {cl : List (List Nat)} {r : RS}
    {res : (Nat × List (List Nat)) × RS}
    (hV1 : ∀ x ∈ V, x < g.n) (hV2 : V.Nodup) (hVne : V ≠ [])
    (heq : assignColor g V sz minRem cl numCC r = .ok res) :
    (res.1.2 = cl ∧ res.1.1 = minRem ∧ minRem ≤ V.length * V.length) ∨
    (∃ C, GoodClass g V C ∧ numCC - 1 < cl.length ∧
      res.1.2 = cl.set (numCC - 1) C ∧ res.1.1 < minRem) := by
  rw [assignColor_eq] at heq
  cases hal : assignLoop g sz (V.length + 1) V [] [] r with
  | error e =>
    rw [hal] at heq
    exact absurd heq (by simp)
  | ok p =>
    obtain ⟨C, r'⟩ := p
    rw [hal] at heq
    have heq2 : (if countRemainingEdges g (V.filter (fun v => !C.contains v)) <
        minRem then
        (if numCC - 1 < cl.length then
          Except.ok ((countRemainingEdges g (V.filter (fun v => !C.contains v)),
            cl.set (numCC - 1) C), r')
        else Except.error "index out of bounds")
      else Except.ok ((minRem, cl), r')) = Except.ok res := heq
    obtain ⟨s1, s2, s3, s4, s5⟩ := assignLoop_ok hw _ _ _ _ _ _ _ hV1
      (by simp) (by simp) List.nodup_nil (by simp) hal
    have hCV : ∀ x ∈ C, x ∈ V := fun x hx => (s1 x hx).resolve_left (by simp)
    have hgood : GoodClass g V C := ⟨s4 hVne, s2, hCV, s3⟩
    by_cases hlt : countRemainingEdges g (V.filter (fun v => !C.contains v)) < minRem
    · rw [if_pos hlt] at heq2
      by_cases hidx : numCC - 1 < cl.length
      · rw [if_pos hidx] at heq2
        injection heq2 with h1
        subst h1
        exact Or.inr ⟨C, hgood, hidx, rfl, hlt⟩
      · rw [if_neg hidx] at heq2
        exact absurd heq2 (by simp)
    · rw [if_neg hlt] at heq2
      injection heq2 with h1
      subst h1
      refine Or.inl ⟨rfl, rfl, ?_⟩
      have hc1 := countRemainingEdges_le g (V.filter (fun v => !C.contains v))
      have hc2 := List.length_filter_le (fun v => !C.contains v) V
      have hc3 : (V.filter (fun v => !C.contains v)).length *
          (V.filter (fun v => !C.contains v)).length ≤ V.length * V.length :=
        Nat.mul_le_mul hc2 hc2
      omega

theorem colorIters_ok {g : Graph} (hw : g.wf) {V : List Nat} {sz numCC : Nat}
    (hV1 : ∀ x ∈ V, x < g.n) (hV2 : V.Nodup) (hVne : V ≠ []) :
    ∀ k minRem cl r res,
    colorIters g V sz numCC k minRem cl r = .ok res →
    (res.1.2 = cl ∧ (V.length * V.length < minRem → k = 0)) ∨
    (∃ C, GoodClass g V C ∧ numCC - 1 < cl.length ∧
      res.1.2 = cl.set (numCC - 1) C) := by
  intro k
  induction k with
  | zero =>
    intro minRem cl r res heq
    rw [colorIters] at heq
    injection heq with h1
    subst h1
    exact Or.inl ⟨rfl, fun _ => rfl⟩
  | succ k ih =>
    intro minRem cl r res heq
    rw [colorIters] at heq
    cases hac : assignColor g V sz minRem cl numCC r with
    | error e =>
      rw [hac] at heq
      have hfalse : (Except.error e :
          Except String ((Nat × List (List Nat)) × RS)) = .ok res := heq
      exact absurd hfalse (by simp)
    | ok p =>
      obtain ⟨⟨m1, cl1⟩, r1⟩ := p
      rw [hac] at heq
      have heq2 : colorIters g V sz numCC k m1 cl1 r1 = .ok res := heq
      rcases assignColor_ok hw hV1 hV2 hVne hac with
        ⟨ha1, ha2, ha3⟩ | ⟨C, hg, hidx, hset, hlt⟩
      · have hcl1 : cl1 = cl := ha1
        have hm1 : m1 = minRem := ha2
        rw [hcl1, hm1] at heq2
        rcases ih minRem cl r1 res heq2 with ⟨hb1, -⟩ | hb
        · exact Or.inl ⟨hb1, fun hbound => absurd hbound (by omega)⟩
        · exact Or.inr hb
      · have hcl1 : cl1 = cl.set (numCC - 1) C := hset
        subst hcl1
        rcases ih m1 (cl.set (numCC - 1) C) r1 res heq2 with
          ⟨hb1, -⟩ | ⟨C', hg', hidx', hset'⟩
        · exact Or.inr ⟨C, hg, hidx, hb1⟩
        · refine Or.inr ⟨C', hg', hidx, ?_⟩
          rw [hset', List.set_set]

theorem mem_set_cases {α : Type} {l : List α} {i : Nat} {a c : α}
    (h : c ∈ l.set i a) : c = a ∨ c ∈ l := by
  obtain ⟨j, hj, hcj⟩ := List.mem_iff_getElem.mp h
  rw [List.getElem_set] at hcj
  by_cases hij : i = j
  · rw [if_pos hij] at hcj
    exact Or.inl hcj.symm
  · rw [if_neg hij] at hcj
    rw [List.length_set] at hj
    exact Or.inr (hcj ▸ List.getElem_mem hj)

theorem count_filter_not_contains_mem {V C : List Nat} {v : Nat} (h : v ∈ C) :
    (V.filter (fun x => !C.contains x)).count v = 0 := by
  rw [List.count_eq_zero]
  intro hv
  rw [List.mem_filter] at hv
  have := hv.2
  simp [h] at this

theorem count_filter_not_contains_not_mem {V C : List Nat} {v : Nat}
    (h : v ∉ C) :
    (V.filter (fun x => !C.contains x)).count v = V.count v := by
  apply List.count_filter
  cases hc : C.contains v
  · simp
  · exact absurd (List.elem_iff.mp hc) h

theorem nodup_length_le {V : List Nat} {n : Nat} (h1 : V.Nodup)
    (h2 : ∀ x ∈ V, x < n) : V.length ≤ n := by
  have hsub : V ⊆ List.range n := fun x hx => List.mem_range.mpr (h2 x hx)
  have := (List.subperm_of_subset h1 hsub).length_le
  simpa using this

/-- Invariant of the construction while loop: on success every vertex ends
in exactly one class, classes are independent sets of in-range vertices,
slots from the final class count up are empty, and (when usize arithmetic
cannot saturate and at least one trial runs per round) the slots below it
are non-empty. -/
theorem graspWhile_ok {g : Graph} (hw : g.wf) {ci : Int} {sz : Nat} :
    ∀ fuel numCC V cl r res,
    (∀ x ∈ V, x < g.n) → V.Nodup →
    cl.length = g.n →
    (∀ v, countIn cl v + V.count v = if v < g.n then 1 else 0) →
    (∀ c ∈ cl, ∀ u ∈ c, ∀ w ∈ c, g.adj u w = false) →
    (∀ j, numCC ≤ j → cl.getD j [] = []) →
    (∀ j, j < numCC → g.n * g.n < USIZE_MAX → 1 ≤ ci.toNat →
      cl.getD j [] ≠ []) →
    numCC ≤ g.n →
    graspWhile g ci sz fuel numCC V cl r = .ok res →
    (∀ v, v < g.n → countIn res.1.2 v = 1) ∧
    (∀ v, 0 < countIn res.1.2 v → v < g.n) ∧
    res.1.2.length = g.n ∧
    (∀ c ∈ res.1.2, ∀ u ∈ c, ∀ w ∈ c, g.adj u w = false) ∧
    (∀ j, res.1.1 ≤ j → res.1.2.getD j [] = []) ∧
    (g.n * g.n < USIZE_MAX → 1 ≤ ci.toNat → ∀ j, j < res.1.1 →
      res.1.2.getD j [] ≠ []) ∧
    res.1.1 ≤ g.n := by
  intro fuel
  induction fuel with
  | zero =>
    intro numCC V cl r res hV1 hV2 hlen hacct hprop hempty hpre hcc heq
    simp [graspWhile] at heq
  | succ fuel ih =>
    intro numCC V cl r res hV1 hV2 hlen hacct hprop hempty hpre hcc heq
    rw [graspWhile] at heq
    by_cases hVe : V.isEmpty
    · rw [if_pos hVe] at heq
      injection heq with h1
      subst h1
      have hVnil : V = [] := by
        cases V
        · rfl
        · simp at hVe
      subst hVnil
      refine ⟨?_, ?_, hlen, hprop, hempty, fun hb hci j hj => hpre j hj hb hci, hcc⟩
      · intro v hv
        have := hacct v
        rw [if_pos hv] at this
        simp only [List.count_nil] at this
        show countIn cl v = 1
        omega
      · intro v hv
        have hv' : 0 < countIn cl v := hv
        by_contra hge
        have := hacct v
        rw [if_neg hge] at this
        simp only [List.count_nil] at this
        omega
    · rw [if_neg hVe] at heq
      have hVne : V ≠ [] := by
        cases V
        · simp at hVe
        · exact List.cons_ne_nil _ _
      cases hci : colorIters g V sz (numCC + 1) ci.toNat USIZE_MAX cl r with
      | error e =>
        rw [hci] at heq
        have hfalse : (Except.error e :
            Except String ((Nat × List (List Nat)) × RS)) = .ok res := heq
        exact absurd hfalse (by simp)
      | ok p =>
        obtain ⟨⟨m1, cl1⟩, r1⟩ := p
        rw [hci] at heq
        have heq2 : (match cl1.get? numCC with
          | none => Except.error "index out of bounds"
          | some cls => graspWhile g ci sz fuel (numCC + 1)
              (V.filter (fun v => !cls.contains v)) cl1 r1) = .ok res := heq
        cases hget : cl1.get? numCC with
        | none =>
          rw [hget] at heq2
          exact absurd heq2 (by simp)
        | some cls =>
          rw [hget] at heq2
          have heq3 : graspWhile g ci sz fuel (numCC + 1)
              (V.filter (fun v => !cls.contains v)) cl1 r1 = .ok res := heq2
          have hnum : numCC < cl1.length := by
            by_contra hge
            rw [List.get?_eq_none.mpr (by omega)] at hget
            exact absurd hget (by simp)
          have hclsval : cl1[numCC] = cls := by
            rw [List.get?_eq_getElem?] at hget
            rw [List.getElem?_eq_getElem hnum] at hget
            injection hget
          rcases colorIters_ok hw hV1 hV2 hVne ci.toNat USIZE_MAX cl r
            ((m1, cl1), r1) hci with ⟨hb1, hb2⟩ | ⟨C, hgood, hidx, hset⟩
          · -- no commit: the round was a gap
            have hcl1 : cl1 = cl := hb1
            subst hcl1
            have hclsnil : cls = [] := by
              rw [← hclsval, ← List.getD_eq_getElem _ ([] : List Nat) hnum]
              exact hempty numCC (Nat.le_refl _)
            have hVeq : V.filter (fun v => !cls.contains v) = V := by
              apply List.filter_eq_self.mpr
              intro x hx
              rw [hclsnil]
              simp
            rw [hVeq] at heq3
            have hbound : g.n * g.n < USIZE_MAX → 1 ≤ ci.toNat → False := by
              intro hb hone
              have hVle : V.length ≤ g.n := nodup_length_le hV2 hV1
              have : V.length * V.length < USIZE_MAX :=
                Nat.lt_of_le_of_lt (Nat.mul_le_mul hVle hVle) hb
              have := hb2 this
              omega
            exact ih (numCC + 1) V cl1 r1 res hV1 hV2 hlen hacct hprop
              (fun j hj => hempty j (by omega))
              (fun j hj hb hone => by
                by_cases hjc : j < numCC
                · exact hpre j hjc hb hone
                · exact absurd (hbound hb hone) (fun h => h))
              (by rw [hlen] at hnum; omega) heq3
          · -- commit happened
            have hidx' : numCC < cl.length := by
              have : numCC + 1 - 1 < cl.length := hidx
              omega
            have hcl1 : cl1 = cl.set (numCC + 1 - 1) C := hset
            have hcl1' : cl1 = cl.set numCC C := by
              rw [hcl1, Nat.add_sub_cancel]
            have hclsC : cls = C := by
              have h2 : cl1.getD numCC [] = cls := by
                rw [List.getD_eq_getElem _ _ hnum]
                exact hclsval
              rw [hcl1', getD_set_self' _ _ hidx'] at h2
              exact h2.symm
            have hgood' : GoodClass g V cls := by rw [hclsC]; exact hgood
            obtain ⟨hgne, hgnd, hgsub, hgindep⟩ := hgood'
            rw [← hclsC] at hcl1'
            have hacct' : ∀ v, countIn (cl.set numCC cls) v +
                (V.filter (fun x => !cls.contains x)).count v =
                if v < g.n then 1 else 0 := by
              intro v
              have hstep := countIn_set_getD hidx' cls v
              rw [hempty numCC (Nat.le_refl _)] at hstep
              simp only [List.count_nil] at hstep
              by_cases hvC : v ∈ cls
              · have hvV : v ∈ V := hgsub v hvC
                have hVc1 : 1 ≤ V.count v := List.count_pos_iff.mpr hvV
                have hCc1 : cls.count v = 1 :=
                  List.count_eq_one_of_mem hgnd hvC
                rw [count_filter_not_contains_mem hvC]
                have := hacct v
                by_cases hvn : v < g.n
                · rw [if_pos hvn] at this ⊢
                  omega
                · rw [if_neg hvn] at this ⊢
                  omega
              · have hCc0 : cls.count v = 0 := by
                  rw [List.count_eq_zero]
                  exact hvC
                rw [count_filter_not_contains_not_mem hvC]
                have := hacct v
                omega
            rw [hcl1'] at heq3
            exact ih (numCC + 1) (V.filter (fun x => !cls.contains x))
              (cl.set numCC cls) r1 res
              (fun x hx => hV1 x (List.mem_filter.mp hx).1)
              (List.Nodup.filter _ hV2)
              (by rw [List.length_set]; exact hlen)
              hacct'
              (fun c hc => by
                rcases mem_set_cases hc with rfl | hcc2
                · exact hgindep
                · exact hprop c hcc2)
              (fun j hj => by
                rw [getD_set_ne' _ _ (by omega : numCC ≠ j)]
                exact hempty j (by omega))
              (fun j hj hb hone => by
                by_cases hjc : j < numCC
                · rw [getD_set_ne' _ _ (by omega : numCC ≠ j)]
                  exact hpre j hjc hb hone
                · have hjeq : j = numCC := by omega
                  subst hjeq
                  rw [getD_set_self' _ _ hidx']
                  exact hgne)
              (by rw [hlen] at hidx'; omega) heq3

/-! Permutation and counting facts used by the improve-phase merge. -/

theorem flatMap_congr_mem {α β : Type} {l : List α} {f h : α → List β}
    (hfg : ∀ a ∈ l, f a = h a) : l.flatMap f = l.flatMap h := by
  induction l with
  | nil => rfl
  | cons a l ih =>
    rw [List.flatMap_cons, List.flatMap_cons,
      hfg a (List.mem_cons_self a l), ih (fun x hx => hfg x (List.mem_cons_of_mem a hx))]

theorem buckets_perm :
    ∀ (ds : List Nat), ds.Nodup → ∀ (l : List (Nat × Nat)),
    (∀ x ∈ l, x.2 ∈ ds) →
    List.Perm (ds.flatMap (fun d => l.filter (fun p => p.2 == d))) l := by
  intro ds
  induction ds with
  | nil =>
    intro _ l hcov
    have hl : l = [] := by
      cases l with
      | nil => rfl
      | cons a l => exact absurd (hcov a (List.mem_cons_self a l)) (List.not_mem_nil _)
    subst hl
    exact List.Perm.refl _
  | cons d ds ih =>
    intro hnd l hcov
    have hnd' := List.nodup_cons.mp hnd
    rw [List.flatMap_cons]
    have hstep : ds.flatMap (fun e => l.filter (fun p => p.2 == e)) =
        ds.flatMap (fun e => (l.filter (fun p => !(p.2 == d))).filter
          (fun p => p.2 == e)) := by
      apply flatMap_congr_mem
      intro e he
      rw [List.filter_filter]
      apply (List.filter_congr ?_).symm
      intro x hx
      cases hxe : x.2 == e
      · rfl
      · have hxd : (x.2 == d) = false := by
          rw [beq_iff_eq] at hxe
          rw [beq_eq_false_iff_ne]
          intro hxd
          rw [← hxe, hxd] at he
          exact hnd'.1 he
        rw [hxd]
        rfl
    rw [hstep]
    have hperm2 := ih hnd'.2 (l.filter (fun p => !(p.2 == d))) (by
      intro x hx
      rw [List.mem_filter] at hx
      have hin := hcov x hx.1
      rcases List.mem_cons.mp hin with hxd | hds
      · rw [hxd] at hx
        simp at hx
      · exact hds)
    exact ((hperm2.append_left (l.filter (fun p => p.2 == d))).trans
      (List.filter_append_perm _ l))

/-- The bucket sort permutes its input. -/
theorem sortByKeyDesc_perm (l : List (Nat × Nat)) :
    List.Perm (sortByKeyDesc l) l := by
  unfold sortByKeyDesc
  apply buckets_perm
  · exact List.nodup_reverse.mpr (List.nodup_range _)
  · intro x hx
    rw [List.mem_reverse, List.mem_range]
    have : x.2 ≤ (l.map Prod.snd).foldr max 0 :=
      le_foldr_max (List.mem_map.mpr ⟨x, hx, rfl⟩)
    omega

theorem mem_take_enum_len {cl : List (List Nat)} {k : Nat} {p : Nat × Nat}
    (h : p ∈ (cl.enum.map (fun ic => (ic.1, ic.2.length))).take k) :
    p.1 < k ∧ p.1 < cl.length ∧ p.2 = (cl.getD p.1 []).length := by
  rw [← List.map_take] at h
  rw [List.mem_map] at h
  obtain ⟨ic, hic, hp⟩ := h
  obtain ⟨j, hj, hje⟩ := List.mem_iff_getElem.mp hic
  have hjk : j < k ∧ j < cl.length := by
    rw [List.length_take, List.enum_length] at hj
    omega
  have hjen : j < cl.enum.length := by
    rw [List.enum_length]
    exact hjk.2
  have hj2 : j < cl.length := hjk.2
  have hval : ic = (j, cl[j]) := by
    rw [← hje, List.getElem_take, List.getElem_enum]
  rw [hval] at hp
  refine ⟨?_, ?_, ?_⟩
  · rw [← hp]
    exact hjk.1
  · rw [← hp]
    exact hjk.2
  · rw [← hp]
    show (cl[j]).length = (cl.getD j []).length
    rw [List.getD_eq_getElem _ _ hj2]

theorem nodup_fst_take_enum_len (cl : List (List Nat)) (k : Nat) :
    (((cl.enum.map (fun ic => (ic.1, ic.2.length))).take k).map Prod.fst).Nodup := by
  rw [← List.map_take, List.map_map]
  have hcomp : (Prod.fst ∘ fun ic : Nat × List Nat => (ic.1, ic.2.length)) =
      Prod.fst := rfl
  rw [hcomp, List.map_take, List.enum_map_fst, List.take_range]
  exact List.nodup_range _

theorem length_take_enum_len (cl : List (List Nat)) (k : Nat) :
    ((cl.enum.map (fun ic => (ic.1, ic.2.length))).take k).length =
    min k cl.length := by
  rw [List.length_take, List.length_map, List.enum_length]

/-- When at least two classes are in range, the merge targets are two
distinct in-range indexes. -/
theorem smallest_spec {cl : List (List Nat)} {k : Nat} (h2 : 2 ≤ min k cl.length) :
    ∃ s0 s1,
      ((sortByKeyDesc ((cl.enum.map (fun ic => (ic.1, ic.2.length))).take
        k)).reverse.take 2).map Prod.fst = [s0, s1] ∧
      s0 ≠ s1 ∧ s0 < k ∧ s0 < cl.length ∧ s1 < k ∧ s1 < cl.length := by
  have hperm := sortByKeyDesc_perm ((cl.enum.map
    (fun ic => (ic.1, ic.2.length))).take k)
  have hlen : (sortByKeyDesc ((cl.enum.map
      (fun ic => (ic.1, ic.2.length))).take k)).reverse.length =
      min k cl.length := by
    rw [List.length_reverse, hperm.length_eq, length_take_enum_len]
  obtain ⟨a, b, rest, hshape⟩ : ∃ a b rest, (sortByKeyDesc ((cl.enum.map
      (fun ic => (ic.1, ic.2.length))).take k)).reverse = a :: b :: rest := by
    cases hr : (sortByKeyDesc ((cl.enum.map
        (fun ic => (ic.1, ic.2.length))).take k)).reverse with
    | nil =>
      rw [hr] at hlen
      simp at hlen
      omega
    | cons a t =>
      cases t with
      | nil =>
        rw [hr] at hlen
        simp at hlen
        omega
      | cons b rest => exact ⟨a, b, rest, rfl⟩
  have hmema : a ∈ (cl.enum.map (fun ic => (ic.1, ic.2.length))).take k := by
    apply mem_sortByKeyDesc
    rw [← List.mem_reverse, hshape]
    exact List.mem_cons_self _ _
  have hmemb : b ∈ (cl.enum.map (fun ic => (ic.1, ic.2.length))).take k := by
    apply mem_sortByKeyDesc
    rw [← List.mem_reverse, hshape]
    exact List.mem_cons_of_mem _ (List.mem_cons_self _ _)
  obtain ⟨ha1, ha2, -⟩ := mem_take_enum_len hmema
  obtain ⟨hb1, hb2, -⟩ := mem_take_enum_len hmemb
  have hnodup : (((sortByKeyDesc ((cl.enum.map
      (fun ic => (ic.1, ic.2.length))).take k)).reverse).map Prod.fst).Nodup := by
    rw [List.map_reverse]
    rw [List.nodup_reverse]
    exact ((hperm.map Prod.fst).nodup_iff).mpr (nodup_fst_take_enum_len cl k)
  have hne : a.1 ≠ b.1 := by
    rw [hshape] at hnodup
    simp only [List.map_cons, List.nodup_cons, List.mem_cons] at hnodup
    intro heq
    exact hnodup.1 (Or.inl heq)
  refine ⟨a.1, b.1, ?_, hne, ha1, ha2, hb1, hb2⟩
  rw [hshape]
  rfl

theorem countIn_map_snd_filter_split (P : Nat × List Nat → Bool) :
    ∀ (L : List (Nat × List Nat)) (v : Nat),
    countIn ((L.filter P).map Prod.snd) v +
    countIn ((L.filter (fun ic => !(P ic))).map Prod.snd) v =
    countIn (L.map Prod.snd) v := by
  intro L
  induction L with
  | nil => intro v; rfl
  | cons ic L ih =>
    intro v
    rw [List.filter_cons, List.filter_cons, List.map_cons, countIn_cons]
    cases hP : P ic
    · rw [if_neg (show ¬(false = true) by decide),
        if_pos (show (!false) = true by decide)]
      rw [List.map_cons, countIn_cons]
      have := ih v
      omega
    · rw [if_pos (show (true = true) by decide),
        if_neg (show ¬((!true) = true) by decide)]
      rw [List.map_cons, countIn_cons]
      have := ih v
      omega

theorem enumFrom_filter_fst :
    ∀ (l : List (List Nat)) (s i : Nat),
    (List.enumFrom s l).filter (fun ic => ic.1 == i) =
    if s ≤ i ∧ i < s + l.length then [(i, l.getD (i - s) [])] else [] := by
  intro l
  induction l with
  | nil =>
    intro s i
    rw [if_neg (by simp)]
    rfl
  | cons c l ih =>
    intro s i
    rw [show List.enumFrom s (c :: l) = (s, c) :: List.enumFrom (s + 1) l from rfl]
    rw [List.filter_cons]
    by_cases hsi : s = i
    · rw [if_pos (by simp [hsi])]
      rw [ih (s + 1) i, if_neg (by omega), if_pos (by simp; omega)]
      rw [← hsi, Nat.sub_self]
      rfl
    · rw [if_neg (by simp [hsi])]
      rw [ih (s + 1) i]
      by_cases hcond : s ≤ i ∧ i < s + (c :: l).length
      · rw [List.length_cons] at hcond
        rw [if_pos (by omega), if_pos (by rw [List.length_cons]; omega)]
        have hix : i - s = (i - (s + 1)) + 1 := by omega
        rw [hix, List.getD_cons_succ]
      · rw [List.length_cons] at hcond
        rw [if_neg (by omega), if_neg (by rw [List.length_cons]; omega)]

theorem countIn_singleton (c : List Nat) (v : Nat) :
    countIn [c] v = c.count v := by
  rw [countIn_cons]
  show c.count v + 0 = c.count v
  omega

theorem countIn_eq_zero_of_all_nil {cls : List (List Nat)}
    (h : ∀ c ∈ cls, c = []) (v : Nat) : countIn cls v = 0 := by
  by_contra hne
  have hpos : 0 < countIn cls v := Nat.pos_of_ne_zero hne
  obtain ⟨c, hc, hv⟩ := countIn_pos_iff.mp hpos
  rw [h c hc] at hv
  exact List.not_mem_nil _ hv

theorem buildNewClasses_go (s0 s1 : Nat) :
    ∀ (L : List (Nat × List Nat)) (acc : List (List Nat)),
    L.foldlM (fun acc ic =>
      match [s0, s1].get? 0 with
      | none => Except.error "index out of bounds"
      | some s0' =>
        if ic.1 = s0' then pure acc
        else match [s0, s1].get? 1 with
          | none => Except.error "index out of bounds"
          | some s1' =>
            if ic.1 = s1' || ic.2.isEmpty then pure acc
            else pure (acc ++ [ic.2])) acc =
    Except.ok (acc ++ (L.filter (fun ic =>
      !(ic.1 == s0) && (!(ic.1 == s1) && !ic.2.isEmpty))).map Prod.snd) := by
  set f := (fun (acc : List (List Nat)) (ic : Nat × List Nat) =>
    match [s0, s1].get? 0 with
    | none => (Except.error "index out of bounds" : Except String (List (List Nat)))
    | some s0' =>
      if ic.1 = s0' then pure acc
      else match [s0, s1].get? 1 with
        | none => Except.error "index out of bounds"
        | some s1' =>
          if ic.1 = s1' || ic.2.isEmpty then pure acc
          else pure (acc ++ [ic.2])) with hf
  intro L
  induction L with
  | nil =>
    intro acc
    rw [List.foldlM_nil, List.filter_nil, List.map_nil, List.append_nil]
    rfl
  | cons ic L ih =>
    intro acc
    rw [List.foldlM_cons, List.filter_cons]
    by_cases h0 : ic.1 = s0
    · have hstep : f acc ic = pure acc := by
        rw [hf]
        simp only [List.get?_cons_zero]
        rw [if_pos h0]
      rw [hstep]
      rw [beq_iff_eq.mpr h0, Bool.not_true, Bool.false_and]
      rw [if_neg (show ¬(false = true) by decide)]
      show List.foldlM f acc L = _
      exact ih acc
    · by_cases h1 : (decide (ic.1 = s1) || ic.2.isEmpty) = true
      · have hstep : f acc ic = pure acc := by
          rw [hf]
          simp only [List.get?_cons_zero, List.get?_cons_succ]
          rw [if_neg h0, if_pos h1]
        rw [hstep]
        have hcond : (!(ic.1 == s0) && (!(ic.1 == s1) && !ic.2.isEmpty)) = false := by
          rcases (Bool.or_eq_true _ _).mp h1 with h2 | h2
          · rw [beq_iff_eq.mpr (of_decide_eq_true h2), Bool.not_true,
              Bool.false_and, Bool.and_false]
          · rw [h2, Bool.not_true, Bool.and_false, Bool.and_false]
        rw [hcond]
        rw [if_neg (show ¬(false = true) by decide)]
        show List.foldlM f acc L = _
        exact ih acc
      · have hnot := Bool.or_eq_false_iff.mp (Bool.eq_false_iff.mpr h1)
        have hstep : f acc ic = pure (acc ++ [ic.2]) := by
          rw [hf]
          simp only [List.get?_cons_zero, List.get?_cons_succ]
          rw [if_neg h0, if_neg h1]
        rw [hstep]
        have hcond : (!(ic.1 == s0) && (!(ic.1 == s1) && !ic.2.isEmpty)) = true := by
          rw [beq_eq_false_iff_ne.mpr h0,
            beq_eq_false_iff_ne.mpr (of_decide_eq_false hnot.1), hnot.2]
          decide
        rw [hcond]
        rw [if_pos (show (true = true) by decide)]
        show List.foldlM f (acc ++ [ic.2]) L = _
        rw [ih (acc ++ [ic.2])]
        simp

/-- The merge loop of improve_phase when the two smallest indexes exist:
it keeps the non-merged non-empty classes behind the combined class. -/
theorem buildNewClasses_two (s0 s1 : Nat) (cl : List (List Nat))
    (combined : List Nat) :
    buildNewClasses [s0, s1] cl combined =
    Except.ok (combined :: (cl.enum.filter (fun ic =>
      !(ic.1 == s0) && (!(ic.1 == s1) && !ic.2.isEmpty))).map Prod.snd) := by
  unfold buildNewClasses
  rw [buildNewClasses_go s0 s1 cl.enum [combined]]
  rfl

theorem buildNewClasses_short_aux (smallest : List Nat)
    (hs1 : smallest.get? 1 = none) :
    ∀ (L : List (Nat × List Nat)) (acc : List (List Nat)),
    (∃ ic ∈ L, smallest.get? 0 ≠ some ic.1) →
    L.foldlM (fun acc ic =>
      match smallest.get? 0 with
      | none => Except.error "index out of bounds"
      | some s0 =>
        if ic.1 = s0 then pure acc
        else match smallest.get? 1 with
          | none => Except.error "index out of bounds"
          | some s1 =>
            if ic.1 = s1 || ic.2.isEmpty then pure acc
            else pure (acc ++ [ic.2])) acc =
    Except.error "index out of bounds" := by
  set f := (fun (acc : List (List Nat)) (ic : Nat × List Nat) =>
    match smallest.get? 0 with
    | none => (Except.error "index out of bounds" : Except String (List (List Nat)))
    | some s0 =>
      if ic.1 = s0 then pure acc
      else match smallest.get? 1 with
        | none => Except.error "index out of bounds"
        | some s1 =>
          if ic.1 = s1 || ic.2.isEmpty then pure acc
          else pure (acc ++ [ic.2])) with hf
  intro L
  induction L with
  | nil =>
    intro acc hex
    obtain ⟨ic, hic, -⟩ := hex
    exact absurd hic (List.not_mem_nil _)
  | cons ic L ih =>
    intro acc hex
    rw [List.foldlM_cons]
    cases hg0 : smallest.get? 0 with
    | none =>
      have hstep : f acc ic = Except.error "index out of bounds" := by
        rw [hf]
        simp only [hg0]
      rw [hstep]
      rfl
    | some s0 =>
      by_cases h0 : ic.1 = s0
      · have hstep : f acc ic = pure acc := by
          rw [hf]
          simp only [hg0]
          rw [if_pos h0]
        rw [hstep]
        show List.foldlM f acc L = _
        apply ih
        obtain ⟨ic', hic', hne⟩ := hex
        rcases List.mem_cons.mp hic' with hh | hh
        · exfalso
          rw [hh, hg0, h0] at hne
          exact hne rfl
        · exact ⟨ic', hh, hne⟩
      · have hstep : f acc ic = Except.error "index out of bounds" := by
          rw [hf]
          simp only [hg0, hs1]
          rw [if_neg h0]
        rw [hstep]
        rfl

theorem exists_mem_enum {cl : List (List Nat)} {j : Nat} (hj : j < cl.length) :
    ∃ c, (j, c) ∈ cl.enum := by
  refine ⟨cl[j], ?_⟩
  apply List.mem_iff_getElem.mpr
  refine ⟨j, by rw [List.enum_length]; exact hj, ?_⟩
  exact List.getElem_enum cl j _

/-- When fewer than two merge targets exist and some class index differs
from the single target, the merge loop hits smallest_lengths[1] and
panics. -/
theorem buildNewClasses_short {smallest : List Nat} {cl : List (List Nat)}
    {combined : List Nat} (hs1 : smallest.get? 1 = none)
    (hex : ∃ ic ∈ cl.enum, smallest.get? 0 ≠ some ic.1) :
    buildNewClasses smallest cl combined = .error "index out of bounds" := by
  unfold buildNewClasses
  exact buildNewClasses_short_aux smallest hs1 cl.enum [combined] hex

theorem countIn_append (l₁ l₂ : List (List Nat)) (v : Nat) :
    countIn (l₁ ++ l₂) v = countIn l₁ v + countIn l₂ v := by
  unfold countIn
  rw [List.map_append, List.sum_append]

theorem enum_filter_fst_single {cl : List (List Nat)} {i : Nat}
    (hi : i < cl.length) :
    cl.enum.filter (fun ic => ic.1 == i) = [(i, cl.getD i [])] := by
  have h := enumFrom_filter_fst cl 0 i
  rw [if_pos (by omega)] at h
  rw [Nat.sub_zero] at h
  exact h

theorem filter_ne_fst_then_eq {cl : List (List Nat)} {s0 s1 : Nat}
    (hne : s0 ≠ s1) (hs1 : s1 < cl.length) :
    (cl.enum.filter (fun ic => !(ic.1 == s0))).filter (fun ic => ic.1 == s1) =
    [(s1, cl.getD s1 [])] := by
  rw [List.filter_filter]
  have hcongr : ∀ x ∈ cl.enum,
      ((x.1 == s1) && !(x.1 == s0)) = (x.1 == s1) := by
    intro x hx
    cases hb : x.1 == s1 with
    | false => rw [Bool.false_and]
    | true =>
      have hx1 : x.1 = s1 := beq_iff_eq.mp hb
      rw [beq_eq_false_iff_ne.mpr (by rw [hx1]; exact fun h => hne h.symm)]
      rfl
  rw [List.filter_congr hcongr]
  exact enum_filter_fst_single hs1

theorem kept_eq_triple_filter (cl : List (List Nat)) (s0 s1 : Nat) :
    cl.enum.filter (fun ic =>
      !(ic.1 == s0) && (!(ic.1 == s1) && !ic.2.isEmpty)) =
    ((cl.enum.filter (fun ic => !(ic.1 == s0))).filter
      (fun ic => !(ic.1 == s1))).filter (fun ic => !ic.2.isEmpty) := by
  rw [List.filter_filter, List.filter_filter]
  apply List.filter_congr
  intro x hx
  cases x.1 == s0 <;> cases x.1 == s1 <;> cases x.2.isEmpty <;> rfl

/-- The merge of improve_phase preserves every vertex's occurrence count:
the two merged classes reappear in the combined head and the dropped
classes are all empty. -/
theorem merge_countIn {cl : List (List Nat)} {s0 s1 : Nat} (hne : s0 ≠ s1)
    (hs0 : s0 < cl.length) (hs1 : s1 < cl.length) (v : Nat) :
    countIn (((cl.getD s0 []) ++ cl.getD s1 []) ::
      (cl.enum.filter (fun ic =>
        !(ic.1 == s0) && (!(ic.1 == s1) && !ic.2.isEmpty))).map Prod.snd) v =
    countIn cl v := by
  rw [countIn_cons, List.count_append]
  have h1 := countIn_map_snd_filter_split (fun ic => ic.1 == s0) cl.enum v
  rw [List.enum_map_snd] at h1
  rw [enum_filter_fst_single hs0] at h1
  rw [show ([(s0, cl.getD s0 [])].map Prod.snd) = [cl.getD s0 []] from rfl] at h1
  rw [countIn_singleton] at h1
  have h2 := countIn_map_snd_filter_split (fun ic => ic.1 == s1)
    (cl.enum.filter (fun ic => !(ic.1 == s0))) v
  rw [filter_ne_fst_then_eq hne hs1] at h2
  rw [show ([(s1, cl.getD s1 [])].map Prod.snd) = [cl.getD s1 []] from rfl] at h2
  rw [countIn_singleton] at h2
  have h3 := countIn_map_snd_filter_split (fun ic => ic.2.isEmpty)
    ((cl.enum.filter (fun ic => !(ic.1 == s0))).filter
      (fun ic => !(ic.1 == s1))) v
  have hz : countIn ((((cl.enum.filter (fun ic => !(ic.1 == s0))).filter
      (fun ic => !(ic.1 == s1))).filter
        (fun ic => ic.2.isEmpty)).map Prod.snd) v = 0 := by
    apply countIn_eq_zero_of_all_nil
    intro c hc
    rw [List.mem_map] at hc
    obtain ⟨ic, hic, hsnd⟩ := hc
    have hie : ic.2.isEmpty = true := (List.mem_filter.mp hic).2
    rw [← hsnd]
    exact List.isEmpty_iff.mp hie
  rw [hz] at h3
  rw [kept_eq_triple_filter]
  omega

/-- The merge drops at least the two merged classes. -/
theorem merge_length {cl : List (List Nat)} {s0 s1 : Nat} (hne : s0 ≠ s1)
    (hs0 : s0 < cl.length) (hs1 : s1 < cl.length) :
    ((cl.enum.filter (fun ic =>
      !(ic.1 == s0) && (!(ic.1 == s1) && !ic.2.isEmpty))).map Prod.snd).length
      + 2 ≤ cl.length := by
  rw [List.length_map, kept_eq_triple_filter]
  have hL1 : cl.enum.length =
      (cl.enum.filter (fun ic => ic.1 == s0)).length +
      (cl.enum.filter (fun ic => !(ic.1 == s0))).length :=
    List.length_eq_length_filter_add _
  rw [enum_filter_fst_single hs0] at hL1
  have hL2 : (cl.enum.filter (fun ic => !(ic.1 == s0))).length =
      ((cl.enum.filter (fun ic => !(ic.1 == s0))).filter
        (fun ic => ic.1 == s1)).length +
      ((cl.enum.filter (fun ic => !(ic.1 == s0))).filter
        (fun ic => !(ic.1 == s1))).length :=
    List.length_eq_length_filter_add _
  rw [filter_ne_fst_then_eq hne hs1] at hL2
  have hL3 := List.length_filter_le (fun ic : Nat × List Nat => !ic.2.isEmpty)
    ((cl.enum.filter (fun ic => !(ic.1 == s0))).filter
      (fun ic => !(ic.1 == s1)))
  rw [List.enum_length] at hL1
  simp only [List.length_cons, List.length_nil] at hL1 hL2
  omega

theorem merge_ne_nil {cl : List (List Nat)} {s0 s1 : Nat}
    (hs0ne : cl.getD s0 [] ≠ []) :
    ∀ c ∈ ((cl.getD s0 []) ++ cl.getD s1 []) ::
      (cl.enum.filter (fun ic =>
        !(ic.1 == s0) && (!(ic.1 == s1) && !ic.2.isEmpty))).map Prod.snd,
      c ≠ [] := by
  intro c hc
  rcases List.mem_cons.mp hc with rfl | hc
  · exact List.append_ne_nil_of_left_ne_nil hs0ne _
  · rw [List.mem_map] at hc
    obtain ⟨ic, hic, hsnd⟩ := hc
    have hcond := (List.mem_filter.mp hic).2
    rw [Bool.and_eq_true, Bool.and_eq_true] at hcond
    have hie : ic.2.isEmpty = false := by
      cases hi : ic.2.isEmpty
      · rfl
      · rw [hi] at hcond
        rcases hcond with ⟨-, -, hfalse⟩
        simp at hfalse
    rw [← hsnd]
    intro hnil
    rw [hnil] at hie
    simp at hie

theorem getD_ne_nil_of_forall {l : List (List Nat)} (h : ∀ c ∈ l, c ≠ [])
    {j : Nat} (hj : j < l.length) : l.getD j [] ≠ [] := by
  rw [List.getD_eq_getElem _ _ hj]
  exact h _ (List.getElem_mem hj)

theorem getD_nil_of_ge {l : List (List Nat)} {j : Nat} (hj : l.length ≤ j) :
    l.getD j [] = [] :=
  List.getD_eq_default _ _ hj

/-- A list whose non-empty classes form exactly the prefix of length k has
k non-empty classes. -/
theorem countNonempty_eq_of_shape :
    ∀ (l : List (List Nat)) (k : Nat),
    (∀ j, j < k → l.getD j [] ≠ []) → (∀ j, k ≤ j → l.getD j [] = []) →
    countNonempty l = k := by
  intro l
  induction l with
  | nil =>
    intro k h1 h2
    cases k with
    | zero => rfl
    | succ k => exact absurd rfl (h1 0 (Nat.succ_pos k))
  | cons c l ih =>
    intro k h1 h2
    cases k with
    | zero =>
      have hc : c = [] := by
        have := h2 0 (Nat.zero_le _)
        rwa [List.getD_cons_zero] at this
      unfold countNonempty
      rw [List.filter_cons]
      rw [if_neg (by rw [hc]; decide)]
      have hrec : countNonempty l = 0 := by
        apply ih
        · intro j hj
          omega
        · intro j _
          have := h2 (j + 1) (Nat.zero_le _)
          rwa [List.getD_cons_succ] at this
      exact hrec
    | succ k =>
      have hc : c ≠ [] := by
        have := h1 0 (Nat.succ_pos k)
        rwa [List.getD_cons_zero] at this
      unfold countNonempty
      rw [List.filter_cons]
      rw [if_pos (by rw [List.isEmpty_eq_false.mpr hc]; decide)]
      rw [List.length_cons]
      have hrec : countNonempty l = k := by
        apply ih
        · intro j hj
          have := h1 (j + 1) (by omega)
          rwa [List.getD_cons_succ] at this
        · intro j hj
          have := h2 (j + 1) (by omega)
          rwa [List.getD_cons_succ] at this
      unfold countNonempty at hrec
      omega

theorem countNonempty_le_length (l : List (List Nat)) :
    countNonempty l ≤ l.length :=
  List.length_filter_le _ _

theorem countNonempty_append (l₁ l₂ : List (List Nat)) :
    countNonempty (l₁ ++ l₂) = countNonempty l₁ + countNonempty l₂ := by
  unfold countNonempty
  rw [List.filter_append, List.length_append]

theorem countNonempty_replicate_nil (m : Nat) :
    countNonempty (List.replicate m []) = 0 := by
  unfold countNonempty
  rw [List.filter_eq_nil_iff.mpr (by
    intro a ha
    rw [List.eq_of_mem_replicate ha]
    decide)]
  rfl

theorem resizeTo_length (n : Nat) (cl : List (List Nat)) :
    (resizeTo n cl).length = n := by
  unfold resizeTo
  rw [List.length_append, List.length_take, List.length_replicate]
  omega

theorem resizeTo_eq_append {n : Nat} {cl : List (List Nat)}
    (h : cl.length ≤ n) :
    resizeTo n cl = cl ++ List.replicate (n - cl.length) [] := by
  unfold resizeTo
  rw [List.take_of_length_le h]

theorem resizeTo_zero (cl : List (List Nat)) : resizeTo 0 cl = [] := by
  unfold resizeTo
  rw [List.take_zero, Nat.zero_sub, List.replicate_zero]
  rfl

theorem sortByKeyDesc_singleton (x : Nat × Nat) : sortByKeyDesc [x] = [x] :=
  List.Perm.eq_singleton (sortByKeyDesc_perm [x])

theorem smallest_nil (k : Nat) :
    ((sortByKeyDesc ((([] : List (List Nat)).enum.map
      (fun ic => (ic.1, ic.2.length))).take k)).reverse.take 2).map Prod.fst =
    [] := by
  rw [show (([] : List (List Nat)).enum.map (fun ic => (ic.1, ic.2.length))) =
    [] from rfl, List.take_nil]
  rfl

theorem smallest_take_single {cl : List (List Nat)} {k : Nat}
    (h : (cl.enum.map (fun ic => (ic.1, ic.2.length))).take k =
      [(0, (cl.getD 0 []).length)]) :
    ((sortByKeyDesc ((cl.enum.map
      (fun ic => (ic.1, ic.2.length))).take k)).reverse.take 2).map Prod.fst =
    [0] := by
  rw [h, sortByKeyDesc_singleton]
  rfl

theorem smallest_singleton (c : List Nat) {k : Nat} (hk : 1 ≤ k) :
    ((sortByKeyDesc (([c].enum.map
      (fun ic => (ic.1, ic.2.length))).take k)).reverse.take 2).map Prod.fst =
    [0] := by
  apply smallest_take_single
  rw [List.take_of_length_le (by rw [List.length_map, List.enum_length]; simpa)]
  rfl

theorem smallest_k1 (cl : List (List Nat)) (hne : cl ≠ []) :
    ((sortByKeyDesc ((cl.enum.map
      (fun ic => (ic.1, ic.2.length))).take 1)).reverse.take 2).map Prod.fst =
    [0] := by
  apply smallest_take_single
  cases cl with
  | nil => exact absurd rfl hne
  | cons c rest => rfl

/-- Invariant of the improve-phase while loop: the returned state carries a
partitioned proper class list no longer than the original frame, and when
the incoming state has the non-empty classes exactly in its numClasses
prefix, so does the returned one. -/
theorem improveLoop_ok {g : Graph} (hw : g.wf) :
    ∀ fuel numClasses cl r res,
    Partitioned g cl → ProperCl g cl → cl.length ≤ max g.n 1 →
    improveLoop g fuel numClasses cl r = .ok res →
    Partitioned g res.1.2 ∧ ProperCl g res.1.2 ∧
      res.1.2.length ≤ max g.n 1 ∧
      ((1 ≤ numClasses ∧ (∀ j, j < numClasses → cl.getD j [] ≠ []) ∧
        (∀ j, numClasses ≤ j → cl.getD j [] = [])) →
       (1 ≤ res.1.1 ∧ (∀ j, j < res.1.1 → res.1.2.getD j [] ≠ []) ∧
        (∀ j, res.1.1 ≤ j → res.1.2.getD j [] = []))) := by
  intro fuel
  induction fuel with
  | zero =>
    intro numClasses cl r res hpart hprop hlen heq
    simp [improveLoop] at heq
  | succ fuel ih =>
    intro numClasses cl r res hpart hprop hlen heq
    rw [improveLoop] at heq
    have heq2 : (buildNewClasses
        (((sortByKeyDesc ((cl.enum.map (fun ic => (ic.1, ic.2.length))).take
          numClasses)).reverse.take 2).map Prod.fst) cl
        ((((sortByKeyDesc ((cl.enum.map (fun ic => (ic.1, ic.2.length))).take
          numClasses)).reverse.take 2).map Prod.fst).foldl
            (fun acc idx => acc ++ cl.getD idx []) []) >>= fun newClasses =>
        localSearch g newClasses r >>= fun p =>
        match p with
        | ((numForbidden, newClasses'), r') =>
          if numForbidden = 0 then
            improveLoop g fuel newClasses'.length newClasses' r'
          else Except.ok ((numClasses, cl), r')) = .ok res := heq
    have hcont : ∀ (NC : List (List Nat)),
        Partitioned g NC → NC ≠ [] → NC.length ≤ max g.n 1 →
        ((1 ≤ numClasses ∧ (∀ j, j < numClasses → cl.getD j [] ≠ []) ∧
          (∀ j, numClasses ≤ j → cl.getD j [] = [])) → ∀ c ∈ NC, c ≠ []) →
        (localSearch g NC r >>= fun p =>
          match p with
          | ((numForbidden, newClasses'), r') =>
            if numForbidden = 0 then
              improveLoop g fuel newClasses'.length newClasses' r'
            else Except.ok ((numClasses, cl), r')) = .ok res →
        Partitioned g res.1.2 ∧ ProperCl g res.1.2 ∧
          res.1.2.length ≤ max g.n 1 ∧
          ((1 ≤ numClasses ∧ (∀ j, j < numClasses → cl.getD j [] ≠ []) ∧
            (∀ j, numClasses ≤ j → cl.getD j [] = [])) →
           (1 ≤ res.1.1 ∧ (∀ j, j < res.1.1 → res.1.2.getD j [] ≠ []) ∧
            (∀ j, res.1.1 ≤ j → res.1.2.getD j [] = []))) := by
      intro NC hNCpart hNCne hNClen hally heqc
      cases hls : localSearch g NC r with
      | error e =>
        rw [hls] at heqc
        have hfalse : (Except.error e :
            Except String ((Nat × List (List Nat)) × RS)) = .ok res := heqc
        exact absurd hfalse (by simp)
      | ok p =>
        obtain ⟨⟨nf, nc⟩, r'⟩ := p
        rw [hls] at heqc
        have heqc2 : (if nf = 0 then
            improveLoop g fuel nc.length nc r'
          else Except.ok ((numClasses, cl), r')) = .ok res := heqc
        have hspec := localSearch_ok_spec hw hNCpart hls
        by_cases hnf : nf = 0
        · rw [if_pos hnf] at heqc2
          have hproper_nc : ProperCl g nc := by
            apply proper_of_getForbidden_zero hw hspec.1
            rw [← hspec.2.1]
            exact hnf
          have hih := ih nc.length nc r' res hspec.1 hproper_nc
            (by rw [hspec.2.2.1]; exact hNClen) heqc2
          refine ⟨hih.1, hih.2.1, hih.2.2.1, ?_⟩
          intro hShape
          apply hih.2.2.2
          refine ⟨?_, ?_, ?_⟩
          · rw [hspec.2.2.1]
            have := List.length_pos.mpr hNCne
            omega
          · intro j hj
            exact getD_ne_nil_of_forall (hspec.2.2.2 (hally hShape)) hj
          · intro j hj
            exact getD_nil_of_ge hj
        · rw [if_neg hnf] at heqc2
          injection heqc2 with h2
          subst h2
          exact ⟨hpart, hprop, hlen, fun hS => hS⟩
    rcases cl with - | ⟨c, - | ⟨c2, rest⟩⟩
    · -- empty class list: the merge produces the single empty class
      rw [smallest_nil numClasses] at heq2
      have heq3 : (localSearch g [[]] r >>= fun p =>
          match p with
          | ((numForbidden, newClasses'), r') =>
            if numForbidden = 0 then
              improveLoop g fuel newClasses'.length newClasses' r'
            else Except.ok ((numClasses, []), r')) = .ok res := heq2
      have hn0 : g.n = 0 := by
        by_contra h
        have h1 := hpart.1 0 (Nat.pos_of_ne_zero h)
        rw [show countIn [] 0 = 0 from rfl] at h1
        omega
      apply hcont [[]] ?_ (by simp) ?_ ?_ heq3
      · constructor
        · intro v hv
          rw [hn0] at hv
          omega
        · intro v hv
          rw [show countIn [[]] v = 0 from rfl] at hv
          omega
      · rw [show ([[]] : List (List Nat)).length = 1 from rfl]
        exact Nat.le_max_right _ _
      · intro hShape
        exfalso
        exact hShape.2.1 0 hShape.1 rfl
    · -- one class: the merge rebuilds the same singleton list
      cases numClasses with
      | zero =>
        have hfalse : (Except.error "index out of bounds" :
            Except String ((Nat × List (List Nat)) × RS)) = .ok res := heq2
        exact absurd hfalse (by simp)
      | succ k =>
        rw [smallest_singleton c (Nat.succ_le_succ (Nat.zero_le k))] at heq2
        have heq3 : (localSearch g [c] r >>= fun p =>
            match p with
            | ((numForbidden, newClasses'), r') =>
              if numForbidden = 0 then
                improveLoop g fuel newClasses'.length newClasses' r'
              else Except.ok ((k + 1, [c]), r')) = .ok res := heq2
        apply hcont [c] hpart (by simp) ?_ ?_ heq3
        · rw [show ([c] : List (List Nat)).length = 1 from rfl]
          exact Nat.le_max_right _ _
        · intro hShape c' hc'
          rcases List.mem_cons.mp hc' with rfl | hc'
          · have := hShape.2.1 0 (by omega)
            rwa [List.getD_cons_zero] at this
          · exact absurd hc' (List.not_mem_nil _)
    · -- at least two classes
      by_cases hk : 2 ≤ numClasses
      · have h2 : 2 ≤ min numClasses (c :: c2 :: rest).length := by
          rw [List.length_cons, List.length_cons]
          omega
        obtain ⟨s0, s1, hS, hne, hs0k, hs0l, hs1k, hs1l⟩ := smallest_spec h2
        rw [hS] at heq2
        rw [buildNewClasses_two] at heq2
        have heq3 : (localSearch g
            (((c :: c2 :: rest).getD s0 [] ++ (c :: c2 :: rest).getD s1 []) ::
              ((c :: c2 :: rest).enum.filter (fun ic =>
                !(ic.1 == s0) && (!(ic.1 == s1) && !ic.2.isEmpty))).map
                  Prod.snd) r >>= fun p =>
            match p with
            | ((numForbidden, newClasses'), r') =>
              if numForbidden = 0 then
                improveLoop g fuel newClasses'.length newClasses' r'
              else Except.ok ((numClasses, c :: c2 :: rest), r')) =
            .ok res := heq2
        apply hcont _ ?_ (by simp) ?_ ?_ heq3
        · constructor
          · intro v hv
            rw [merge_countIn hne hs0l hs1l v]
            exact hpart.1 v hv
          · intro v hv
            rw [merge_countIn hne hs0l hs1l v] at hv
            exact hpart.2 v hv
        · have hml := merge_length hne hs0l hs1l
          rw [List.length_cons]
          omega
        · intro hShape
          apply merge_ne_nil
          exact hShape.2.1 s0 hs0k
      · rcases (by omega : numClasses = 0 ∨ numClasses = 1) with h0 | h1
        · rw [h0] at heq2
          have hfalse : (Except.error "index out of bounds" :
              Except String ((Nat × List (List Nat)) × RS)) = .ok res := heq2
          exact absurd hfalse (by simp)
        · rw [h1] at heq2
          rw [smallest_k1 (c :: c2 :: rest) (by simp)] at heq2
          have hfalse : (Except.error "index out of bounds" :
              Except String ((Nat × List (List Nat)) × RS)) = .ok res := heq2
          exact absurd hfalse (by simp)
theorem countIn_resizeTo {n : Nat} {cl : List (List Nat)} (h : cl.length ≤ n)
    (v : Nat) : countIn (resizeTo n cl) v = countIn cl v := by
  rw [resizeTo_eq_append h, countIn_append,
    countIn_eq_zero_of_all_nil (fun c hc => List.eq_of_mem_replicate hc) v]
  omega

theorem properCl_resizeTo {g : Graph} {n : Nat} {cl : List (List Nat)}
    (h : cl.length ≤ n) (hp : ProperCl g cl) : ProperCl g (resizeTo n cl) := by
  rw [resizeTo_eq_append h]
  intro c hc
  rcases List.mem_append.mp hc with hc | hc
  · exact hp c hc
  · rw [List.eq_of_mem_replicate hc]
    intro u hu
    exact absurd hu (List.not_mem_nil _)

theorem countNonempty_resizeTo {n : Nat} {cl : List (List Nat)}
    (h : cl.length ≤ n) : countNonempty (resizeTo n cl) = countNonempty cl := by
  rw [resizeTo_eq_append h, countNonempty_append, countNonempty_replicate_nil]
  omega

/-- improve_phase: the resized result is a partitioned proper class list of
length exactly n, and under the prefix-shape invariant the returned count
is its number of non-empty classes. -/
theorem improvePhase_ok {g : Graph} (hw : g.wf) {numClasses : Nat}
    {cl : List (List Nat)} {r : RS} {res : (Nat × List (List Nat)) × RS}
    (hpart : Partitioned g cl) (hprop : ProperCl g cl)
    (hlen : cl.length ≤ max g.n 1)
    (heq : improvePhase g numClasses cl r = .ok res) :
    Partitioned g res.1.2 ∧ ProperCl g res.1.2 ∧ res.1.2.length = g.n ∧
    ((1 ≤ numClasses ∧ (∀ j, j < numClasses → cl.getD j [] ≠ []) ∧
      (∀ j, numClasses ≤ j → cl.getD j [] = [])) →
     (res.1.1 = countNonempty res.1.2 ∧ 1 ≤ res.1.1 ∧ res.1.1 ≤ g.n ∧
      res.1.2 ≠ [])) := by
  unfold improvePhase at heq
  cases hil : improveLoop g (numClasses + 1) numClasses cl r with
  | error e =>
    rw [hil] at heq
    exact absurd (show (Except.error e :
      Except String ((Nat × List (List Nat)) × RS)) = .ok res from heq) (by simp)
  | ok p =>
    obtain ⟨⟨nc1, cl1⟩, r1⟩ := p
    rw [hil] at heq
    have heq2 : (Except.ok ((nc1, resizeTo g.n cl1), r1) :
        Except String ((Nat × List (List Nat)) × RS)) = .ok res := heq
    injection heq2 with h2
    subst h2
    have hio := improveLoop_ok hw (numClasses + 1) numClasses cl r
      ((nc1, cl1), r1) hpart hprop hlen hil
    obtain ⟨hp1, hp2, hp3, hp4⟩ := hio
    by_cases hn : g.n = 0
    · refine ⟨?_, ?_, ?_, ?_⟩
      · show Partitioned g (resizeTo g.n cl1)
        rw [hn, resizeTo_zero]
        refine ⟨fun v hv => by omega, fun v hv => ?_⟩
        rw [show countIn [] v = 0 from rfl] at hv
        omega
      · show ProperCl g (resizeTo g.n cl1)
        rw [hn, resizeTo_zero]
        intro c hc
        exact absurd hc (List.not_mem_nil _)
      · show (resizeTo g.n cl1).length = g.n
        rw [resizeTo_length]
      · intro hShape
        exfalso
        have hne0 := hShape.2.1 0 hShape.1
        obtain ⟨v, hv⟩ := List.exists_mem_of_ne_nil _ hne0
        have hlen0 : 0 < cl.length := by
          by_contra hc
          rw [getD_nil_of_ge (by omega)] at hne0
          exact hne0 rfl
        have hmem : cl.getD 0 [] ∈ cl := by
          rw [List.getD_eq_getElem _ _ hlen0]
          exact List.getElem_mem hlen0
        have hpos : 0 < countIn cl v := countIn_pos_iff.mpr ⟨_, hmem, hv⟩
        have := hpart.2 v hpos
        omega
    · have hn1 : 1 ≤ g.n := Nat.pos_of_ne_zero hn
      have hlen1 : cl1.length ≤ g.n := by
        have h3 : cl1.length ≤ max g.n 1 := hp3
        rw [Nat.max_eq_left hn1] at h3
        exact h3
      refine ⟨?_, ?_, ?_, ?_⟩
      · constructor
        · intro v hv
          show countIn (resizeTo g.n cl1) v = 1
          rw [countIn_resizeTo hlen1]
          exact hp1.1 v hv
        · intro v hv
          have hv2 : 0 < countIn (resizeTo g.n cl1) v := hv
          rw [countIn_resizeTo hlen1] at hv2
          exact hp1.2 v hv2
      · exact properCl_resizeTo hlen1 hp2
      · exact resizeTo_length _ _
      · intro hShape
        have hsh := hp4 hShape
        have heqc := countNonempty_eq_of_shape cl1 nc1 hsh.2.1 hsh.2.2
        refine ⟨?_, hsh.1, ?_, ?_⟩
        · show nc1 = countNonempty (resizeTo g.n cl1)
          rw [countNonempty_resizeTo hlen1]
          exact heqc.symm
        · show nc1 ≤ g.n
          have := countNonempty_le_length cl1
          omega
        · show resizeTo g.n cl1 ≠ []
          have hlr : (resizeTo g.n cl1).length = g.n := resizeTo_length _ _
          intro hnil
          rw [hnil] at hlr
          rw [show ([] : List (List Nat)).length = 0 from rfl] at hlr
          omega

theorem count_range (n v : Nat) :
    (List.range n).count v = if v < n then 1 else 0 := by
  by_cases hv : v < n
  · rw [if_pos hv]
    exact List.count_eq_one_of_mem (List.nodup_range n) (List.mem_range.mpr hv)
  · rw [if_neg hv]
    exact List.count_eq_zero.mpr (fun hm => hv (List.mem_range.mp hm))

theorem getD_replicate_nil (n j : Nat) :
    (List.replicate n ([] : List Nat)).getD j [] = [] := by
  by_cases hj : j < n
  · rw [List.getD_eq_getElem _ _ (by rw [List.length_replicate]; exact hj)]
    exact List.getElem_replicate _ _
  · exact getD_nil_of_ge (by rw [List.length_replicate]; omega)

/-- Invariant of the trials loop of grasp: the running best stays within n
colors; it is the initial empty list with count n unless some trial
strictly improved it, in which case it is a partitioned proper coloring
whose count matches its non-empty classes (the latter whenever usize
arithmetic cannot saturate and at least one coloring trial runs per
round). -/
theorem graspTrials_ok {g : Graph} (hw : g.wf) {ci : Int} {sz : Nat} :
    ∀ k numColors best r res,
    numColors ≤ g.n →
    (best = [] → numColors = g.n) →
    (best ≠ [] → Partitioned g best ∧ ProperCl g best ∧ best.length = g.n ∧
      (g.n * g.n < USIZE_MAX → 1 ≤ ci.toNat →
        numColors = countNonempty best)) →
    graspTrials g ci sz k numColors best r = .ok res →
    res.1.1 ≤ g.n ∧
    (res.1.2 = [] → res.1.1 = g.n) ∧
    (res.1.2 ≠ [] → Partitioned g res.1.2 ∧ ProperCl g res.1.2 ∧
      res.1.2.length = g.n ∧
      (g.n * g.n < USIZE_MAX → 1 ≤ ci.toNat →
        res.1.1 = countNonempty res.1.2)) := by
  intro k
  induction k with
  | zero =>
    intro numColors best r res hbound hemp hne heq
    rw [graspTrials] at heq
    injection heq with h1
    subst h1
    exact ⟨hbound, hemp, hne⟩
  | succ k ih =>
    intro numColors best r res hbound hemp hne heq
    rw [graspTrials] at heq
    have heq2 : (graspWhile g ci sz (g.n + 1) 0 (List.range g.n)
        (List.replicate g.n []) r >>= fun q =>
        match q with
        | ((numCC, classList), r') =>
          improvePhase g numCC classList r' >>= fun q2 =>
          match q2 with
          | ((numCC', classList'), r'') =>
            if numCC' < numColors then graspTrials g ci sz k numCC' classList' r''
            else graspTrials g ci sz k numColors best r'') = .ok res := heq
    cases hgw : graspWhile g ci sz (g.n + 1) 0 (List.range g.n)
        (List.replicate g.n []) r with
    | error e =>
      rw [hgw] at heq2
      exact absurd (show (Except.error e :
        Except String ((Nat × List (List Nat)) × RS)) = .ok res from heq2)
        (by simp)
    | ok q =>
      obtain ⟨⟨numCC, cl0⟩, r'⟩ := q
      rw [hgw] at heq2
      have heq3 : (improvePhase g numCC cl0 r' >>= fun q2 =>
          match q2 with
          | ((numCC', classList'), r'') =>
            if numCC' < numColors then graspTrials g ci sz k numCC' classList' r''
            else graspTrials g ci sz k numColors best r'') = .ok res := heq2
      have hgwo := graspWhile_ok hw (g.n + 1) 0 (List.range g.n)
        (List.replicate g.n []) r ((numCC, cl0), r')
        (fun x hx => List.mem_range.mp hx) (List.nodup_range g.n)
        (List.length_replicate _ _)
        (fun v => by
          rw [countIn_eq_zero_of_all_nil
            (fun c hc => List.eq_of_mem_replicate hc) v, count_range]
          omega)
        (by
          intro c hc u hu w hwc
          exfalso
          rw [List.eq_of_mem_replicate hc] at hu
          exact List.not_mem_nil u hu)
        (fun j _ => getD_replicate_nil _ _)
        (fun j hj => by omega)
        (Nat.zero_le _) hgw
      obtain ⟨h1, h2, h3, h4, h5, h6, h7⟩ := hgwo
      have h1' : ∀ v, v < g.n → countIn cl0 v = 1 := h1
      have h5' : ∀ j, numCC ≤ j → cl0.getD j [] = [] := h5
      have h6' : g.n * g.n < USIZE_MAX → 1 ≤ ci.toNat →
        ∀ j, j < numCC → cl0.getD j [] ≠ [] := h6
      have hpart0 : Partitioned g cl0 := ⟨h1, h2⟩
      have hlen0 : cl0.length ≤ max g.n 1 := by
        have h3' : cl0.length = g.n := h3
        rw [h3']
        exact Nat.le_max_left _ _
      cases hip : improvePhase g numCC cl0 r' with
      | error e =>
        rw [hip] at heq3
        exact absurd (show (Except.error e :
          Except String ((Nat × List (List Nat)) × RS)) = .ok res from heq3)
          (by simp)
      | ok q2 =>
        obtain ⟨⟨nc', cl'⟩, r''⟩ := q2
        rw [hip] at heq3
        have heq4 : (if nc' < numColors then graspTrials g ci sz k nc' cl' r''
            else graspTrials g ci sz k numColors best r'') = .ok res := heq3
        have hipo := improvePhase_ok hw hpart0 h4 hlen0 hip
        by_cases hlt : nc' < numColors
        · rw [if_pos hlt] at heq4
          apply ih nc' cl' r'' res (by omega) ?_ ?_ heq4
          · intro hnil
            exfalso
            have hl : cl'.length = g.n := hipo.2.2.1
            rw [hnil] at hl
            rw [show ([] : List (List Nat)).length = 0 from rfl] at hl
            omega
          · intro hne'
            refine ⟨hipo.1, hipo.2.1, hipo.2.2.1, ?_⟩
            intro hb hci
            have hn1 : 1 ≤ g.n := by
              have hl : cl'.length = g.n := hipo.2.2.1
              have := List.length_pos.mpr hne'
              omega
            have hcc1 : 1 ≤ numCC := by
              by_contra hcc0
              have hall : ∀ v, countIn cl0 v = 0 := by
                intro v
                by_contra hc
                obtain ⟨c, hcm, hvm⟩ :=
                  countIn_pos_iff.mp (Nat.pos_of_ne_zero hc)
                obtain ⟨j, hj, hje⟩ := List.mem_iff_getElem.mp hcm
                have : cl0.getD j [] = [] := h5' j (by omega)
                rw [List.getD_eq_getElem _ _ hj, hje] at this
                rw [this] at hvm
                exact List.not_mem_nil _ hvm
              have := h1' 0 hn1
              rw [hall 0] at this
              omega
            have hShape := hipo.2.2.2 ⟨hcc1, h6' hb hci, h5'⟩
            exact hShape.1
        · rw [if_neg hlt] at heq4
          exact ih numColors best r'' res hbound hemp hne heq4

/-- What any successful grasp run guarantees about its returned pair. -/
theorem grasp_ok_spec {g : Graph} (hw : g.wf) {gi ci : Int} {sz : Nat}
    {r : RS} {k : Nat} {cl : List (List Nat)}
    (heq : grasp g gi ci sz r = .ok (k, cl)) :
    k ≤ g.n ∧ (cl = [] → k = g.n) ∧
    (cl ≠ [] → Partitioned g cl ∧ ProperCl g cl ∧ cl.length = g.n ∧
      (g.n * g.n < USIZE_MAX → 1 ≤ ci.toNat → k = countNonempty cl)) := by
  unfold grasp at heq
  cases ht : graspTrials g ci sz gi.toNat g.n [] r with
  | error e =>
    rw [ht] at heq
    exact absurd (show (Except.error e :
      Except String (Nat × List (List Nat))) = .ok (k, cl) from heq) (by simp)
  | ok p =>
    rw [ht] at heq
    have heq2 : (Except.ok p.1 :
        Except String (Nat × List (List Nat))) = .ok (k, cl) := heq
    injection heq2 with h2
    have hgt := graspTrials_ok hw gi.toNat g.n [] r p (Nat.le_refl _)
      (fun _ => rfl) (fun hne => absurd rfl hne) ht
    rw [h2] at hgt
    exact hgt

/-- On the complete graph, a partitioned proper class list must use at
least n slots below any empty tail: the class index map is injective. -/
theorem complete_lower {n m : Nat} {cl : List (List Nat)}
    (hpart : Partitioned (completeGraph n) cl)
    (hprop : ProperCl (completeGraph n) cl)
    (hm : ∀ j, m ≤ j → cl.getD j [] = []) : n ≤ m := by
  have hgn : (completeGraph n).n = n := rfl
  have hcnt : ∀ v, v < n → countIn cl v = 1 := by
    intro v hv
    exact hpart.1 v (by rw [hgn]; exact hv)
  have hmaps : ∀ v ∈ Finset.range n, colorOf cl v - 1 ∈ Finset.range m := by
    intro v hv
    rw [Finset.mem_range] at hv ⊢
    have hc1 : countIn cl v = 1 := hcnt v hv
    have hmem : v ∈ cl.getD (colorOf cl v - 1) [] :=
      mem_class_of_countIn_pos (by omega)
    by_contra hge
    rw [hm _ (by omega)] at hmem
    exact List.not_mem_nil _ hmem
  have hinj : ∀ u ∈ Finset.range n, ∀ v ∈ Finset.range n,
      colorOf cl u - 1 = colorOf cl v - 1 → u = v := by
    intro u hu v hv hcol
    rw [Finset.mem_range] at hu hv
    by_contra hne
    have hcu : countIn cl u = 1 := hcnt u hu
    have hcv : countIn cl v = 1 := hcnt v hv
    have hpu : 0 < colorOf cl u := colorOf_pos (by omega)
    have hpv : 0 < colorOf cl v := colorOf_pos (by omega)
    have hmu : u ∈ cl.getD (colorOf cl u - 1) [] :=
      mem_class_of_countIn_pos (by omega)
    have hmv : v ∈ cl.getD (colorOf cl v - 1) [] :=
      mem_class_of_countIn_pos (by omega)
    rw [hcol] at hmu
    have hlt : colorOf cl v - 1 < cl.length := colorOf_sub_one_lt (by omega)
    have hclass : cl.getD (colorOf cl v - 1) [] ∈ cl := by
      rw [List.getD_eq_getElem _ _ hlt]
      exact List.getElem_mem hlt
    have hadj := hprop _ hclass u hmu v hmv
    have : (completeGraph n).adj u v = true := by
      show (decide (u < n) && decide (v < n) && decide (u ≠ v)) = true
      rw [decide_eq_true hu, decide_eq_true hv, decide_eq_true hne]
      rfl
    rw [this] at hadj
    exact absurd hadj (by simp)
  have hcard := Finset.card_le_card_of_injOn (fun v => colorOf cl v - 1)
    hmaps hinj
  rw [Finset.card_range, Finset.card_range] at hcard
  exact hcard

/-- On the complete graph the merge of improve_phase cannot reach zero
forbidden edges, so the first loop iteration returns the input state. -/
theorem K_improveLoop {n : Nat} (hn : 2 ≤ n) {cl0 : List (List Nat)} {r : RS}
    {p : (Nat × List (List Nat)) × RS}
    (hpart : Partitioned (completeGraph n) cl0)
    (hlen : cl0.length = n)
    (heq : improveLoop (completeGraph n) (n + 1) n cl0 r = .ok p) :
    p.1.1 = n := by
  rw [improveLoop] at heq
  have heq2 : (buildNewClasses
      (((sortByKeyDesc ((cl0.enum.map (fun ic => (ic.1, ic.2.length))).take
        n)).reverse.take 2).map Prod.fst) cl0
      ((((sortByKeyDesc ((cl0.enum.map (fun ic => (ic.1, ic.2.length))).take
        n)).reverse.take 2).map Prod.fst).foldl
          (fun acc idx => acc ++ cl0.getD idx []) []) >>= fun newClasses =>
      localSearch (completeGraph n) newClasses r >>= fun q =>
      match q with
      | ((numForbidden, newClasses'), r') =>
        if numForbidden = 0 then
          improveLoop (completeGraph n) n newClasses'.length newClasses' r'
        else Except.ok ((n, cl0), r')) = .ok p := heq
  have h2 : 2 ≤ min n cl0.length := by
    rw [hlen]
    omega
  obtain ⟨s0, s1, hS, hne, hs0k, hs0l, hs1k, hs1l⟩ := smallest_spec h2
  rw [hS] at heq2
  rw [buildNewClasses_two] at heq2
  have heq3 : (localSearch (completeGraph n)
      ((cl0.getD s0 [] ++ cl0.getD s1 []) ::
        (cl0.enum.filter (fun ic =>
          !(ic.1 == s0) && (!(ic.1 == s1) && !ic.2.isEmpty))).map
            Prod.snd) r >>= fun q =>
      match q with
      | ((numForbidden, newClasses'), r') =>
        if numForbidden = 0 then
          improveLoop (completeGraph n) n newClasses'.length newClasses' r'
        else Except.ok ((n, cl0), r')) = .ok p := heq2
  have hNCpart : Partitioned (completeGraph n)
      ((cl0.getD s0 [] ++ cl0.getD s1 []) ::
        (cl0.enum.filter (fun ic =>
          !(ic.1 == s0) && (!(ic.1 == s1) && !ic.2.isEmpty))).map
            Prod.snd) := by
    constructor
    · intro v hv
      rw [merge_countIn hne hs0l hs1l v]
      exact hpart.1 v hv
    · intro v hv
      rw [merge_countIn hne hs0l hs1l v] at hv
      exact hpart.2 v hv
  cases hls : localSearch (completeGraph n)
      ((cl0.getD s0 [] ++ cl0.getD s1 []) ::
        (cl0.enum.filter (fun ic =>
          !(ic.1 == s0) && (!(ic.1 == s1) && !ic.2.isEmpty))).map
            Prod.snd) r with
  | error e =>
    rw [hls] at heq3
    exact absurd (show (Except.error e :
      Except String ((Nat × List (List Nat)) × RS)) = .ok p from heq3) (by simp)
  | ok q =>
    obtain ⟨⟨nf, nc⟩, r'⟩ := q
    rw [hls] at heq3
    have heq4 : (if nf = 0 then
        improveLoop (completeGraph n) n nc.length nc r'
      else Except.ok ((n, cl0), r')) = .ok p := heq3
    have hspec := localSearch_ok_spec (completeGraph_wf n) hNCpart hls
    have hsp1 : Partitioned (completeGraph n) nc := hspec.1
    have hsp2 : nf = (getForbidden (completeGraph n) nc).1 := hspec.2.1
    have hnf : ¬nf = 0 := by
      intro h0
      have hproper : ProperCl (completeGraph n) nc := by
        apply proper_of_getForbidden_zero (completeGraph_wf n) hsp1
        rw [← hsp2]
        exact h0
      have hlow : n ≤ nc.length := complete_lower hsp1 hproper
        (fun j hj => getD_nil_of_ge hj)
      have hml := merge_length hne hs0l hs1l
      have hlnc : nc.length = ((cl0.getD s0 [] ++ cl0.getD s1 []) ::
          (cl0.enum.filter (fun ic =>
            !(ic.1 == s0) && (!(ic.1 == s1) && !ic.2.isEmpty))).map
              Prod.snd).length := hspec.2.2.1
      rw [List.length_cons] at hlnc
      omega
    rw [if_neg hnf] at heq4
    injection heq4 with h4
    subst h4
    rfl

/-- One improve_phase on the complete graph keeps the class count at n. -/
theorem K_improvePhase {n : Nat} (hn : 2 ≤ n) {cl0 : List (List Nat)} {r : RS}
    {res : (Nat × List (List Nat)) × RS}
    (hpart : Partitioned (completeGraph n) cl0)
    (hlen : cl0.length = n)
    (heq : improvePhase (completeGraph n) n cl0 r = .ok res) :
    res.1.1 = n := by
  unfold improvePhase at heq
  cases hil : improveLoop (completeGraph n) (n + 1) n cl0 r with
  | error e =>
    rw [hil] at heq
    exact absurd (show (Except.error e :
      Except String ((Nat × List (List Nat)) × RS)) = .ok res from heq) (by simp)
  | ok p =>
    obtain ⟨⟨nc, cl1⟩, r'⟩ := p
    rw [hil] at heq
    have heq2 : (Except.ok ((nc, resizeTo (completeGraph n).n cl1), r') :
        Except String ((Nat × List (List Nat)) × RS)) = .ok res := heq
    injection heq2 with h2
    subst h2
    have hres := K_improveLoop hn hpart hlen hil
    exact hres

/-- On the complete graph no trial ever improves on the initial bound n,
so the best pair stays (n, []). -/
theorem K_trials {n : Nat} (hn : 2 ≤ n) {ci : Int} {sz : Nat} :
    ∀ k r res, graspTrials (completeGraph n) ci sz k n [] r = .ok res →
    res.1 = (n, []) := by
  intro k
  induction k with
  | zero =>
    intro r res heq
    rw [graspTrials] at heq
    injection heq with h1
    subst h1
    rfl
  | succ k ih =>
    intro r res heq
    rw [graspTrials] at heq
    have heq2 : (graspWhile (completeGraph n) ci sz (n + 1) 0 (List.range n)
        (List.replicate n []) r >>= fun q =>
        match q with
        | ((numCC, classList), r') =>
          improvePhase (completeGraph n) numCC classList r' >>= fun q2 =>
          match q2 with
          | ((numCC', classList'), r'') =>
            if numCC' < n then
              graspTrials (completeGraph n) ci sz k numCC' classList' r''
            else graspTrials (completeGraph n) ci sz k n [] r'') =
        .ok res := heq
    cases hgw : graspWhile (completeGraph n) ci sz (n + 1) 0 (List.range n)
        (List.replicate n []) r with
    | error e =>
      rw [hgw] at heq2
      exact absurd (show (Except.error e :
        Except String ((Nat × List (List Nat)) × RS)) = .ok res from heq2)
        (by simp)
    | ok q =>
      obtain ⟨⟨numCC, cl0⟩, r'⟩ := q
      rw [hgw] at heq2
      have heq3 : (improvePhase (completeGraph n) numCC cl0 r' >>= fun q2 =>
          match q2 with
          | ((numCC', classList'), r'') =>
            if numCC' < n then
              graspTrials (completeGraph n) ci sz k numCC' classList' r''
            else graspTrials (completeGraph n) ci sz k n [] r'') =
          .ok res := heq2
      have hgwo := graspWhile_ok (completeGraph_wf n) (n + 1) 0 (List.range n)
        (List.replicate n []) r ((numCC, cl0), r')
        (fun x hx => List.mem_range.mp hx) (List.nodup_range n)
        (List.length_replicate _ _)
        (fun v => by
          show countIn (List.replicate n []) v + (List.range n).count v =
            if v < n then 1 else 0
          rw [countIn_eq_zero_of_all_nil
            (fun c hc => List.eq_of_mem_replicate hc) v, count_range]
          omega)
        (by
          intro c hc u hu w hwc
          exfalso
          rw [List.eq_of_mem_replicate hc] at hu
          exact List.not_mem_nil u hu)
        (fun j _ => getD_replicate_nil _ _)
        (fun j hj => by omega)
        (Nat.zero_le _) hgw
      obtain ⟨h1, h2, h3, h4, h5, h6, h7⟩ := hgwo
      have hpart0 : Partitioned (completeGraph n) cl0 := ⟨h1, h2⟩
      have h5' : ∀ j, numCC ≤ j → cl0.getD j [] = [] := h5
      have h7' : numCC ≤ n := h7
      have hlow := complete_lower hpart0 h4 h5'
      have hnum : numCC = n := by omega
      rw [hnum] at heq3
      have hlen0 : cl0.length = n := h3
      cases hip : improvePhase (completeGraph n) n cl0 r' with
      | error e =>
        rw [hip] at heq3
        exact absurd (show (Except.error e :
          Except String ((Nat × List (List Nat)) × RS)) = .ok res from heq3)
          (by simp)
      | ok q2 =>
        obtain ⟨⟨nc', cl'⟩, r''⟩ := q2
        rw [hip] at heq3
        have heq4 : (if nc' < n then
            graspTrials (completeGraph n) ci sz k nc' cl' r''
          else graspTrials (completeGraph n) ci sz k n [] r'') = .ok res := heq3
        have hq : nc' = n := K_improvePhase hn hpart0 hlen0 hip
        rw [hq] at heq4
        rw [if_neg (Nat.lt_irrefl n)] at heq4
        exact ih r'' res heq4

theorem assignLoop_csize_error {g : Graph} {V : List Nat} {r : RS}
    (hne : V.isEmpty = false) (fuel : Nat) :
    assignLoop g 0 (fuel + 1) V [] [] r = .error "CSize must be at least 1" := by
  rw [assignLoop]
  rw [if_neg (by rw [hne]; exact Bool.false_ne_true)]
  rfl

theorem assignColor_csize_error {g : Graph} {V : List Nat} {minRem : Nat}
    {cl : List (List Nat)} {numCC : Nat} {r : RS} (hne : V.isEmpty = false) :
    assignColor g V 0 minRem cl numCC r = .error "CSize must be at least 1" := by
  unfold assignColor
  rw [assignLoop_csize_error hne V.length]
  rfl

theorem colorIters_csize_error {g : Graph} {V : List Nat}
    {numCC k minRem : Nat} {cl : List (List Nat)} {r : RS}
    (hne : V.isEmpty = false) (hk : 1 ≤ k) :
    colorIters g V 0 numCC k minRem cl r = .error "CSize must be at least 1" := by
  obtain ⟨m, rfl⟩ : ∃ m, k = m + 1 := ⟨k - 1, by omega⟩
  rw [colorIters]
  rw [assignColor_csize_error hne]
  rfl

theorem graspWhile_csize_error {g : Graph} {ci : Int} {r : RS}
    (hn : 1 ≤ g.n) (hci : 1 ≤ ci.toNat) :
    graspWhile g ci 0 (g.n + 1) 0 (List.range g.n) (List.replicate g.n []) r =
    .error "CSize must be at least 1" := by
  rw [graspWhile]
  have hre : (List.range g.n).isEmpty = false := by
    rw [List.isEmpty_eq_false]
    intro h
    have hl := List.length_range g.n
    rw [h] at hl
    rw [show ([] : List Nat).length = 0 from rfl] at hl
    omega
  rw [if_neg (by rw [hre]; exact Bool.false_ne_true)]
  rw [colorIters_csize_error hre hci]
  rfl

/-- C1: whenever grasp returns a pair (k, class_list) on a well-formed
graph with all three parameters at least 1, no two adjacent vertices share
a class of class_list: the returned class list is a proper coloring. -/
theorem C1_grasp_returns_proper_coloring (g : Graph) (gi ci : Int) (sz : Nat)
    (r : RS) (k : Nat) (cl : List (List Nat)) (hw : g.wf)
    (hgi : 1 ≤ gi.toNat) (hci : 1 ≤ ci.toNat) (hsz : 1 ≤ sz)
    (heq : grasp g gi ci sz r = .ok (k, cl)) :
    ∀ u v, g.adj u v = true → ∀ c ∈ cl, ¬(u ∈ c ∧ v ∈ c) := by
  intro u v hadj c hc huv
  have hs := grasp_ok_spec hw heq
  have hne : cl ≠ [] := List.ne_nil_of_mem hc
  have hprop := (hs.2.2 hne).2.1
  have hfalse := hprop c hc u huv.1 v huv.2
  rw [hfalse] at hadj
  exact absurd hadj (by simp)

/-- C1 witness: a run on the complete graph K2 returning (2, []). -/
theorem C1_grasp_returns_proper_coloring_witness :
    ((completeGraph 2).wf ∧ 1 ≤ (1 : Int).toNat ∧ 1 ≤ (1 : Int).toNat ∧
      1 ≤ 1 ∧ grasp (completeGraph 2) 1 1 1 rngZero = .ok (2, [])) ∧
    (∀ u v, (completeGraph 2).adj u v = true →
      ∀ c ∈ ([] : List (List Nat)), ¬(u ∈ c ∧ v ∈ c)) :=
  ⟨⟨completeGraph_wf 2, by decide, by decide, by decide, rfl⟩,
   C1_grasp_returns_proper_coloring (completeGraph 2) 1 1 1 rngZero 2 []
     (completeGraph_wf 2) (by decide) (by decide) (by decide) rfl⟩

/-- C2 (amended): the returned count never exceeds n, and it equals the
number of non-empty classes whenever the class list is non-empty (under
the usize-arithmetic bound n * n < usize::MAX ruling out a saturated
minimum).  The claim as stated fails on the empty best list. -/
theorem C2_num_colors_amended (g : Graph) (gi ci : Int) (sz : Nat) (r : RS)
    (k : Nat) (cl : List (List Nat)) (hw : g.wf)
    (hgi : 1 ≤ gi.toNat) (hci : 1 ≤ ci.toNat) (hsz : 1 ≤ sz)
    (heq : grasp g gi ci sz r = .ok (k, cl)) :
    k ≤ g.n ∧ (g.n * g.n < USIZE_MAX → cl ≠ [] → k = countNonempty cl) := by
  have hs := grasp_ok_spec hw heq
  exact ⟨hs.1, fun hb hne => (hs.2.2 hne).2.2.2 hb hci⟩

/-- C2 counterexample: on K2 with all parameters 1 the program returns
num_colors = 2 with an empty class list, whose non-empty class count is 0,
so num_colors does not equal the number of non-empty classes. -/
theorem C2_num_colors_counterexample :
    grasp (completeGraph 2) 1 1 1 rngZero = .ok (2, []) ∧
    countNonempty ([] : List (List Nat)) = 0 ∧ 2 ≠ 0 :=
  ⟨rfl, rfl, by decide⟩

/-- C2 witness: a run on the path 0-1-2 returning a non-empty class list
with 2 = countNonempty. -/
theorem C2_num_colors_amended_witness :
    ((graphOfEdges 3 [(0, 1), (1, 2)]).wf ∧ 1 ≤ (1 : Int).toNat ∧
      1 ≤ (1 : Int).toNat ∧ 1 ≤ 1 ∧
      grasp (graphOfEdges 3 [(0, 1), (1, 2)]) 1 1 1 rngZero =
        .ok (2, [[1], [0, 2], []])) ∧
    (2 ≤ (graphOfEdges 3 [(0, 1), (1, 2)]).n ∧
      ((graphOfEdges 3 [(0, 1), (1, 2)]).n * (graphOfEdges 3 [(0, 1), (1, 2)]).n
        < USIZE_MAX → [[1], [0, 2], []] ≠ ([] : List (List Nat)) →
        2 = countNonempty [[1], [0, 2], []])) :=
  ⟨⟨graphOfEdges_wf 3 _, by decide, by decide, by decide, rfl⟩,
   C2_num_colors_amended (graphOfEdges 3 [(0, 1), (1, 2)]) 1 1 1 rngZero 2
     [[1], [0, 2], []] (graphOfEdges_wf 3 _) (by decide) (by decide)
     (by decide) rfl⟩

/-- C3 (code bug): on the edgeless graph with 2 vertices and all
parameters 1, grasp panics with an out-of-bounds index instead of
returning (1, single class): the construction colors every vertex in one
round, and improve_phase reads smallest_lengths[1] of a one-element
list. -/
theorem C3_edgeless_code_bug :
    grasp (edgeless 2) 1 1 1 rngZero = .error "index out of bounds" := rfl

/-- C4: on the complete graph (n at least 2) every successful run returns
num_colors = n, and every class of the returned list is a singleton (the
returned list is empty, so the singleton clause holds vacuously); in
particular every successful K3 run returns 3. -/
theorem C4_complete_graph (n : Nat) (gi ci : Int) (sz : Nat) (r : RS)
    (k : Nat) (cl : List (List Nat)) (hn : 2 ≤ n)
    (hgi : 1 ≤ gi.toNat) (hci : 1 ≤ ci.toNat) (hsz : 1 ≤ sz)
    (heq : grasp (completeGraph n) gi ci sz r = .ok (k, cl)) :
    k = n ∧ ∀ c ∈ cl, ∃ v, c = [v] := by
  unfold grasp at heq
  cases ht : graspTrials (completeGraph n) ci sz gi.toNat
      (completeGraph n).n [] r with
  | error e =>
    rw [ht] at heq
    exact absurd (show (Except.error e :
      Except String (Nat × List (List Nat))) = .ok (k, cl) from heq) (by simp)
  | ok p =>
    rw [ht] at heq
    have heq2 : (Except.ok p.1 :
        Except String (Nat × List (List Nat))) = .ok (k, cl) := heq
    injection heq2 with h2
    have hkt : p.1 = (n, []) := K_trials hn gi.toNat r p ht
    rw [h2] at hkt
    rw [Prod.mk.injEq] at hkt
    refine ⟨hkt.1, ?_⟩
    intro c hc
    rw [hkt.2] at hc
    exact absurd hc (List.not_mem_nil c)

/-- C4 witness: a K3 run with all parameters 2. -/
theorem C4_complete_graph_witness :
    (2 ≤ 3 ∧ 1 ≤ (2 : Int).toNat ∧ 1 ≤ (2 : Int).toNat ∧ 1 ≤ 2 ∧
      grasp (completeGraph 3) 2 2 2 rngZero = .ok (3, [])) ∧
    (3 = 3 ∧ ∀ c ∈ ([] : List (List Nat)), ∃ v, c = [v]) :=
  ⟨⟨by decide, by decide, by decide, by decide, rfl⟩,
   C4_complete_graph 3 2 2 2 rngZero 3 [] (by decide) (by decide) (by decide)
     (by decide) rfl⟩

/-- C5 (amended): whenever grasp returns (k, class_list) with a non-empty
class list, every vertex below n appears in exactly one class and nothing
out of range appears at all.  The claim as stated fails on the empty best
list, in which no vertex appears. -/
theorem C5_vertex_partition_amended (g : Graph) (gi ci : Int) (sz : Nat)
    (r : RS) (k : Nat) (cl : List (List Nat)) (hw : g.wf)
    (hgi : 1 ≤ gi.toNat) (hci : 1 ≤ ci.toNat) (hsz : 1 ≤ sz)
    (heq : grasp g gi ci sz r = .ok (k, cl)) (hne : cl ≠ []) :
    (∀ v, v < g.n → countIn cl v = 1) ∧
    (∀ v, 0 < countIn cl v → v < g.n) := by
  have hs := grasp_ok_spec hw heq
  exact (hs.2.2 hne).1

/-- C5 counterexample: a K3 run returns (3, []) although vertex 0 < 3 is
in no class of the empty returned list. -/
theorem C5_vertex_partition_counterexample :
    grasp (completeGraph 3) 2 2 2 rngZero = .ok (3, []) ∧ (0 : Nat) < 3 ∧
    countIn ([] : List (List Nat)) 0 ≠ 1 :=
  ⟨rfl, by decide, by decide⟩

/-- C5 witness: a run on the path 0-1-2 whose non-empty returned list
holds each of the three vertices exactly once. -/
theorem C5_vertex_partition_amended_witness :
    ((graphOfEdges 3 [(0, 1), (1, 2)]).wf ∧ 1 ≤ (1 : Int).toNat ∧
      1 ≤ (1 : Int).toNat ∧ 1 ≤ 1 ∧
      grasp (graphOfEdges 3 [(0, 1), (1, 2)]) 1 1 1 rngZero =
        .ok (2, [[1], [0, 2], []]) ∧ [[1], [0, 2], []] ≠ ([] : List (List Nat))) ∧
    ((∀ v, v < (graphOfEdges 3 [(0, 1), (1, 2)]).n →
        countIn [[1], [0, 2], []] v = 1) ∧
     (∀ v, 0 < countIn [[1], [0, 2], []] v →
        v < (graphOfEdges 3 [(0, 1), (1, 2)]).n)) :=
  ⟨⟨graphOfEdges_wf 3 _, by decide, by decide, by decide, rfl, by decide⟩,
   C5_vertex_partition_amended (graphOfEdges 3 [(0, 1), (1, 2)]) 1 1 1 rngZero
     2 [[1], [0, 2], []] (graphOfEdges_wf 3 _) (by decide) (by decide)
     (by decide) rfl (by decide)⟩

/-- C6: with color_list_size = 0, on any graph with at least one vertex
and positive iteration counts, the first candidate-list pick aborts the
whole run with the message "CSize must be at least 1"; no result is ever
returned. -/
theorem C6_zero_csize_aborts (g : Graph) (gi ci : Int) (r : RS)
    (hn : 1 ≤ g.n) (hgi : 1 ≤ gi.toNat) (hci : 1 ≤ ci.toNat) :
    grasp g gi ci 0 r = .error "CSize must be at least 1" := by
  unfold grasp
  obtain ⟨m, hm⟩ : ∃ m, gi.toNat = m + 1 := ⟨gi.toNat - 1, by omega⟩
  rw [hm]
  rw [graspTrials]
  rw [graspWhile_csize_error hn hci]
  rfl

/-- C6 witness: the one-vertex complete graph with both iteration counts
1 aborts with the CSize message. -/
theorem C6_zero_csize_aborts_witness :
    (1 ≤ (completeGraph 1).n ∧ 1 ≤ (1 : Int).toNat ∧ 1 ≤ (1 : Int).toNat) ∧
    grasp (completeGraph 1) 1 1 0 rngZero = .error "CSize must be at least 1" :=
  ⟨⟨by decide, by decide, by decide⟩,
   C6_zero_csize_aborts (completeGraph 1) 1 1 rngZero (by decide) (by decide)
     (by decide)⟩

end GCP
